import Mathlib

/-!
# TiCDC owner loop: changefeed controller, async sink, DDL puller, sink manager, reactor state

A shallow embedding of `cdc/replication/changefeed.go`, `cdc/owner/async_sink.go`,
`cdc/owner/ddl_puller.go`, `cdc/sink/manager.go` and `cdc/model/reactor_state.go`, with the
properties of the controller's barrier and resolved-ts arithmetic, of the async sink's DDL
and checkpoint paths, of the DDL puller's pending queue, of the sink manager's flush
watermark, and of the reactor state and its patches.

Conventions of the embedding:

* `uint64` values are natural numbers; the wrapping operations of Go are written
  with an explicit `% 2 ^ 64` (`add64`, `sub64`).  A state is well formed (`WF`)
  when every `uint64` field is below `2 ^ 64`.
* A Go map is an association list; `mapGet` reads a key, `mapSet` and `mapDelete`
  remove every entry of the key before (re)inserting, so they agree with the Go
  operations on every list, with or without repeated keys (`kvGet`, `kvSet`, `kvDelete`
  are the same for any key type).
* `log.Panic` is `Except.error` carrying the message of the panic.
* Methods with a pointer receiver pass the state explicitly.
* An interface implemented elsewhere (scheduler, backend sink) is the record of the calls
  made to it; what it returns is an argument of the operation that calls it.
* A `select` takes the case it is told to take; an operation that blocks returns `none`.
* A call on the async sink and an iteration of its worker are one step each (`step`); for
  the invariant between `ddlSentTs` and `ddlFinishedTs` the two goroutines are interleaved
  statement by statement (`fineState.step`).
* The table sinks of the sink manager are addresses into a store of `tableSink` values.
* The JSON codec, the key syntax and the record types of the reactor state are a
  parameter (`model.Codec`).
-/

namespace model

/-- The type `model.TableID` is `int64`; only equality on it is used. -/
abbrev TableID := Int

/-- The type `model.Ts` is `uint64`. -/
abbrev Ts := Nat

end model

/-- The constant `math.MaxUint64`. -/
def MaxUint64 : Nat := 2 ^ 64 - 1

/-- Addition of `uint64` values, wrapping as in Go. -/
def add64 (a b : Nat) : Nat := (a + b) % 2 ^ 64

/-- Subtraction of `uint64` values, wrapping as in Go. -/
def sub64 (a b : Nat) : Nat := (a % 2 ^ 64 + (2 ^ 64 - b % 2 ^ 64)) % 2 ^ 64

/-- Reading `m[k]` with the comma-ok form: `none` when the key is absent. -/
def mapGet {β : Type} (m : List (model.TableID × β)) (k : model.TableID) : Option β :=
  (m.find? (fun p => p.1 == k)).map Prod.snd

/-- The builtin `delete(m, k)`. -/
def mapDelete {β : Type} (m : List (model.TableID × β)) (k : model.TableID) :
    List (model.TableID × β) :=
  m.filter (fun p => !(p.1 == k))

/-- The assignment `m[k] = v`. -/
def mapSet {β : Type} (m : List (model.TableID × β)) (k : model.TableID) (v : β) :
    List (model.TableID × β) :=
  (k, v) :: mapDelete m k

namespace replication

/-- The struct `tableTask`. -/
structure tableTask where
  TableID : model.TableID
  CheckpointTs : Nat
  ResolvedTs : Nat
  deriving DecidableEq, Repr

/-- The type `barrierType` is an alias of `int`. -/
abbrev barrierType := Int

/-- The only barrier type constant, `DDLBarrier = barrierType(iota)`. -/
def DDLBarrier : barrierType := 0

/-- The struct `barrier`. -/
structure barrier where
  BarrierType : barrierType
  BarrierTs : Nat
  deriving DecidableEq, Repr

/-- The type `ddlResultAction` is an alias of `string`. -/
abbrev ddlResultAction := String

/-- The constant `AddTableAction`. -/
def AddTableAction : ddlResultAction := "add"

/-- The constant `DropTableAction`. -/
def DropTableAction : ddlResultAction := "drop"

/-- The struct `ddlResult`. -/
structure ddlResult where
  FinishTs : Nat
  Action : ddlResultAction
  tableID : model.TableID
  deriving DecidableEq, Repr

/-- The `scheduler` interface is implemented outside the controller; the embedding
records every `SyncTasks` call with the table set it was given. -/
structure scheduler where
  syncCalls : List (List (model.TableID × tableTask))
  deriving DecidableEq, Repr

/-- The interface method `scheduler.SyncTasks`, recorded. -/
def scheduler.SyncTasks (s : scheduler) (tasks : List (model.TableID × tableTask)) :
    scheduler :=
  { syncCalls := s.syncCalls ++ [tasks] }

/-- The struct `changeFeed`. -/
structure changeFeed where
  TableTasks : List (model.TableID × tableTask)
  CheckpointTs : Nat
  DDLResolvedTs : Nat
  Barriers : List barrier
  Scheduler : scheduler
  deriving DecidableEq, Repr

/-- Every `uint64` field of the state holds a 64-bit value. -/
def changeFeed.WF (cf : changeFeed) : Prop :=
  cf.CheckpointTs < 2 ^ 64 ∧ cf.DDLResolvedTs < 2 ^ 64 ∧
  (∀ b ∈ cf.Barriers, b.BarrierTs < 2 ^ 64) ∧
  (∀ p ∈ cf.TableTasks, p.2.CheckpointTs < 2 ^ 64 ∧ p.2.ResolvedTs < 2 ^ 64)

instance (cf : changeFeed) : Decidable cf.WF := by
  unfold changeFeed.WF; infer_instance

/-- The method `changeFeed.SetDDLResolvedTs`. -/
def changeFeed.SetDDLResolvedTs (cf : changeFeed) (ddlResolvedTs : Nat) : changeFeed :=
  { cf with DDLResolvedTs := ddlResolvedTs }

/-- The first guard of `AddDDLBarrier`:
`len(cf.Barriers) > 0 && barrierTs > cf.Barriers[len(cf.Barriers)-1].BarrierTs`. -/
def changeFeed.barrierTooLarge (cf : changeFeed) (barrierTs : Nat) : Bool :=
  match cf.Barriers.getLast? with
  | some last => decide (barrierTs > last.BarrierTs)
  | none => false

/-- The method `changeFeed.AddDDLBarrier`. -/
def changeFeed.AddDDLBarrier (cf : changeFeed) (barrierTs : Nat) : Except String changeFeed :=
  if cf.barrierTooLarge barrierTs then
    .error "changeFeed: DDLBarrier too large"
  else if barrierTs < cf.DDLResolvedTs then
    .error "changeFeed: DDLBarrier too small"
  else
    .ok { cf with
      Barriers := cf.Barriers ++ [{ BarrierType := DDLBarrier, BarrierTs := barrierTs }] }

/-- The method `changeFeed.ShouldRunDDL`; the receiver is returned next to the
result (`none` is the `nil` barrier). -/
def changeFeed.ShouldRunDDL (cf : changeFeed) : Except String (changeFeed × Option barrier) :=
  match cf.Barriers with
  | b :: _ =>
    if b.BarrierTs = add64 cf.CheckpointTs 1 ∧ b.BarrierType = DDLBarrier then
      .ok (cf, some b)
    else if b.BarrierTs ≤ cf.CheckpointTs then
      .error "changeFeed: Checkpoint run past barrier"
    else
      .ok (cf, none)
  | [] => .ok (cf, none)

/-- The method `changeFeed.MarkDDLDone`. -/
def changeFeed.MarkDDLDone (cf : changeFeed) (result : ddlResult) : Except String changeFeed :=
  if cf.CheckpointTs ≠ sub64 result.FinishTs 1 then
    .error "changeFeed: Unexpected checkpoint when DDL is done"
  else
    match cf.Barriers with
    | [] => .error "changeFeed: no DDL barrier found"
    | b :: rest =>
      if b.BarrierType ≠ DDLBarrier ∨ b.BarrierTs ≠ result.FinishTs then
        .error "changeFeed: no DDL barrier found"
      else if result.Action = AddTableAction then
        let tasks := mapSet cf.TableTasks result.tableID
          { TableID := result.tableID, CheckpointTs := cf.CheckpointTs, ResolvedTs := 0 }
        .ok { cf with
          Barriers := rest, TableTasks := tasks, Scheduler := cf.Scheduler.SyncTasks tasks }
      else if result.Action = DropTableAction then
        match mapGet cf.TableTasks result.tableID with
        | none => .error "changeFeed: Dropping unknown table"
        | some _ =>
          let tasks := mapDelete cf.TableTasks result.tableID
          .ok { cf with
            Barriers := rest, TableTasks := tasks, Scheduler := cf.Scheduler.SyncTasks tasks }
      else
        .error "changeFeed: unknown action"

/-- The loop of `ResolvedTs` over the table tasks, starting from `acc`. -/
def minTableResolvedTs (tasks : List (model.TableID × tableTask)) (acc : Nat) : Nat :=
  tasks.foldl (fun resolvedTs p =>
    if resolvedTs > p.2.ResolvedTs then p.2.ResolvedTs else resolvedTs) acc

/-- The method `changeFeed.ResolvedTs`. -/
def changeFeed.ResolvedTs (cf : changeFeed) : Nat :=
  let resolvedTs := minTableResolvedTs cf.TableTasks MaxUint64
  let resolvedTs :=
    match cf.Barriers with
    | b :: _ => if resolvedTs > sub64 b.BarrierTs 1 then sub64 b.BarrierTs 1 else resolvedTs
    | [] => resolvedTs
  if resolvedTs > cf.DDLResolvedTs then cf.DDLResolvedTs else resolvedTs

/-- The bound that the head barrier puts on the resolved-ts: `Barriers[0].BarrierTs - 1`. -/
def changeFeed.barrierBound (cf : changeFeed) : Option Nat :=
  cf.Barriers.head?.map (fun b => sub64 b.BarrierTs 1)

/-- The invariant I3 of the controller: `CheckpointTs ≤ ResolvedTs()`. -/
def changeFeed.checkpointBelowResolved (cf : changeFeed) : Prop :=
  cf.CheckpointTs ≤ cf.ResolvedTs

instance (cf : changeFeed) : Decidable cf.checkpointBelowResolved := by
  unfold changeFeed.checkpointBelowResolved; infer_instance

/-- The first half of invariant I2: the barrier list is non-decreasing in `BarrierTs`. -/
def changeFeed.barriersSorted (cf : changeFeed) : Prop :=
  cf.Barriers.Pairwise (fun a b => a.BarrierTs ≤ b.BarrierTs)

instance (cf : changeFeed) : Decidable cf.barriersSorted := by
  unfold changeFeed.barriersSorted; infer_instance

/-- The second half of invariant I2: the head barrier is above the checkpoint. -/
def changeFeed.headAboveCheckpoint (cf : changeFeed) : Prop :=
  ∀ b, cf.Barriers.head? = some b → cf.CheckpointTs < b.BarrierTs

instance (cf : changeFeed) : Decidable cf.headAboveCheckpoint := by
  unfold changeFeed.headAboveCheckpoint
  cases h : cf.Barriers.head? with
  | none => exact isTrue (by simp)
  | some b =>
    by_cases hb : cf.CheckpointTs < b.BarrierTs
    · exact isTrue (by intro b' hb'; cases hb'; exact hb)
    · exact isFalse (by intro hh; exact hb (hh b rfl))

end replication

namespace owner

/-- Modelled from the spec: the struct `model.DDLEvent` is declared outside the given
sources. The async sink reads only its `CommitTs`; `Query` stands for the rest of the
event, so that two events with one commit-ts can differ. -/
structure DDLEvent where
  CommitTs : Nat
  Query : String
  deriving DecidableEq, Repr

/-- The error values the async sink tells apart: the `ErrDDLEventIgnored` sentinel, the
error of a cancelled context (`ctx.Err()`), and every other error. `errors.Trace` and
`errors.Cause` only add and strip a stack trace and are the identity here. -/
inductive Err where
  | ErrDDLEventIgnored
  | ErrExecDDLFailed
  | Canceled
  | other (msg : String)
  deriving DecidableEq, Repr

/-- The backend `sink.Sink` is an interface implemented elsewhere; the embedding records
the calls made to it: every `EmitDDLEvent` with the error it returned (`none` is `nil`),
and every `EmitCheckpointTs`. -/
structure backendSink where
  ddlCalls : List (DDLEvent × Option Err)
  checkpointCalls : List Nat
  deriving DecidableEq, Repr

/-- The struct `asyncSinkImpl` together with what its worker goroutine `run` holds:
the local `lastCheckpointTs`, whether the worker's context is cancelled, whether `run`
has returned, and the errors handed to `ctx.Throw`. -/
structure asyncSinkImpl where
  sink : backendSink
  checkpointTs : Nat
  ddlCh : List DDLEvent
  ddlFinishedTs : Nat
  ddlSentTs : Nat
  errCh : List Err
  lastCheckpointTs : Nat
  cancelled : Bool
  exited : Bool
  thrown : List Err
  deriving DecidableEq, Repr

/-- The capacity of `ddlCh`: `make(chan *model.DDLEvent, 1)`. -/
def ddlChCap : Nat := 1

/-- The state built by `newAsyncSink`: zero timestamps, empty channels, worker started. -/
def asyncSinkImpl.init : asyncSinkImpl :=
  { sink := { ddlCalls := [], checkpointCalls := [] }
    checkpointTs := 0, ddlCh := [], ddlFinishedTs := 0, ddlSentTs := 0, errCh := []
    lastCheckpointTs := 0, cancelled := false, exited := false, thrown := [] }

/-- The case a `select` statement takes in `EmitDDLEvent`. -/
inductive emitCase where
  | ctxDone
  | send
  deriving DecidableEq, Repr

/-- The method `asyncSinkImpl.EmitDDLEvent`. `ctxDone` tells whether the caller's context
is cancelled and `pick` is the case the `select` takes when both are ready. The result is
`none` while the `select` blocks (context live, channel full); otherwise the new state and
the returned pair `(done, err)`. -/
def asyncSinkImpl.EmitDDLEvent (s : asyncSinkImpl) (ctxDone : Bool) (pick : emitCase)
    (ddl : DDLEvent) : Option (asyncSinkImpl × Bool × Option Err) :=
  let ddlFinishedTs := s.ddlFinishedTs
  if ddl.CommitTs ≤ ddlFinishedTs then
    some (s, true, none)
  else if ddl.CommitTs ≤ s.ddlSentTs then
    some (s, false, none)
  else
    let canSend : Bool := decide (s.ddlCh.length < ddlChCap)
    let sent : asyncSinkImpl := { s with ddlCh := s.ddlCh ++ [ddl], ddlSentTs := ddl.CommitTs }
    match ctxDone, canSend with
    | false, false => none
    | true, false => some (s, false, some Err.Canceled)
    | false, true => some (sent, false, none)
    | true, true =>
      match pick with
      | .ctxDone => some (s, false, some Err.Canceled)
      | .send => some (sent, false, none)

/-- The method `asyncSinkImpl.EmitCheckpointTs`. -/
def asyncSinkImpl.EmitCheckpointTs (s : asyncSinkImpl) (ts : Nat) : asyncSinkImpl :=
  { s with checkpointTs := ts }

/-- The case a `select` statement takes in one iteration of `run`. -/
inductive runCase where
  | ctxDone
  | errCh
  | tick
  | ddl
  deriving DecidableEq, Repr

/-- The backend accepted a DDL: it returned `nil` or the ignored-DDL error. -/
def accepted (r : Option Err) : Bool :=
  match r with
  | none => true
  | some e => decide (e = Err.ErrDDLEventIgnored)

/-- One iteration of the loop of `asyncSinkImpl.run` taking case `c`; `res` is what the
backend call of this iteration returns. The result is `none` when the worker has returned
or the case is not ready. The failpoint is not injected. -/
def asyncSinkImpl.runStep (s : asyncSinkImpl) (c : runCase) (res : Option Err) :
    Option asyncSinkImpl :=
  if s.exited then none else
  match c with
  | .ctxDone => if s.cancelled then some { s with exited := true } else none
  | .errCh =>
    match s.errCh with
    | [] => none
    | err :: rest => some { s with errCh := rest, thrown := s.thrown ++ [err], exited := true }
  | .tick =>
    let checkpointTs := s.checkpointTs
    if checkpointTs = 0 ∨ checkpointTs ≤ s.lastCheckpointTs then some s
    else
      let s1 : asyncSinkImpl :=
        { s with
          lastCheckpointTs := checkpointTs
          sink := { s.sink with checkpointCalls := s.sink.checkpointCalls ++ [checkpointTs] } }
      match res with
      | some err => some { s1 with thrown := s1.thrown ++ [err], exited := true }
      | none => some s1
  | .ddl =>
    match s.ddlCh with
    | [] => none
    | ddl :: rest =>
      let s1 : asyncSinkImpl :=
        { s with
          ddlCh := rest
          sink := { s.sink with ddlCalls := s.sink.ddlCalls ++ [(ddl, res)] } }
      match res with
      | none => some { s1 with ddlFinishedTs := ddl.CommitTs }
      | some err =>
        if err = Err.ErrDDLEventIgnored then some { s1 with ddlFinishedTs := ddl.CommitTs }
        else some { s1 with thrown := s1.thrown ++ [err], exited := true }

/-- What happens to an async sink: a call of `EmitDDLEvent` or `EmitCheckpointTs` by the
owner, or one iteration of the worker. -/
inductive Event where
  | emitDDL (ctxDone : Bool) (pick : emitCase) (ddl : DDLEvent)
  | emitCheckpoint (ts : Nat)
  | worker (c : runCase) (res : Option Err)
  deriving DecidableEq, Repr

/-- The state after one event. A call that blocks and a worker case that is not ready
leave the state as it is. -/
def asyncSinkImpl.step (s : asyncSinkImpl) (e : Event) : asyncSinkImpl :=
  match e with
  | .emitDDL ctxDone pick ddl =>
    match s.EmitDDLEvent ctxDone pick ddl with
    | some (s1, _) => s1
    | none => s
  | .emitCheckpoint ts => s.EmitCheckpointTs ts
  | .worker c res => (s.runStep c res).getD s

/-- The state after a sequence of events. -/
def asyncSinkImpl.exec (s : asyncSinkImpl) (es : List Event) : asyncSinkImpl :=
  es.foldl asyncSinkImpl.step s

/-- The DDL events handed to `EmitDDLEvent` in a sequence of events, in call order. -/
def emittedDDLs (es : List Event) : List DDLEvent :=
  es.filterMap (fun e =>
    match e with
    | .emitDDL _ _ ddl => some ddl
    | _ => none)

/-- The DDL events the backend has been given, in call order. -/
def asyncSinkImpl.passed (s : asyncSinkImpl) : List DDLEvent :=
  s.sink.ddlCalls.map Prod.fst

/-- The backend was invoked with `ddl` and accepted it. -/
def asyncSinkImpl.backendAccepted (s : asyncSinkImpl) (ddl : DDLEvent) : Prop :=
  ∃ r, (ddl, r) ∈ s.sink.ddlCalls ∧ accepted r = true

end owner

namespace replication

/-- The state of the spec's scenario 1 after `AddDDLBarrier(11)`: checkpoint 10, no
table, one DDL barrier at 11. -/
def cfBarrier11 : changeFeed :=
  { TableTasks := [], CheckpointTs := 10, DDLResolvedTs := 11,
    Barriers := [{ BarrierType := DDLBarrier, BarrierTs := 11 }],
    Scheduler := { syncCalls := [] } }

/-- The result of scenario 1: `MarkDDLDone({finishTs:11, action:add, tableID:42})`. -/
def addTable42 : ddlResult :=
  { FinishTs := 11, Action := AddTableAction, tableID := 42 }

/-- A state with checkpoint 10, DDL resolved-ts 0 and one pending DDL barrier at 11. -/
def cfPending11 : changeFeed :=
  { TableTasks := [], CheckpointTs := 10, DDLResolvedTs := 0,
    Barriers := [{ BarrierType := DDLBarrier, BarrierTs := 11 }],
    Scheduler := { syncCalls := [] } }

/-- A state whose checkpoint is `MaxUint64` and whose head barrier is a DDL barrier at 0. -/
def cfWrap : changeFeed :=
  { TableTasks := [], CheckpointTs := 18446744073709551615, DDLResolvedTs := 18446744073709551615,
    Barriers := [{ BarrierType := DDLBarrier, BarrierTs := 0 }],
    Scheduler := { syncCalls := [] } }

/-- A state with no table and no barrier whose checkpoint has caught up with the DDL
resolved-ts, both 10. -/
def cfIdle10 : changeFeed :=
  { TableTasks := [], CheckpointTs := 10, DDLResolvedTs := 10, Barriers := [],
    Scheduler := { syncCalls := [] } }

/-- A state with table 42 resolved up to 10, checkpoint 10, and DDL barriers at 11 and 5. -/
def cfUnsorted : changeFeed :=
  { TableTasks := [(42, { TableID := 42, CheckpointTs := 10, ResolvedTs := 10 })],
    CheckpointTs := 10, DDLResolvedTs := 10,
    Barriers := [{ BarrierType := DDLBarrier, BarrierTs := 11 },
      { BarrierType := DDLBarrier, BarrierTs := 5 }],
    Scheduler := { syncCalls := [] } }

/-- A state with table 42 resolved up to 10, checkpoint 10, and DDL barriers at 11 and 20. -/
def cfSorted : changeFeed :=
  { TableTasks := [(42, { TableID := 42, CheckpointTs := 10, ResolvedTs := 10 })],
    CheckpointTs := 10, DDLResolvedTs := 10,
    Barriers := [{ BarrierType := DDLBarrier, BarrierTs := 11 },
      { BarrierType := DDLBarrier, BarrierTs := 20 }],
    Scheduler := { syncCalls := [] } }

/-- The result `MarkDDLDone({finishTs:11, action:drop, tableID:42})`. -/
def dropTable42 : ddlResult :=
  { FinishTs := 11, Action := DropTableAction, tableID := 42 }

/-- The precondition of `MarkDDLDone` as the spec states it. -/
def changeFeed.canMarkDDLDone (cf : changeFeed) (r : ddlResult) : Prop :=
  cf.CheckpointTs = sub64 r.FinishTs 1 ∧
  (∃ b, cf.Barriers.head? = some b ∧ b.BarrierType = DDLBarrier ∧ b.BarrierTs = r.FinishTs) ∧
  (r.Action = AddTableAction ∨
    (r.Action = DropTableAction ∧ (mapGet cf.TableTasks r.tableID).isSome = true))

end replication

namespace owner

/-- A DDL event with commit-ts 5. -/
def ddl5 : DDLEvent := { CommitTs := 5, Query := "create table t5" }

/-- A DDL event with commit-ts 3. -/
def ddl3 : DDLEvent := { CommitTs := 3, Query := "create table t3" }

/-- A DDL event with commit-ts 0. -/
def ddl0 : DDLEvent := { CommitTs := 0, Query := "create table t0" }

/-- The owner emits `ddl5` and the worker executes it successfully. -/
def ddl5Executed : List Event :=
  [Event.emitDDL false emitCase.send ddl5, Event.worker runCase.ddl none]

/-- The state of the DDL handshake tells where every event is: the events given to the
backend followed by those in the channel have strictly increasing commit-ts, all at most
`ddlSentTs`. -/
def asyncSinkImpl.ddlOrdered (s : asyncSinkImpl) : Prop :=
  ((s.passed ++ s.ddlCh).map DDLEvent.CommitTs).Pairwise (fun a b => a < b) ∧
  ∀ d ∈ s.passed ++ s.ddlCh, d.CommitTs ≤ s.ddlSentTs

/-- With respect to the events `E` handed to `EmitDDLEvent` so far: `ddlFinishedTs` is 0
or the commit-ts of an event the backend accepted, and every event given to the backend
or waiting in the channel is one of `E`. -/
def asyncSinkImpl.ddlTraced (s : asyncSinkImpl) (E : List DDLEvent) : Prop :=
  (s.ddlFinishedTs = 0 ∨ ∃ d, s.backendAccepted d ∧ d.CommitTs = s.ddlFinishedTs) ∧
  (∀ d ∈ s.passed, d ∈ E) ∧ (∀ d ∈ s.ddlCh, d ∈ E)

end owner

namespace owner

/-- The owner emits `ddl5` and the worker has not taken it yet. -/
def ddl5Sent : List Event :=
  [Event.emitDDL false emitCase.send ddl5]

/-- Every event waiting in the channel has a commit-ts above `ddlFinishedTs`. -/
def asyncSinkImpl.ddlAhead (s : asyncSinkImpl) : Prop :=
  ∀ d ∈ s.ddlCh, s.ddlFinishedTs < d.CommitTs

/-- The last checkpoint-ts the backend's `EmitCheckpointTs` was given, 0 when it was
given none. -/
def asyncSinkImpl.lastForwarded (s : asyncSinkImpl) : Nat :=
  s.sink.checkpointCalls.getLast?.getD 0

/-- The checkpoints given to the backend are strictly increasing and the worker's
`lastCheckpointTs` is the last of them. -/
def asyncSinkImpl.checkpointOrdered (s : asyncSinkImpl) : Prop :=
  s.sink.checkpointCalls.Pairwise (fun a b => a < b) ∧
  (∀ x ∈ s.sink.checkpointCalls, x ≤ s.lastCheckpointTs) ∧
  s.lastCheckpointTs = s.lastForwarded

/-- A tick of the worker at which the backend does not fail. -/
def tick : Event := Event.worker runCase.tick none

/-- The worker ticks `n` times and the backend never fails. -/
def ticks (n : Nat) : List Event := List.replicate n tick

/-- The spec's scenario 3: `EmitCheckpointTs` with 1, 10, 5, 10, 20 and a tick after each. -/
def checkpointScenario : List Event :=
  [Event.emitCheckpoint 1, tick, Event.emitCheckpoint 10, tick, Event.emitCheckpoint 5, tick,
    Event.emitCheckpoint 10, tick, Event.emitCheckpoint 20, tick]

end owner

namespace owner

/-- The owner writes checkpoint 10, the worker ticks, the owner writes 5, the worker ticks. -/
def checkpointRegress : List Event :=
  [Event.emitCheckpoint 10, tick, Event.emitCheckpoint 5, tick]

/-- The owner writes checkpoint 0 and the worker ticks. -/
def checkpointZero : List Event :=
  [Event.emitCheckpoint 0, tick]

end owner

namespace sort

/-- The loop of the standard library's `sort.Search`: binary search on `[i, j)`. The loop
runs at most `fuel` times; `j - i` shrinks at every iteration, so `j - i` iterations are
always enough. -/
def searchLoop (f : Nat → Bool) : Nat → Nat → Nat → Nat
  | 0, i, _ => i
  | fuel + 1, i, j =>
    if i < j then
      let h := (i + j) / 2
      if !f h then searchLoop f fuel (h + 1) j else searchLoop f fuel i h
    else i

/-- The standard library's `sort.Search(n, f)`: the smallest index `i` in `[0, n]` at
which `f(i)` is true, provided `f` is false on a prefix and true on the rest. -/
def Search (n : Nat) (f : Nat → Bool) : Nat :=
  searchLoop f n 0 n

end sort

namespace sink

/-- Modelled from the spec: the struct `model.RowChangedEvent` is declared outside the
given sources. The sink manager reads only its `CommitTs`; `Row` stands for the rest of
the event. -/
structure RowChangedEvent where
  CommitTs : Nat
  Row : String
  deriving DecidableEq, Repr

/-- The backend `Sink` is an interface implemented elsewhere; the embedding records the
calls made to it: the rows of every `EmitRowChangedEvents` call and the argument of every
`FlushRowChangedEvents` call. What the backend returns is an input of the operations. -/
structure backendSink where
  rowCalls : List (List RowChangedEvent)
  flushCalls : List Nat
  deriving DecidableEq, Repr

/-- The struct `tableSink`; its `manager` pointer is the one manager of the embedding. -/
structure tableSink where
  tableID : model.TableID
  buffer : List RowChangedEvent
  emittedTs : Nat
  deriving DecidableEq, Repr

/-- The struct `Manager`. The map `tableSinks` holds pointers: a table sink is an address
into `objects`, where the `tableSink` values live, so that a sink removed from the map
can still be used by whoever holds it. `next` is the next free address. -/
structure Manager where
  backendSink : backendSink
  checkpointTs : Nat
  tableSinks : List (model.TableID × Nat)
  objects : Nat → tableSink
  next : Nat

/-- What the backend's `FlushRowChangedEvents` returns: a checkpoint-ts and an error
(`none` is `nil`). -/
abbrev flushResult := Nat × Option String

/-- The function `NewManager`, on a backend that has received no call. -/
def NewManager (checkpointTs : Nat) : Manager :=
  { backendSink := { rowCalls := [], flushCalls := [] }
    checkpointTs := checkpointTs
    tableSinks := []
    objects := fun _ => { tableID := 0, buffer := [], emittedTs := 0 }
    next := 0 }

/-- Writing the `tableSink` value at an address. -/
def Manager.store (m : Manager) (p : Nat) (t : tableSink) : Manager :=
  { m with objects := fun q => if q = p then t else m.objects q }

/-- The method `Manager.CreateTableSink`; the result is the new state and the address of
the new table sink. -/
def Manager.CreateTableSink (m : Manager) (tableID : model.TableID) (checkpointTs : Nat) :
    Except String (Manager × Nat) :=
  match mapGet m.tableSinks tableID with
  | some _ => .error "the table sink already exists"
  | none =>
    let sink : tableSink := { tableID := tableID, buffer := [], emittedTs := checkpointTs }
    let m1 := m.store m.next sink
    .ok ({ m1 with tableSinks := mapSet m1.tableSinks tableID m.next, next := m.next + 1 },
      m.next)

/-- The method `Manager.getCheckpointTs`. -/
def Manager.getCheckpointTs (m : Manager) : Nat :=
  m.checkpointTs

/-- The method `tableSink.getEmittedTs` of the table sink at address `p`. -/
def Manager.getEmittedTs (m : Manager) (p : Nat) : Nat :=
  (m.objects p).emittedTs

/-- The method `Manager.getMinEmittedTs`. -/
def Manager.getMinEmittedTs (m : Manager) : Nat :=
  if m.tableSinks.length = 0 then m.getCheckpointTs
  else
    m.tableSinks.foldl (fun minTs e =>
      let emittedTs := m.getEmittedTs e.2
      if minTs > emittedTs then emittedTs else minTs) MaxUint64

/-- The method `Manager.flushBackendSink`; `resp` is what the backend's
`FlushRowChangedEvents` returns. -/
def Manager.flushBackendSink (m : Manager) (resp : flushResult) :
    Manager × Nat × Option String :=
  let minEmittedTs := m.getMinEmittedTs
  let m1 : Manager :=
    { m with backendSink :=
      { m.backendSink with flushCalls := m.backendSink.flushCalls ++ [minEmittedTs] } }
  match resp.2 with
  | some err => (m1, m1.getCheckpointTs, some err)
  | none => ({ m1 with checkpointTs := resp.1 }, resp.1, none)

/-- The method `Manager.destroyTableSink`. -/
def Manager.destroyTableSink (m : Manager) (tableID : model.TableID) : Manager :=
  { m with tableSinks := mapDelete m.tableSinks tableID }

/-- The method `tableSink.EmitRowChangedEvents` of the table sink at address `p`. -/
def Manager.tableEmitRowChangedEvents (m : Manager) (p : Nat) (rows : List RowChangedEvent) :
    Manager × Option String :=
  (m.store p { m.objects p with buffer := (m.objects p).buffer ++ rows }, none)

/-- The predicate handed to `sort.Search` by `tableSink.FlushRowChangedEvents`:
`t.buffer[i].CommitTs > resolvedTs`. -/
def commitAbove (buffer : List RowChangedEvent) (resolvedTs : Nat) (i : Nat) : Bool :=
  match buffer[i]? with
  | some row => decide (row.CommitTs > resolvedTs)
  | none => false

/-- The method `tableSink.FlushRowChangedEvents` of the table sink at address `p`;
`emitErr` is what the backend's `EmitRowChangedEvents` returns and `resp` what its
`FlushRowChangedEvents` returns, when they are called. -/
def Manager.tableFlushRowChangedEvents (m : Manager) (p : Nat) (resolvedTs : Nat)
    (emitErr : Option String) (resp : flushResult) : Manager × Nat × Option String :=
  let t := m.objects p
  let i := sort.Search t.buffer.length (commitAbove t.buffer resolvedTs)
  if i = 0 then
    (m.store p { t with emittedTs := resolvedTs }).flushBackendSink resp
  else
    let resolvedRows := t.buffer.take i
    let m1 := m.store p { t with buffer := t.buffer.drop i }
    let m2 : Manager :=
      { m1 with backendSink :=
        { m1.backendSink with rowCalls := m1.backendSink.rowCalls ++ [resolvedRows] } }
    match emitErr with
    | some err => (m2, m2.getCheckpointTs, some err)
    | none =>
      (m2.store p { m2.objects p with emittedTs := resolvedTs }).flushBackendSink resp

/-- The method `tableSink.Close` of the table sink at address `p`. -/
def Manager.tableClose (m : Manager) (p : Nat) : Manager × Option String :=
  (m.destroyTableSink (m.objects p).tableID, none)

/-- The invariant I5: `checkpointTs` is at most the `emittedTs` of every live table sink. -/
def Manager.checkpointBelowEmitted (m : Manager) : Prop :=
  ∀ e ∈ m.tableSinks, m.checkpointTs ≤ m.getEmittedTs e.2

/-- Every live table sink holds a 64-bit `emittedTs`. -/
def Manager.WF (m : Manager) : Prop :=
  ∀ e ∈ m.tableSinks, m.getEmittedTs e.2 < 2 ^ 64

/-- The buffer of the table sink at address `p` is non-decreasing in `CommitTs`. -/
def Manager.bufferSorted (m : Manager) (p : Nat) : Prop :=
  ((m.objects p).buffer.map RowChangedEvent.CommitTs).Pairwise (fun a b => a ≤ b)

end sink

namespace sink

/-- A row of table A committed at 6. -/
def rowA6 : RowChangedEvent := { CommitTs := 6, Row := "A@6" }

/-- A row of table A committed at 7. -/
def rowA7 : RowChangedEvent := { CommitTs := 7, Row := "A@7" }

/-- A row of table A committed at 8. -/
def rowA8 : RowChangedEvent := { CommitTs := 8, Row := "A@8" }

/-- A row of table B committed at 6. -/
def rowB6 : RowChangedEvent := { CommitTs := 6, Row := "B@6" }

/-- A row of table B committed at 9. -/
def rowB9 : RowChangedEvent := { CommitTs := 9, Row := "B@9" }

/-- The start of the spec's scenario 6: a manager at checkpoint 5 with table sinks for
A (table 1, address 0) and B (table 2, address 1) created at 5, and the rows A@6, 7, 8 and
B@6, 9 emitted to them. `none` when a step panics. -/
def managerAB : Option Manager :=
  match (NewManager 5).CreateTableSink 1 5 with
  | .error _ => none
  | .ok (m1, a) =>
    match m1.CreateTableSink 2 5 with
    | .error _ => none
    | .ok (m2, b) =>
      some ((m2.tableEmitRowChangedEvents a [rowA6, rowA7, rowA8]).1.tableEmitRowChangedEvents
        b [rowB6, rowB9]).1

/-- The state of scenario 6 written out. -/
def managerABState : Manager :=
  { backendSink := { rowCalls := [], flushCalls := [] }
    checkpointTs := 5
    tableSinks := [(2, 1), (1, 0)]
    objects := fun q =>
      if q = 1 then { tableID := 2, buffer := [rowB6, rowB9], emittedTs := 5 }
      else if q = 0 then { tableID := 1, buffer := [rowA6, rowA7, rowA8], emittedTs := 5 }
      else { tableID := 0, buffer := [], emittedTs := 0 }
    next := 2 }

/-- Scenario 6 when `FlushRowChangedEvents(7)` on A reaches `flushBackendSink`: the rows
A@6, 7 were given to the backend and A's `emittedTs` is 7. -/
def managerA7 : Manager :=
  { backendSink := { rowCalls := [[rowA6, rowA7]], flushCalls := [] }
    checkpointTs := 5
    tableSinks := [(2, 1), (1, 0)]
    objects := fun q =>
      if q = 1 then { tableID := 2, buffer := [rowB6, rowB9], emittedTs := 5 }
      else if q = 0 then { tableID := 1, buffer := [rowA8], emittedTs := 7 }
      else { tableID := 0, buffer := [], emittedTs := 0 }
    next := 2 }

/-- A manager at checkpoint 10 with one table sink (table 1, address 0) whose `emittedTs`
is 10 and whose buffer is empty. -/
def managerOne10 : Manager :=
  { backendSink := { rowCalls := [], flushCalls := [] }
    checkpointTs := 10
    tableSinks := [(1, 0)]
    objects := fun _ => { tableID := 1, buffer := [], emittedTs := 10 }
    next := 1 }

end sink

/-- A byte slice that is not `nil`. A `[]byte` argument is an `Option Bytes`, where `none`
is the `nil` slice. -/
abbrev Bytes := List UInt8

/-- Reading `m[k]` with the comma-ok form, for a map with any key type. -/
def kvGet {κ β : Type} [DecidableEq κ] (m : List (κ × β)) (k : κ) : Option β :=
  (m.find? (fun p => decide (p.1 = k))).map Prod.snd

/-- The builtin `delete(m, k)`, for a map with any key type. -/
def kvDelete {κ β : Type} [DecidableEq κ] (m : List (κ × β)) (k : κ) : List (κ × β) :=
  m.filter (fun p => !decide (p.1 = k))

/-- The assignment `m[k] = v`, for a map with any key type. -/
def kvSet {κ β : Type} [DecidableEq κ] (m : List (κ × β)) (k : κ) (v : β) : List (κ × β) :=
  (k, v) :: kvDelete m k

namespace etcd

/-- Modelled from the spec: the key tags of `etcd.CDCKeyType`, declared outside the given
sources; `Unknown` is any other value, which `switch` sends to `default`. -/
inductive CDCKeyType where
  | Owner
  | Capture
  | ChangefeedInfo
  | ChangeFeedStatus
  | TaskPosition
  | TaskStatus
  | TaskWorkload
  | Unknown
  deriving DecidableEq, Repr

/-- Modelled from the spec: the struct `etcd.CDCKey`, a parsed coordination-store key. -/
structure CDCKey where
  Tp : CDCKeyType
  ChangefeedID : String := ""
  CaptureID : String := ""
  OwnerLeaseID : String := ""
  deriving DecidableEq, Repr

end etcd

namespace model

/-- The errors the reactor state tells apart: `ErrLeaseExpired`, `ErrUnmarshalFailed`
wrapping a decoding error, and any other error with its message. `errors.Trace` only adds
a stack trace and is the identity here. -/
inductive Error where
  | ErrLeaseExpired
  | ErrUnmarshalFailed (cause : String)
  | external (msg : String)
  deriving DecidableEq, Repr

/-- The record types of package `model`, the key syntax of package `etcd` and the JSON
codec are declared outside the given sources; the reactor state is embedded over any
choice of them. An `unmarshal` function gives the value left in the target of the decoding
(a fresh zero value before) and the error (`none` is `nil`). -/
structure Codec where
  CaptureInfo : Type
  ChangeFeedInfo : Type
  ChangeFeedStatus : Type
  TaskPosition : Type
  TaskStatus : Type
  TaskWorkload : Type
  /-- The method `etcd.CDCKey.Parse`. -/
  parseKey : String → Except String etcd.CDCKey
  /-- The method `etcd.CDCKey.String`. -/
  keyString : etcd.CDCKey → String
  /-- The method `CaptureInfo.Unmarshal`. -/
  unmarshalCaptureInfo : Bytes → CaptureInfo × Option String
  /-- The call `json.Unmarshal` into a `*ChangeFeedInfo`. -/
  unmarshalInfo : Bytes → ChangeFeedInfo × Option String
  /-- The method `ChangeFeedInfo.VerifyAndFix`, which may rewrite the info. -/
  verifyAndFix : ChangeFeedInfo → ChangeFeedInfo × Option String
  /-- The call `json.Unmarshal` into a `*ChangeFeedStatus`. -/
  unmarshalStatus : Bytes → ChangeFeedStatus × Option String
  /-- The call `json.Unmarshal` into a `*TaskPosition`. -/
  unmarshalPosition : Bytes → TaskPosition × Option String
  /-- The call `json.Unmarshal` into a `*TaskStatus`. -/
  unmarshalTaskStatus : Bytes → TaskStatus × Option String
  /-- The call `json.Unmarshal` into a `*TaskWorkload` that points to an empty map. -/
  unmarshalWorkload : Bytes → TaskWorkload × Option String
  /-- The call `json.Unmarshal` into a `*TaskWorkload` that points to a `nil` map; the
  map stays `nil` (`none`) for the JSON `null`. -/
  unmarshalWorkloadNil : Bytes → Option TaskWorkload × Option String
  /-- The call `json.Marshal` of a `*ChangeFeedInfo`. -/
  marshalInfo : ChangeFeedInfo → Except String Bytes
  /-- The call `json.Marshal` of a `*ChangeFeedStatus`. -/
  marshalStatus : ChangeFeedStatus → Except String Bytes
  /-- The call `json.Marshal` of a `*TaskPosition`. -/
  marshalPosition : TaskPosition → Except String Bytes
  /-- The call `json.Marshal` of a `*TaskStatus`. -/
  marshalTaskStatus : TaskStatus → Except String Bytes
  /-- The call `json.Marshal` of a `TaskWorkload`. -/
  marshalWorkload : TaskWorkload → Except String Bytes

end model

namespace orchestrator

/-- The struct `orchestrator.SingleDataPatch`: a key and the function the commit layer
applies to the bytes read from the store; it returns the new bytes, whether they changed,
and an error. -/
structure SingleDataPatch where
  Key : String
  Func : Option Bytes → Option Bytes × Bool × Option model.Error

end orchestrator

namespace model

/-- The struct `ChangefeedReactorState`. A pointer field is an `Option`, `none` being
`nil`. -/
structure ChangefeedReactorState (C : Codec) where
  ID : String
  Info : Option C.ChangeFeedInfo
  Status : Option C.ChangeFeedStatus
  TaskPositions : List (String × C.TaskPosition)
  TaskStatuses : List (String × C.TaskStatus)
  Workloads : List (String × C.TaskWorkload)
  pendingPatches : List orchestrator.SingleDataPatch

/-- The struct `GlobalReactorState`. The map `Changefeeds` holds its states by value: a
state changed through its pointer is written back under its key. -/
structure GlobalReactorState (C : Codec) where
  Owner : List (String × Unit)
  Captures : List (String × C.CaptureInfo)
  Changefeeds : List (String × ChangefeedReactorState C)
  pendingPatches : List orchestrator.SingleDataPatch

/-- The function `NewGlobalState`. -/
def NewGlobalState (C : Codec) : GlobalReactorState C :=
  { Owner := [], Captures := [], Changefeeds := [], pendingPatches := [] }

/-- The function `NewChangefeedReactorState`. -/
def NewChangefeedReactorState (C : Codec) (id : String) : ChangefeedReactorState C :=
  { ID := id, Info := none, Status := none, TaskPositions := [], TaskStatuses := [],
    Workloads := [], pendingPatches := [] }

/-- The end of `UpdateCDCKey`: the error of `json.Unmarshal`, traced. -/
def traced (err : Option String) : Option Error :=
  err.map Error.external

/-- The method `ChangefeedReactorState.UpdateCDCKey`: the state after the call and the
returned error. The target of the decoding is stored before `json.Unmarshal` runs, so it
is stored whether or not the decoding fails. -/
def ChangefeedReactorState.UpdateCDCKey {C : Codec} (s : ChangefeedReactorState C)
    (key : etcd.CDCKey) (value : Option Bytes) : ChangefeedReactorState C × Option Error :=
  match key.Tp with
  | .ChangefeedInfo =>
    if key.ChangefeedID ≠ s.ID then (s, none)
    else
      match value with
      | none => ({ s with Info := none }, none)
      | some v =>
        match (C.unmarshalInfo v).2 with
        | some err => ({ s with Info := some (C.unmarshalInfo v).1 }, some (Error.external err))
        | none =>
          ({ s with Info := some (C.verifyAndFix (C.unmarshalInfo v).1).1 },
            traced (C.verifyAndFix (C.unmarshalInfo v).1).2)
  | .ChangeFeedStatus =>
    if key.ChangefeedID ≠ s.ID then (s, none)
    else
      match value with
      | none => ({ s with Status := none }, none)
      | some v => ({ s with Status := some (C.unmarshalStatus v).1 }, traced (C.unmarshalStatus v).2)
  | .TaskPosition =>
    if key.ChangefeedID ≠ s.ID then (s, none)
    else
      match value with
      | none => ({ s with TaskPositions := kvDelete s.TaskPositions key.CaptureID }, none)
      | some v =>
        ({ s with TaskPositions := kvSet s.TaskPositions key.CaptureID (C.unmarshalPosition v).1 },
          traced (C.unmarshalPosition v).2)
  | .TaskStatus =>
    if key.ChangefeedID ≠ s.ID then (s, none)
    else
      match value with
      | none => ({ s with TaskStatuses := kvDelete s.TaskStatuses key.CaptureID }, none)
      | some v =>
        ({ s with TaskStatuses := kvSet s.TaskStatuses key.CaptureID (C.unmarshalTaskStatus v).1 },
          traced (C.unmarshalTaskStatus v).2)
  | .TaskWorkload =>
    if key.ChangefeedID ≠ s.ID then (s, none)
    else
      match value with
      | none => ({ s with Workloads := kvDelete s.Workloads key.CaptureID }, none)
      | some v =>
        ({ s with Workloads := kvSet s.Workloads key.CaptureID (C.unmarshalWorkload v).1 },
          traced (C.unmarshalWorkload v).2)
  | _ => (s, none)

/-- The method `ChangefeedReactorState.Exist`. -/
def ChangefeedReactorState.Exist {C : Codec} (s : ChangefeedReactorState C) : Bool :=
  s.Info.isSome || s.Status.isSome || s.TaskPositions.length != 0 ||
    s.TaskStatuses.length != 0 || s.Workloads.length != 0

/-- The method `ChangefeedReactorState.GetPatches`: the state after the call and the
returned patches. -/
def ChangefeedReactorState.GetPatches {C : Codec} (s : ChangefeedReactorState C) :
    ChangefeedReactorState C × List orchestrator.SingleDataPatch :=
  ({ s with pendingPatches := [] }, s.pendingPatches)

/-- The part of `GlobalReactorState.Update` for the five per-changefeed tags, once the
changefeed state `cs` is the one under the key's `ChangefeedID` in the map `changefeeds`. -/
def GlobalReactorState.updateChangefeed {C : Codec} (s : GlobalReactorState C)
    (changefeeds : List (String × ChangefeedReactorState C)) (cs : ChangefeedReactorState C)
    (k : etcd.CDCKey) (value : Option Bytes) : GlobalReactorState C × Option Error :=
  let r := cs.UpdateCDCKey k value
  let s1 : GlobalReactorState C := { s with Changefeeds := kvSet changefeeds k.ChangefeedID r.1 }
  match r.2 with
  | some err => (s1, some err)
  | none =>
    if value.isNone && !r.1.Exist then
      ({ s1 with
          pendingPatches := s1.pendingPatches ++ r.1.GetPatches.2
          Changefeeds := kvDelete s1.Changefeeds k.ChangefeedID }, none)
    else (s1, none)

/-- The body of `GlobalReactorState.Update` after the key is parsed to `k`. -/
def GlobalReactorState.UpdateKey {C : Codec} (s : GlobalReactorState C) (k : etcd.CDCKey)
    (value : Option Bytes) : GlobalReactorState C × Option Error :=
  match k.Tp with
  | .Owner =>
    if value.isSome then ({ s with Owner := kvSet s.Owner k.OwnerLeaseID () }, none)
    else ({ s with Owner := kvDelete s.Owner k.OwnerLeaseID }, none)
  | .Capture =>
    match value with
    | none => ({ s with Captures := kvDelete s.Captures k.CaptureID }, none)
    | some v =>
      match (C.unmarshalCaptureInfo v).2 with
      | some err => (s, some (Error.ErrUnmarshalFailed err))
      | none =>
        ({ s with Captures := kvSet s.Captures k.CaptureID (C.unmarshalCaptureInfo v).1 }, none)
  | .Unknown => (s, none)
  | _ =>
    match kvGet s.Changefeeds k.ChangefeedID with
    | some cs => s.updateChangefeed s.Changefeeds cs k value
    | none =>
      if value.isNone then (s, none)
      else
        s.updateChangefeed (kvSet s.Changefeeds k.ChangefeedID
          (NewChangefeedReactorState C k.ChangefeedID))
          (NewChangefeedReactorState C k.ChangefeedID) k value

/-- The method `GlobalReactorState.Update`: the state after the call and the returned
error. -/
def GlobalReactorState.Update {C : Codec} (s : GlobalReactorState C) (key : String)
    (value : Option Bytes) : GlobalReactorState C × Option Error :=
  match C.parseKey key with
  | .error err => (s, some (Error.external err))
  | .ok k => s.UpdateKey k value

end model

namespace model

/-- The function stored in the patch built by `patchAny`. `decode` is the allocation of a
fresh value of the patched type followed by `json.Unmarshal`, giving the value handed to
`fn` (`none` is `nil`) and the error; `marshal` is `json.Marshal`; `reflect.ValueOf(ne)
.IsNil()` is `ne = none`. -/
def patchFunc {T : Type} (decode : Bytes → Option T × Option String)
    (marshal : T → Except String Bytes) (fn : Option T → Option T × Bool × Option Error)
    (v : Option Bytes) : Option Bytes × Bool × Option Error :=
  let run (e : Option T) : Option Bytes × Bool × Option Error :=
    match fn e with
    | (_, _, some err) => (none, false, some err)
    | (ne, changed, none) =>
      if !changed then (v, false, none)
      else
        match ne with
        | none => (none, true, none)
        | some x =>
          match marshal x with
          | .error err => (none, false, some (Error.external err))
          | .ok nv => (some nv, true, none)
  match v with
  | none => run none
  | some b =>
    match (decode b).2 with
    | some err => (none, false, some (Error.external err))
    | none => run (decode b).1

/-- The method `ChangefeedReactorState.patchAny`; the type identity `tpi` is the pair of
`decode` and `marshal` for that type. -/
def ChangefeedReactorState.patchAny {C : Codec} {T : Type} (s : ChangefeedReactorState C)
    (key : String) (decode : Bytes → Option T × Option String)
    (marshal : T → Except String Bytes) (fn : Option T → Option T × Bool × Option Error) :
    ChangefeedReactorState C :=
  { s with pendingPatches :=
    s.pendingPatches ++ [{ Key := key, Func := patchFunc decode marshal fn }] }

/-- The method `ChangefeedReactorState.PatchInfo`. -/
def ChangefeedReactorState.PatchInfo {C : Codec} (s : ChangefeedReactorState C)
    (fn : Option C.ChangeFeedInfo → Option C.ChangeFeedInfo × Bool × Option Error) :
    ChangefeedReactorState C :=
  s.patchAny (C.keyString { Tp := .ChangefeedInfo, ChangefeedID := s.ID })
    (fun b => (some (C.unmarshalInfo b).1, (C.unmarshalInfo b).2)) C.marshalInfo fn

/-- The method `ChangefeedReactorState.PatchStatus`. -/
def ChangefeedReactorState.PatchStatus {C : Codec} (s : ChangefeedReactorState C)
    (fn : Option C.ChangeFeedStatus → Option C.ChangeFeedStatus × Bool × Option Error) :
    ChangefeedReactorState C :=
  s.patchAny (C.keyString { Tp := .ChangeFeedStatus, ChangefeedID := s.ID })
    (fun b => (some (C.unmarshalStatus b).1, (C.unmarshalStatus b).2)) C.marshalStatus fn

/-- The method `ChangefeedReactorState.PatchTaskPosition`. -/
def ChangefeedReactorState.PatchTaskPosition {C : Codec} (s : ChangefeedReactorState C)
    (captureID : String)
    (fn : Option C.TaskPosition → Option C.TaskPosition × Bool × Option Error) :
    ChangefeedReactorState C :=
  s.patchAny
    (C.keyString { Tp := .TaskPosition, CaptureID := captureID, ChangefeedID := s.ID })
    (fun b => (some (C.unmarshalPosition b).1, (C.unmarshalPosition b).2)) C.marshalPosition fn

/-- The method `ChangefeedReactorState.PatchTaskStatus`. -/
def ChangefeedReactorState.PatchTaskStatus {C : Codec} (s : ChangefeedReactorState C)
    (captureID : String)
    (fn : Option C.TaskStatus → Option C.TaskStatus × Bool × Option Error) :
    ChangefeedReactorState C :=
  s.patchAny
    (C.keyString { Tp := .TaskStatus, CaptureID := captureID, ChangefeedID := s.ID })
    (fun b => (some (C.unmarshalTaskStatus b).1, (C.unmarshalTaskStatus b).2))
    C.marshalTaskStatus fn

/-- The method `ChangefeedReactorState.PatchTaskWorkload`; the callback takes the map
itself, which is `nil` when the key is absent. -/
def ChangefeedReactorState.PatchTaskWorkload {C : Codec} (s : ChangefeedReactorState C)
    (captureID : String)
    (fn : Option C.TaskWorkload → Option C.TaskWorkload × Bool × Option Error) :
    ChangefeedReactorState C :=
  s.patchAny
    (C.keyString { Tp := .TaskWorkload, CaptureID := captureID, ChangefeedID := s.ID })
    C.unmarshalWorkloadNil C.marshalWorkload fn

/-- The function of the patch built by `CheckCaptureAlive`; `len(v) == 0` holds for the
`nil` slice and for the empty one. -/
def checkAliveFunc (v : Option Bytes) : Option Bytes × Bool × Option Error :=
  if (v.getD []).length = 0 then (v, false, some Error.ErrLeaseExpired)
  else (v, false, none)

/-- The method `GlobalReactorState.CheckCaptureAlive`. -/
def GlobalReactorState.CheckCaptureAlive {C : Codec} (s : GlobalReactorState C)
    (captureID : String) : GlobalReactorState C :=
  { s with pendingPatches := s.pendingPatches ++
    [{ Key := C.keyString { Tp := .Capture, CaptureID := captureID },
       Func := checkAliveFunc }] }

/-- What the spec says of a patch function `f` built from the callback `fn`, applied to
the on-store bytes `v`: `fn` receives absent when `v` is nil and the decoded value
otherwise, a decode failure being an error; an error of `fn` is returned with
`changed = false`; if `fn` reports unchanged the result is `(v, false)`; if `fn` reports
changed with a nil result the result is `(nil, true)`; otherwise the result is the
encoding of `fn`'s result with `changed = true`, a failure to encode being an error. -/
def PatchSemantics {T : Type} (decode : Bytes → Option T × Option String)
    (marshal : T → Except String Bytes) (fn : Option T → Option T × Bool × Option Error)
    (f : Option Bytes → Option Bytes × Bool × Option Error) : Prop :=
  ∀ (v : Option Bytes) (arg : Option T),
    (∀ b err, v = some b → (decode b).2 = some err →
      f v = (none, false, some (Error.external err))) ∧
    ((v = none ∧ arg = none) ∨ (∃ b, v = some b ∧ (decode b).2 = none ∧ arg = (decode b).1) →
      (∀ ne changed err, fn arg = (ne, changed, some err) → f v = (none, false, some err)) ∧
      (∀ ne, fn arg = (ne, false, none) → f v = (v, false, none)) ∧
      (fn arg = (none, true, none) → f v = (none, true, none)) ∧
      (∀ x nv, fn arg = (some x, true, none) → marshal x = .ok nv →
        f v = (some nv, true, none)) ∧
      (∀ x err, fn arg = (some x, true, none) → marshal x = .error err →
        f v = (none, false, some (Error.external err))))

/-- The kinds of key a changefeed state holds a record for. -/
inductive SlotKind where
  | info
  | status
  | position (captureID : String)
  | taskStatus (captureID : String)
  | workload (captureID : String)
  deriving DecidableEq, Repr

/-- The kind of record a parsed key stands for, `none` for the tags that are not
per-changefeed. -/
def kindOf (k : etcd.CDCKey) : Option SlotKind :=
  match k.Tp with
  | .ChangefeedInfo => some SlotKind.info
  | .ChangeFeedStatus => some SlotKind.status
  | .TaskPosition => some (SlotKind.position k.CaptureID)
  | .TaskStatus => some (SlotKind.taskStatus k.CaptureID)
  | .TaskWorkload => some (SlotKind.workload k.CaptureID)
  | _ => none

/-- Following the spec's words: the per-changefeed keys, as pairs of a changefeed id and a
kind, that are set after one more key event, given those set before it: a non-nil value
sets the key, a nil value deletes it. -/
def liveStep (L : String × SlotKind → Bool) (k : etcd.CDCKey) (value : Option Bytes) :
    String × SlotKind → Bool :=
  match kindOf k with
  | some kd => fun x => if x = (k.ChangefeedID, kd) then value.isSome else L x
  | none => L

/-- Following the spec's words: the per-changefeed keys that have been set and not deleted
since, after a sequence of key events (key, value) starting with no key. -/
def liveKeys (C : Codec) (evs : List (String × Option Bytes)) : String × SlotKind → Bool :=
  evs.foldl (fun L ev =>
    match C.parseKey ev.1 with
    | .ok k => liveStep L k ev.2
    | .error _ => L) (fun _ => false)

/-- A sequence of `Update` calls that all succeed: the state after them, `none` as soon as
one call returns an error. -/
def GlobalReactorState.runUpdates {C : Codec} (s : GlobalReactorState C) :
    List (String × Option Bytes) → Option (GlobalReactorState C)
  | [] => some s
  | ev :: evs =>
    match (s.Update ev.1 ev.2).2 with
    | none => (s.Update ev.1 ev.2).1.runUpdates evs
    | some _ => none

/-- Whether a changefeed state holds a record of the given kind. -/
def ChangefeedReactorState.has {C : Codec} (cs : ChangefeedReactorState C) :
    SlotKind → Bool
  | .info => cs.Info.isSome
  | .status => cs.Status.isSome
  | .position cap => (kvGet cs.TaskPositions cap).isSome
  | .taskStatus cap => (kvGet cs.TaskStatuses cap).isSome
  | .workload cap => (kvGet cs.Workloads cap).isSome

/-- Whether the global state holds a record for the given changefeed id and kind. -/
def GlobalReactorState.has {C : Codec} (s : GlobalReactorState C)
    (sl : String × SlotKind) : Bool :=
  match kvGet s.Changefeeds sl.1 with
  | none => false
  | some cs => cs.has sl.2

/-- The invariant of the reactor state against the keys `L` that are set: every entry of
`Changefeeds` carries its key as `ID` and satisfies `Exist()`, and the records held are
exactly the keys set. -/
def GlobalReactorState.tracks {C : Codec} (s : GlobalReactorState C)
    (L : String × SlotKind → Bool) : Prop :=
  (∀ id cs, kvGet s.Changefeeds id = some cs → cs.ID = id ∧ cs.Exist = true) ∧
  ∀ sl, s.has sl = L sl

/-- A stand-in for the JSON decoding, used in the examples: every record is a number below
10 written as one ASCII digit; any other text is rejected and leaves the zero value. -/
def toyUnmarshal (b : Bytes) : Nat × Option String :=
  match b with
  | [d] =>
    if 48 ≤ d.toNat ∧ d.toNat ≤ 57 then (d.toNat - 48, none)
    else (0, some "invalid character")
  | _ => (0, some "unexpected end of JSON input")

/-- The encoding that goes with `toyUnmarshal`. -/
def toyMarshal (n : Nat) : Except String Bytes :=
  if n ≤ 9 then .ok [UInt8.ofNat (n + 48)] else .error "unsupported value"

/-- A stand-in for `etcd.CDCKey.Parse`, used in the examples: it knows four keys. -/
def toyParseKey (key : String) : Except String etcd.CDCKey :=
  if key = "/tidb/cdc/changefeed/info/cf1" then
    .ok { Tp := .ChangefeedInfo, ChangefeedID := "cf1" }
  else if key = "/tidb/cdc/job/cf1" then
    .ok { Tp := .ChangeFeedStatus, ChangefeedID := "cf1" }
  else if key = "/tidb/cdc/task/position/cap1/cf1" then
    .ok { Tp := .TaskPosition, CaptureID := "cap1", ChangefeedID := "cf1" }
  else if key = "/tidb/cdc/capture/cap1" then
    .ok { Tp := .Capture, CaptureID := "cap1" }
  else .error "invalid key"

/-- A stand-in for `etcd.CDCKey.String`, used in the examples. -/
def toyKeyString (k : etcd.CDCKey) : String :=
  match k.Tp with
  | .Owner => "/tidb/cdc/owner/" ++ k.OwnerLeaseID
  | .Capture => "/tidb/cdc/capture/" ++ k.CaptureID
  | .ChangefeedInfo => "/tidb/cdc/changefeed/info/" ++ k.ChangefeedID
  | .ChangeFeedStatus => "/tidb/cdc/job/" ++ k.ChangefeedID
  | .TaskPosition => "/tidb/cdc/task/position/" ++ k.CaptureID ++ "/" ++ k.ChangefeedID
  | .TaskStatus => "/tidb/cdc/task/status/" ++ k.CaptureID ++ "/" ++ k.ChangefeedID
  | .TaskWorkload => "/tidb/cdc/task/workload/" ++ k.CaptureID ++ "/" ++ k.ChangefeedID
  | .Unknown => ""

/-- The codec of the examples. -/
@[reducible] def toyCodec : Codec :=
  { CaptureInfo := Nat, ChangeFeedInfo := Nat, ChangeFeedStatus := Nat, TaskPosition := Nat,
    TaskStatus := Nat, TaskWorkload := Nat
    parseKey := toyParseKey, keyString := toyKeyString
    unmarshalCaptureInfo := toyUnmarshal, unmarshalInfo := toyUnmarshal
    verifyAndFix := fun n => (n, none)
    unmarshalStatus := toyUnmarshal, unmarshalPosition := toyUnmarshal
    unmarshalTaskStatus := toyUnmarshal, unmarshalWorkload := toyUnmarshal
    unmarshalWorkloadNil := fun b => (some (toyUnmarshal b).1, (toyUnmarshal b).2)
    marshalInfo := toyMarshal, marshalStatus := toyMarshal, marshalPosition := toyMarshal
    marshalTaskStatus := toyMarshal, marshalWorkload := toyMarshal }

/-- The text `{`, which is not valid JSON. -/
def openBrace : Bytes := [123]

/-- The text `7`. -/
def seven : Bytes := [55]

/-- Setting the info key of `cf1`, then its status key, then deleting both. -/
def cf1Events : List (String × Option Bytes) :=
  [("/tidb/cdc/changefeed/info/cf1", some seven), ("/tidb/cdc/job/cf1", some seven),
    ("/tidb/cdc/changefeed/info/cf1", none), ("/tidb/cdc/job/cf1", none)]

end model

namespace timodel

/-- Modelled from the spec: the struct `timodel.Job` of the parser library, declared
outside the given sources. The DDL puller reads its `ID`, `Type` (here `Tp`,
since `Type` is reserved), `Query` and `BinlogInfo.FinishedTS`, here `FinishedTS`. -/
structure Job where
  ID : Int
  Tp : Nat
  Query : String
  FinishedTS : Nat
  deriving DecidableEq, Repr

end timodel

namespace model

/-- Modelled from the spec: the operation type of a raw entry; the puller only asks whether
it is `OpTypeResolved`. -/
inductive OpType where
  | OpTypeUnknow
  | OpTypePut
  | OpTypeDelete
  | OpTypeResolved
  deriving DecidableEq, Repr

/-- Modelled from the spec: the struct `model.RawKVEntry`, declared outside the given
sources; `CRTs` is the commit or resolved ts, `Value` stands for the rest of the entry. -/
structure RawKVEntry where
  OpType : OpType
  CRTs : Nat
  Value : Bytes
  deriving DecidableEq, Repr

end model

namespace owner

/-- The collaborators of the DDL puller that are declared elsewhere: `entry.UnmarshalDDL`,
which returns a job, no job (`none`) or an error, and `filter.ShouldDiscardDDL`. -/
structure ddlCollaborators where
  UnmarshalDDL : model.RawKVEntry → Except String (Option timodel.Job)
  ShouldDiscardDDL : Nat → Bool

/-- The struct `ddlPullerImpl`, together with the variable `lastDDLFinishedTs` of `Run`. -/
structure ddlPullerImpl where
  resolvedTS : Nat
  pendingDDLJobs : List timodel.Job
  lastDDLFinishedTs : Nat
  deriving DecidableEq, Repr

/-- The function `newDDLPuller`; `Run` starts with `lastDDLFinishedTs` zero. -/
def newDDLPuller (startTs : Nat) : ddlPullerImpl :=
  { resolvedTS := sub64 startTs 1, pendingDDLJobs := [], lastDDLFinishedTs := 0 }

/-- The end of `receiveDDL`, for a job that was decoded and not discarded: it is ignored
when its `FinishedTS` equals `lastDDLFinishedTs`, and appended otherwise. -/
def ddlPullerImpl.receiveJob (h : ddlPullerImpl) (job : timodel.Job) : ddlPullerImpl :=
  if job.FinishedTS = h.lastDDLFinishedTs then h
  else
    { h with
      lastDDLFinishedTs := job.FinishedTS
      pendingDDLJobs := h.pendingDDLJobs ++ [job] }

/-- The closure `receiveDDL` of `Run`: the state after the call and the returned error. -/
def ddlPullerImpl.receiveDDL (env : ddlCollaborators) (h : ddlPullerImpl)
    (rawDDL : Option model.RawKVEntry) : ddlPullerImpl × Option String :=
  match rawDDL with
  | none => (h, none)
  | some raw =>
    if raw.OpType = model.OpType.OpTypeResolved then
      (if raw.CRTs > h.resolvedTS then { h with resolvedTS := raw.CRTs } else h, none)
    else
      match env.UnmarshalDDL raw with
      | .error err => (h, some err)
      | .ok none => (h, none)
      | .ok (some job) =>
        if env.ShouldDiscardDDL job.Tp then (h, none)
        else (h.receiveJob job, none)

/-- The consumer loop of `Run` on the entries it takes from the sorted channel: it stops at
the first error of `receiveDDL`. -/
def ddlPullerImpl.consume (env : ddlCollaborators) (h : ddlPullerImpl) :
    List model.RawKVEntry → ddlPullerImpl
  | [] => h
  | raw :: raws =>
    match (h.receiveDDL env (some raw)).2 with
    | none => (h.receiveDDL env (some raw)).1.consume env raws
    | some _ => (h.receiveDDL env (some raw)).1

/-- The method `ddlPullerImpl.FrontDDL`: the state after the call and the returned pair. -/
def ddlPullerImpl.FrontDDL (h : ddlPullerImpl) : ddlPullerImpl × Nat × Option timodel.Job :=
  match h.pendingDDLJobs with
  | [] => (h, h.resolvedTS, none)
  | job :: _ => (h, job.FinishedTS, some job)

/-- The method `ddlPullerImpl.PopFrontDDL`: the state after the call and the returned
pair. -/
def ddlPullerImpl.PopFrontDDL (h : ddlPullerImpl) : ddlPullerImpl × Nat × Option timodel.Job :=
  match h.pendingDDLJobs with
  | [] => (h, h.resolvedTS, none)
  | job :: rest => ({ h with pendingDDLJobs := rest }, job.FinishedTS, some job)

/-- The pairs returned by `n` successive `PopFrontDDL` calls. -/
def ddlPullerImpl.pops (h : ddlPullerImpl) : Nat → List (Nat × Option timodel.Job)
  | 0 => []
  | n + 1 => h.PopFrontDDL.2 :: h.PopFrontDDL.1.pops n

/-- The decoded, non-discarded DDL jobs among the entries: those of the entries that are
not resolved markers, decode to a job, and whose job the filter does not discard. -/
def delivered (env : ddlCollaborators) (raws : List model.RawKVEntry) : List timodel.Job :=
  raws.filterMap (fun raw =>
    if raw.OpType = model.OpType.OpTypeResolved then none
    else
      match env.UnmarshalDDL raw with
      | .ok (some job) => if env.ShouldDiscardDDL job.Tp then none else some job
      | _ => none)

/-- No entry fails to decode: `entry.UnmarshalDDL` returns no error on the entries that are
not resolved markers. -/
def decodable (env : ddlCollaborators) (raws : List model.RawKVEntry) : Prop :=
  ∀ raw ∈ raws, raw.OpType ≠ model.OpType.OpTypeResolved → ∃ r, env.UnmarshalDDL raw = .ok r

/-- An example job with the given `FinishedTS` and `ID`. -/
def jobAt (ts : Nat) (id : Int) : timodel.Job :=
  { ID := id, Tp := 3, Query := "create table t", FinishedTS := ts }

/-- An example decoder: the entry's `CRTs` is the job's `FinishedTS` and its first value
byte the job's `ID`; nothing is discarded. -/
def exampleCollaborators : ddlCollaborators :=
  { UnmarshalDDL := fun raw => .ok (some (jobAt raw.CRTs (raw.Value.headD 0).toNat))
    ShouldDiscardDDL := fun _ => false }

/-- The raw entry that `exampleCollaborators` decodes to `jobAt ts id`. -/
def rawAt (ts : Nat) (id : UInt8) : model.RawKVEntry :=
  { OpType := model.OpType.OpTypePut, CRTs := ts, Value := [id] }

/-- A resolved marker at `ts`. -/
def resolvedAt (ts : Nat) : model.RawKVEntry :=
  { OpType := model.OpType.OpTypeResolved, CRTs := ts, Value := [] }

/-- The spec's scenario 2: jobs with `FinishedTS` 100, 100, 105, 105, 110, with a resolved
marker at 103 in between. -/
def dedupRaws : List model.RawKVEntry :=
  [rawAt 100 1, rawAt 100 2, resolvedAt 103, rawAt 105 3, rawAt 105 4, rawAt 110 5]

/-- The jobs of scenario 2. -/
def dedupJobs : List timodel.Job :=
  [jobAt 100 1, jobAt 100 2, jobAt 105 3, jobAt 105 4, jobAt 110 5]

end owner

namespace owner

/-- The state after `receiveDDL` has handled the given decoded, non-discarded jobs. -/
def ddlPullerImpl.receiveJobs (h : ddlPullerImpl) (jobs : List timodel.Job) : ddlPullerImpl :=
  jobs.foldl ddlPullerImpl.receiveJob h

end owner

namespace owner

/-- Two delivered jobs, the first with `FinishedTS` zero. -/
def zeroFirstRaws : List model.RawKVEntry := [rawAt 0 1, rawAt 100 2]

/-- The jobs of `zeroFirstRaws`. -/
def zeroFirstJobs : List timodel.Job := [jobAt 0 1, jobAt 100 2]

end owner

namespace owner

/-- The method `asyncSinkImpl.Close`. `syncpointStore` tells whether the field
`s.syncpointStore` is non-nil, `sinkErr` is what `s.sink.Close()` returns and `storeErr`
what `s.syncpointStore.Close()` returns; `workerSteps` are the iterations the worker makes
after `s.cancel()`. The result is `none` while `s.wg.Wait()` blocks, that is while the worker
has not returned; otherwise the state and the returned `err`. -/
def asyncSinkImpl.Close (s : asyncSinkImpl) (syncpointStore : Bool)
    (sinkErr storeErr : Option Err) (workerSteps : List (runCase × Option Err)) :
    Option (asyncSinkImpl × Option Err) :=
  let s1 : asyncSinkImpl := { s with cancelled := true }
  let err := sinkErr
  let err := if syncpointStore then storeErr else err
  let s2 := s1.exec (workerSteps.map (fun w => Event.worker w.1 w.2))
  if s2.exited then some (s2, err) else none

/-- The error a backend `Close()` returns in the examples. -/
def sinkCloseFailed : Err := Err.other "sink close failed"

end owner

namespace model

/-- The state after a sequence of `Update` calls, whatever each call returns. -/
def GlobalReactorState.applyUpdates {C : Codec} (s : GlobalReactorState C)
    (evs : List (String × Option Bytes)) : GlobalReactorState C :=
  evs.foldl (fun st ev => (st.Update ev.1 ev.2).1) s

/-- Every entry of the map `Changefeeds` carries its key as `ID`. -/
def GlobalReactorState.keyedByID {C : Codec} (s : GlobalReactorState C) : Prop :=
  ∀ id cs, (id, cs) ∈ s.Changefeeds → cs.ID = id

/-- The changefeed state of `cf1` after its info key was set to `seven`. -/
def cf1WithInfo : ChangefeedReactorState toyCodec :=
  { ID := "cf1", Info := some 7, Status := none, TaskPositions := [], TaskStatuses := [],
    Workloads := [], pendingPatches := [] }

end model

namespace model

/-- The method `GlobalReactorState.GetPatches`: the state after the call and the returned
patches. The loop ranges over the map `Changefeeds`, whose iteration order Go leaves open;
the embedding takes the entries in list order. -/
def GlobalReactorState.GetPatches {C : Codec} (s : GlobalReactorState C) :
    GlobalReactorState C × List orchestrator.SingleDataPatch :=
  let r := s.Changefeeds.foldl
    (fun (acc : List (String × ChangefeedReactorState C) × List orchestrator.SingleDataPatch)
        p => (acc.1 ++ [(p.1, p.2.GetPatches.1)], acc.2 ++ p.2.GetPatches.2))
    ([], s.pendingPatches)
  ({ s with Changefeeds := r.1, pendingPatches := [] }, r.2)

/-- A call of one of the five `Patch` methods of a changefeed state, with its arguments. -/
inductive PatchCall (C : Codec) where
  | info (fn : Option C.ChangeFeedInfo → Option C.ChangeFeedInfo × Bool × Option Error)
  | status (fn : Option C.ChangeFeedStatus → Option C.ChangeFeedStatus × Bool × Option Error)
  | taskPosition (captureID : String)
      (fn : Option C.TaskPosition → Option C.TaskPosition × Bool × Option Error)
  | taskStatus (captureID : String)
      (fn : Option C.TaskStatus → Option C.TaskStatus × Bool × Option Error)
  | taskWorkload (captureID : String)
      (fn : Option C.TaskWorkload → Option C.TaskWorkload × Bool × Option Error)

/-- The changefeed state after the given `Patch` call. -/
def ChangefeedReactorState.applyPatch {C : Codec} (cs : ChangefeedReactorState C)
    (c : PatchCall C) : ChangefeedReactorState C :=
  match c with
  | .info fn => cs.PatchInfo fn
  | .status fn => cs.PatchStatus fn
  | .taskPosition captureID fn => cs.PatchTaskPosition captureID fn
  | .taskStatus captureID fn => cs.PatchTaskStatus captureID fn
  | .taskWorkload captureID fn => cs.PatchTaskWorkload captureID fn

/-- The patches a `Patch` call builds for a changefeed state with the given `ID`: what the
call leaves in the queue of a fresh state. -/
def PatchCall.built {C : Codec} (c : PatchCall C) (id : String) :
    List orchestrator.SingleDataPatch :=
  ((NewChangefeedReactorState C id).applyPatch c).pendingPatches

/-- A call made on the reactor state: `Update`, a `Patch` method of the changefeed state
held in the map under `id`, `CheckCaptureAlive`, or `GetPatches`. -/
inductive Call (C : Codec) where
  | update (key : String) (value : Option Bytes)
  | patch (id : String) (c : PatchCall C)
  | checkCaptureAlive (captureID : String)
  | getPatches

/-- The state after a call. A `Patch` call for an id that the map does not hold is no call
at all and leaves the state as it is. -/
def GlobalReactorState.call {C : Codec} (s : GlobalReactorState C) :
    Call C → GlobalReactorState C
  | .update key value => (s.Update key value).1
  | .patch id c =>
    match kvGet s.Changefeeds id with
    | some cs => { s with Changefeeds := kvSet s.Changefeeds id (cs.applyPatch c) }
    | none => s
  | .checkCaptureAlive captureID => s.CheckCaptureAlive captureID
  | .getPatches => s.GetPatches.1

/-- The state after a sequence of calls. -/
def GlobalReactorState.calls {C : Codec} (s : GlobalReactorState C) (cs : List (Call C)) :
    GlobalReactorState C :=
  cs.foldl GlobalReactorState.call s

/-- The patches a call enqueues in state `s`. -/
def GlobalReactorState.enqueued {C : Codec} (s : GlobalReactorState C) :
    Call C → List orchestrator.SingleDataPatch
  | .update _ _ => []
  | .patch id c =>
    match kvGet s.Changefeeds id with
    | some cs => c.built cs.ID
    | none => []
  | .checkCaptureAlive captureID => ((NewGlobalState C).CheckCaptureAlive captureID).pendingPatches
  | .getPatches => []

/-- The patches enqueued since the last `GetPatches` in a sequence of calls made from state
`s`, in the order of the calls; `since` are those enqueued before the sequence. -/
def GlobalReactorState.enqueuedSince {C : Codec} (s : GlobalReactorState C)
    (since : List orchestrator.SingleDataPatch) :
    List (Call C) → List orchestrator.SingleDataPatch
  | [] => since
  | .getPatches :: cs => (s.call .getPatches).enqueuedSince [] cs
  | c :: cs => (s.call c).enqueuedSince (since ++ s.enqueued c) cs

/-- All patches waiting in the state: the global queue followed by the queues of the
changefeed states in the map. -/
def GlobalReactorState.allPending {C : Codec} (s : GlobalReactorState C) :
    List orchestrator.SingleDataPatch :=
  s.pendingPatches ++ s.Changefeeds.flatMap (fun p => p.2.pendingPatches)

/-- No two entries of the map `Changefeeds` have the same key. -/
def GlobalReactorState.nodupKeys {C : Codec} (s : GlobalReactorState C) : Prop :=
  (s.Changefeeds.map Prod.fst).Nodup

end model

namespace model

/-- A callback for `PatchInfo` in the examples: it sets the info to 8. -/
def setInfo8 (_ : Option Nat) : Option Nat × Bool × Option Error :=
  (some 8, true, none)

/-- The info key of `cf1` is set, `PatchInfo` is called on the state of `cf1`, the info key
is deleted, which removes `cf1` from the map, and `CheckCaptureAlive` is called. -/
def hoistCalls : List (Call toyCodec) :=
  [Call.update "/tidb/cdc/changefeed/info/cf1" (some seven),
    Call.patch "cf1" (PatchCall.info setInfo8),
    Call.update "/tidb/cdc/changefeed/info/cf1" none,
    Call.checkCaptureAlive "cap1"]

end model

namespace model

/-- The first two calls of `hoistCalls`: the info key of `cf1` is set and `PatchInfo` is
called on its state. -/
def patchedCalls : List (Call toyCodec) :=
  [Call.update "/tidb/cdc/changefeed/info/cf1" (some seven),
    Call.patch "cf1" (PatchCall.info setInfo8)]

/-- The state of `cf1` after `patchedCalls`. -/
def cf1Patched : ChangefeedReactorState toyCodec :=
  cf1WithInfo.applyPatch (PatchCall.info setInfo8)

/-- The parsed info key of `cf1`. -/
def cf1InfoKey : etcd.CDCKey :=
  { Tp := .ChangefeedInfo, ChangefeedID := "cf1" }

end model

namespace sink

/-- The error the backend's `EmitRowChangedEvents` returns in the examples. -/
def emitFailed : String := "emit failed"

/-- Scenario 6 after `FlushRowChangedEvents(7)` on A in which the backend's
`EmitRowChangedEvents` fails. -/
def managerAfterFailedFlush : Manager :=
  (managerABState.tableFlushRowChangedEvents 0 7 (some emitFailed) (0, none)).1

end sink

namespace owner

/-- Where the caller of `EmitDDLEvent` stands, statement by statement: not in a call; after
the load of `ddlFinishedTs` (the value loaded is kept); or after the `select` took the
send case and before the statement `s.ddlSentTs = ddl.CommitTs`. -/
inductive callerPc where
  | idle
  | loaded (ddl : DDLEvent) (ddlFinishedTs : Nat)
  | sent (ddl : DDLEvent)
  deriving DecidableEq, Repr

/-- The async sink with its two goroutines interleaved statement by statement: the fields,
where the caller stands in `EmitDDLEvent`, and the DDL the worker has received from `ddlCh`
and not yet given to the backend. -/
structure fineState where
  s : asyncSinkImpl
  caller : callerPc
  taken : Option DDLEvent
  deriving DecidableEq, Repr

/-- The state built by `newAsyncSink`, no call in progress. -/
def fineState.init : fineState :=
  { s := asyncSinkImpl.init, caller := callerPc.idle, taken := none }

/-- One step of one goroutine. The caller: `load` enters `EmitDDLEvent` and loads
`ddlFinishedTs`; `select` runs the two comparisons and the `select` statement; `store` is
`s.ddlSentTs = ddl.CommitTs`; `emitCheckpoint` is a call of `EmitCheckpointTs`. The worker:
`receive` takes the case `ddl := <-s.ddlCh`; `execute` is the backend call with what
follows it; `worker` is a whole iteration of `run`. -/
inductive fineEvent where
  | load (ddl : DDLEvent)
  | select (ctxDone : Bool) (pick : emitCase)
  | store
  | emitCheckpoint (ts : Nat)
  | receive
  | execute (res : Option Err)
  | worker (c : runCase) (res : Option Err)
  deriving DecidableEq, Repr

/-- The `select` statement of `EmitDDLEvent` for `ddl`, reached after both comparisons
failed. -/
def fineState.emitSelect (f : fineState) (ctxDone : Bool) (pick : emitCase) (ddl : DDLEvent) :
    fineState :=
  let canSend : Bool := decide (f.s.ddlCh.length < ddlChCap)
  let sent : fineState :=
    { f with s := { f.s with ddlCh := f.s.ddlCh ++ [ddl] }, caller := callerPc.sent ddl }
  match ctxDone, canSend with
  | false, false => f
  | true, false => { f with caller := callerPc.idle }
  | false, true => sent
  | true, true =>
    match pick with
    | .ctxDone => { f with caller := callerPc.idle }
    | .send => sent

/-- The body of the case `ddl := <-s.ddlCh` of `run` after the receive; `res` is what the
backend's `EmitDDLEvent` returns. -/
def asyncSinkImpl.executeDDL (s : asyncSinkImpl) (ddl : DDLEvent) (res : Option Err) :
    asyncSinkImpl :=
  let s1 : asyncSinkImpl :=
    { s with sink := { s.sink with ddlCalls := s.sink.ddlCalls ++ [(ddl, res)] } }
  match res with
  | none => { s1 with ddlFinishedTs := ddl.CommitTs }
  | some err =>
    if err = Err.ErrDDLEventIgnored then { s1 with ddlFinishedTs := ddl.CommitTs }
    else { s1 with thrown := s1.thrown ++ [err], exited := true }

/-- The state after one step. A step that is not the next statement of its goroutine, and
a `select` that blocks, leave the state as it is. -/
def fineState.step (f : fineState) (e : fineEvent) : fineState :=
  match e with
  | .load ddl =>
    match f.caller with
    | .idle => { f with caller := callerPc.loaded ddl f.s.ddlFinishedTs }
    | _ => f
  | .select ctxDone pick =>
    match f.caller with
    | .loaded ddl ddlFinishedTs =>
      if ddl.CommitTs ≤ ddlFinishedTs then { f with caller := callerPc.idle }
      else if ddl.CommitTs ≤ f.s.ddlSentTs then { f with caller := callerPc.idle }
      else f.emitSelect ctxDone pick ddl
    | _ => f
  | .store =>
    match f.caller with
    | .sent ddl => { f with s := { f.s with ddlSentTs := ddl.CommitTs }, caller := callerPc.idle }
    | _ => f
  | .emitCheckpoint ts =>
    match f.caller with
    | .idle => { f with s := f.s.EmitCheckpointTs ts }
    | _ => f
  | .receive =>
    if f.s.exited then f
    else
      match f.taken, f.s.ddlCh with
      | none, ddl :: rest => { f with s := { f.s with ddlCh := rest }, taken := some ddl }
      | _, _ => f
  | .execute res =>
    match f.taken with
    | some ddl => { f with s := f.s.executeDDL ddl res, taken := none }
    | none => f
  | .worker c res =>
    match f.taken with
    | none => { f with s := (f.s.runStep c res).getD f.s }
    | some _ => f

/-- The state after a sequence of steps. -/
def fineState.exec (f : fineState) (es : List fineEvent) : fineState :=
  es.foldl fineState.step f

/-- The commit-ts that `ddlSentTs` holds once the call in progress has made its store:
that of the DDL just sent, and `ddlSentTs` itself otherwise. -/
def fineState.sentBound (f : fineState) : Nat :=
  match f.caller with
  | .sent ddl => ddl.CommitTs
  | _ => f.s.ddlSentTs

/-- The DDL in the channel, the DDL the worker holds and `ddlFinishedTs` are all at most
`sentBound`, and a DDL just sent has a commit-ts above `ddlSentTs`. -/
def fineState.ddlBounded (f : fineState) : Prop :=
  (∀ d ∈ f.s.ddlCh, d.CommitTs ≤ f.sentBound) ∧ f.s.ddlFinishedTs ≤ f.sentBound ∧
  (∀ d, f.taken = some d → d.CommitTs ≤ f.sentBound) ∧
  (∀ ddl, f.caller = callerPc.sent ddl → f.s.ddlSentTs < ddl.CommitTs)

/-- The caller sends `ddl5`, and the worker receives and executes it before the caller
stores `ddlSentTs`. -/
def overtakeSteps : List fineEvent :=
  [fineEvent.load ddl5, fineEvent.select false emitCase.send, fineEvent.receive,
    fineEvent.execute none]

end owner

/-! ## Arithmetic and map lemmas -/

theorem sub64_lt (a b : Nat) : sub64 a b < 2 ^ 64 :=
  Nat.mod_lt _ (by norm_num)

theorem sub64_le_max (a b : Nat) : sub64 a b ≤ MaxUint64 := by
  have h := sub64_lt a b
  unfold MaxUint64
  omega

theorem sub64_one_of_pos (a : Nat) (h0 : 0 < a) (h : a < 2 ^ 64) : sub64 a 1 = a - 1 := by
  unfold sub64
  norm_num
  omega

theorem sub64_zero_one : sub64 0 1 = MaxUint64 := by
  unfold sub64 MaxUint64
  norm_num

theorem add64_one_of_lt (a : Nat) (h : a < 2 ^ 64 - 1) : add64 a 1 = a + 1 := by
  unfold add64
  norm_num at h ⊢
  omega

theorem mapGet_mapSet_self {β : Type} (m : List (model.TableID × β)) (k : model.TableID)
    (v : β) : mapGet (mapSet m k v) k = some v := by
  simp [mapGet, mapSet]

theorem mapGet_mapDelete_ne {β : Type} (m : List (model.TableID × β))
    (k k' : model.TableID) (h : k' ≠ k) : mapGet (mapDelete m k) k' = mapGet m k' := by
  induction m with
  | nil => simp [mapGet, mapDelete]
  | cons p m ih =>
    unfold mapGet mapDelete at ih ⊢
    by_cases hp : p.1 = k
    · have hne : ¬ p.1 = k' := fun h' => h (h'.symm.trans hp)
      rw [List.filter_cons_of_neg (by simp [hp]), List.find?_cons_of_neg _ (by simp [hne])]
      exact ih
    · rw [List.filter_cons_of_pos (by simp [hp])]
      by_cases hp' : p.1 = k'
      · rw [List.find?_cons_of_pos _ (by simp [hp']), List.find?_cons_of_pos _ (by simp [hp'])]
      · rw [List.find?_cons_of_neg _ (by simp [hp']), List.find?_cons_of_neg _ (by simp [hp'])]
        exact ih

theorem mapGet_mapDelete_self {β : Type} (m : List (model.TableID × β))
    (k : model.TableID) : mapGet (mapDelete m k) k = none := by
  simp [mapGet, mapDelete, List.find?_eq_none]

theorem mapGet_mapSet_ne {β : Type} (m : List (model.TableID × β)) (k k' : model.TableID)
    (v : β) (h : k' ≠ k) : mapGet (mapSet m k v) k' = mapGet m k' := by
  have h1 := mapGet_mapDelete_ne m k k' h
  unfold mapGet mapSet at *
  simp [List.find?_cons, h.symm]
  simpa using h1

namespace replication

/-! ## The resolved-ts as a greatest lower bound -/

theorem le_minTableResolvedTs_iff (tasks : List (model.TableID × tableTask)) (acc n : Nat) :
    n ≤ minTableResolvedTs tasks acc ↔ n ≤ acc ∧ ∀ p ∈ tasks, n ≤ p.2.ResolvedTs := by
  induction tasks generalizing acc with
  | nil => simp [minTableResolvedTs]
  | cons p tasks ih =>
    have h := ih (if acc > p.2.ResolvedTs then p.2.ResolvedTs else acc)
    unfold minTableResolvedTs at h ⊢
    rw [List.foldl_cons, h]
    simp only [List.mem_cons, forall_eq_or_imp]
    constructor
    · rintro ⟨h1, h2⟩
      refine ⟨?_, ?_, h2⟩ <;> (split at h1 <;> omega)
    · rintro ⟨h1, h2, h3⟩
      refine ⟨?_, h3⟩
      split <;> omega

theorem minTableResolvedTs_attained (tasks : List (model.TableID × tableTask)) (acc : Nat) :
    minTableResolvedTs tasks acc = acc ∨
      ∃ p ∈ tasks, minTableResolvedTs tasks acc = p.2.ResolvedTs := by
  induction tasks generalizing acc with
  | nil => simp [minTableResolvedTs]
  | cons p tasks ih =>
    have h := ih (if acc > p.2.ResolvedTs then p.2.ResolvedTs else acc)
    unfold minTableResolvedTs at h ⊢
    rw [List.foldl_cons]
    rcases h with h | ⟨q, hq, h⟩
    · by_cases hlt : acc > p.2.ResolvedTs
      · rw [if_pos hlt] at h ⊢
        exact Or.inr ⟨p, List.mem_cons_self _ _, h⟩
      · rw [if_neg hlt] at h ⊢
        exact Or.inl h
    · exact Or.inr ⟨q, List.mem_cons_of_mem _ hq, h⟩

theorem le_ResolvedTs_iff (cf : changeFeed) (n : Nat) :
    n ≤ cf.ResolvedTs ↔
      n ≤ MaxUint64 ∧ (∀ p ∈ cf.TableTasks, n ≤ p.2.ResolvedTs) ∧
      (∀ b, cf.Barriers.head? = some b → n ≤ sub64 b.BarrierTs 1) ∧
      n ≤ cf.DDLResolvedTs := by
  have ht := le_minTableResolvedTs_iff cf.TableTasks MaxUint64 n
  unfold changeFeed.ResolvedTs
  cases hb : cf.Barriers with
  | nil =>
    simp only [List.head?_nil, reduceCtorEq, false_implies, implies_true, true_and]
    split <;> constructor <;> intro hh
    · exact ⟨by omega, fun p hp => by have := (ht.1 (by omega)).2 p hp; exact this, hh⟩
    · exact hh.2.2
    · have := ht.1 hh
      exact ⟨this.1, this.2, by omega⟩
    · exact ht.2 ⟨hh.1, hh.2.1⟩
  | cons b rest =>
    simp only [List.head?_cons, Option.some.injEq, forall_eq']
    split <;> split <;> constructor <;> intro hh
    all_goals first
      | (have h1 := ht.1 (by omega); exact ⟨h1.1, h1.2, by omega, by omega⟩)
      | (have h1 := ht.2 ⟨hh.1, hh.2.1⟩; omega)

theorem ResolvedTs_attained (cf : changeFeed) :
    cf.ResolvedTs = MaxUint64 ∨ (∃ p ∈ cf.TableTasks, cf.ResolvedTs = p.2.ResolvedTs) ∨
      (∃ b, cf.Barriers.head? = some b ∧ cf.ResolvedTs = sub64 b.BarrierTs 1) ∨
      cf.ResolvedTs = cf.DDLResolvedTs := by
  have ht := minTableResolvedTs_attained cf.TableTasks MaxUint64
  unfold changeFeed.ResolvedTs
  cases hb : cf.Barriers with
  | nil =>
    simp only [List.head?_nil, reduceCtorEq, false_and, exists_false, false_or]
    split
    · exact Or.inr (Or.inr rfl)
    · rcases ht with h | h
      · exact Or.inl h
      · exact Or.inr (Or.inl h)
  | cons b rest =>
    simp only [List.head?_cons, Option.some.injEq, exists_eq_left']
    split <;> split
    · exact Or.inr (Or.inr (Or.inr rfl))
    · exact Or.inr (Or.inr (Or.inl rfl))
    · exact Or.inr (Or.inr (Or.inr rfl))
    · rcases ht with h | h
      · exact Or.inl h
      · exact Or.inr (Or.inl h)

end replication

namespace replication

/-! ## `ResolvedTs` -/

/-- C1: in every well-formed changefeed state `ResolvedTs()` is the minimum of the
`ResolvedTs` of every table task, of `Barriers[0].BarrierTs - 1` (wrapping 64-bit
subtraction) when there is a barrier, and of `DDLResolvedTs`: it is below each of these
bounds and equal to one of them. With no table tasks and no barriers it is
`DDLResolvedTs`, and it is `MaxUint64` exactly when no bound is below `MaxUint64`. -/
theorem ResolvedTs_eq_min (cf : changeFeed) (hwf : cf.WF) :
    (∀ p ∈ cf.TableTasks, cf.ResolvedTs ≤ p.2.ResolvedTs) ∧
    (∀ b, cf.Barriers.head? = some b → cf.ResolvedTs ≤ sub64 b.BarrierTs 1) ∧
    cf.ResolvedTs ≤ cf.DDLResolvedTs ∧
    ((∃ p ∈ cf.TableTasks, cf.ResolvedTs = p.2.ResolvedTs) ∨
      (∃ b, cf.Barriers.head? = some b ∧ cf.ResolvedTs = sub64 b.BarrierTs 1) ∨
      cf.ResolvedTs = cf.DDLResolvedTs) ∧
    (cf.TableTasks = [] → cf.Barriers = [] → cf.ResolvedTs = cf.DDLResolvedTs) ∧
    (cf.ResolvedTs = MaxUint64 ↔
      (∀ p ∈ cf.TableTasks, p.2.ResolvedTs = MaxUint64) ∧
      (∀ b, cf.Barriers.head? = some b → sub64 b.BarrierTs 1 = MaxUint64) ∧
      cf.DDLResolvedTs = MaxUint64) := by
  obtain ⟨_, hddl, _, htasks⟩ := hwf
  have hle := (le_ResolvedTs_iff cf cf.ResolvedTs).1 le_rfl
  obtain ⟨hmax, h1, h2, h3⟩ := hle
  have hddl' : cf.DDLResolvedTs ≤ MaxUint64 := by unfold MaxUint64; omega
  have hatt := ResolvedTs_attained cf
  have hatt' : (∃ p ∈ cf.TableTasks, cf.ResolvedTs = p.2.ResolvedTs) ∨
      (∃ b, cf.Barriers.head? = some b ∧ cf.ResolvedTs = sub64 b.BarrierTs 1) ∨
      cf.ResolvedTs = cf.DDLResolvedTs := by
    rcases hatt with h | h | h | h
    · exact Or.inr (Or.inr (by omega))
    · exact Or.inl h
    · exact Or.inr (Or.inl h)
    · exact Or.inr (Or.inr h)
  refine ⟨h1, h2, h3, hatt', ?_, ?_, ?_⟩
  · intro ht hb
    rcases hatt' with ⟨p, hp, _⟩ | ⟨b, hb', _⟩ | h
    · simp [ht] at hp
    · simp [hb] at hb'
    · exact h
  · intro hR
    refine ⟨fun p hp => ?_, fun b hb => ?_, by omega⟩
    · have := h1 p hp
      have := (htasks p hp).2
      unfold MaxUint64 at *
      omega
    · have := h2 b hb
      have := sub64_le_max b.BarrierTs 1
      omega
  · rintro ⟨ht, hb, hd⟩
    have := (le_ResolvedTs_iff cf MaxUint64).2
      ⟨le_rfl, fun p hp => (ht p hp).ge, fun b hb' => (hb b hb').ge, hd.ge⟩
    omega

theorem cfBarrier11_WF : cfBarrier11.WF := by
  unfold changeFeed.WF cfBarrier11
  simp

/-- Witness of C1 at the state with checkpoint 10 and one barrier at 11. -/
theorem ResolvedTs_eq_min_witness :
    cfBarrier11.WF ∧ ∀ b, cfBarrier11.Barriers.head? = some b →
      cfBarrier11.ResolvedTs ≤ sub64 b.BarrierTs 1 :=
  ⟨cfBarrier11_WF, (ResolvedTs_eq_min cfBarrier11 cfBarrier11_WF).2.1⟩

end replication

namespace replication

/-! ## `AddDDLBarrier` -/

theorem AddDDLBarrier_ok_iff (cf : changeFeed) (ts : Nat) (cf' : changeFeed) :
    cf.AddDDLBarrier ts = .ok cf' ↔
      (∀ last, cf.Barriers.getLast? = some last → ts ≤ last.BarrierTs) ∧
      cf.DDLResolvedTs ≤ ts ∧
      cf' = { cf with
        Barriers := cf.Barriers ++ [{ BarrierType := DDLBarrier, BarrierTs := ts }] } := by
  unfold changeFeed.AddDDLBarrier changeFeed.barrierTooLarge
  constructor
  · intro h
    split at h
    · cases h
    · rename_i hlarge
      split at h
      · cases h
      · rename_i hsmall
        refine ⟨fun last hl => ?_, by omega, ?_⟩
        · rw [hl] at hlarge
          simpa using hlarge
        · cases h
          rfl
  · rintro ⟨h1, h2, rfl⟩
    have hlarge : (match cf.Barriers.getLast? with
        | some last => decide (ts > last.BarrierTs)
        | none => false) = false := by
      cases hl : cf.Barriers.getLast? with
      | none => rfl
      | some last => simpa using h1 last hl
    rw [hlarge]
    simp only [Bool.false_eq_true, if_false]
    rw [if_neg (by omega)]

/-- C3, the code at the failing input: with one pending barrier at 11, `AddDDLBarrier(20)`
panics with "DDLBarrier too large" although 20 is above the last barrier and above
`DDLResolvedTs`, while `AddDDLBarrier(5)` is accepted and yields the barrier list
`[11, 5]`; after the barrier at 11 is done, `ShouldRunDDL` panics on that list with
"Checkpoint run past barrier". -/
theorem AddDDLBarrier_rejects_larger :
    cfPending11.AddDDLBarrier 20 = .error "changeFeed: DDLBarrier too large" ∧
    cfPending11.AddDDLBarrier 5 = .ok { cfPending11 with
      Barriers := [{ BarrierType := DDLBarrier, BarrierTs := 11 },
        { BarrierType := DDLBarrier, BarrierTs := 5 }] } ∧
    ((cfPending11.AddDDLBarrier 5).bind (fun cf => cf.MarkDDLDone addTable42)).bind
        (fun cf => cf.ShouldRunDDL) = .error "changeFeed: Checkpoint run past barrier" := by
  refine ⟨rfl, rfl, rfl⟩

/-! ## `MarkDDLDone` -/

theorem MarkDDLDone_ok_iff (cf : changeFeed) (r : ddlResult) (cf' : changeFeed) :
    cf.MarkDDLDone r = .ok cf' ↔
      cf.CheckpointTs = sub64 r.FinishTs 1 ∧
      ∃ b rest, cf.Barriers = b :: rest ∧ b.BarrierType = DDLBarrier ∧
        b.BarrierTs = r.FinishTs ∧
        ((r.Action = AddTableAction ∧
            cf' = { cf with
              Barriers := rest
              TableTasks := mapSet cf.TableTasks r.tableID
                { TableID := r.tableID, CheckpointTs := cf.CheckpointTs, ResolvedTs := 0 }
              Scheduler := cf.Scheduler.SyncTasks (mapSet cf.TableTasks r.tableID
                { TableID := r.tableID, CheckpointTs := cf.CheckpointTs, ResolvedTs := 0 }) }) ∨
          (r.Action = DropTableAction ∧ (mapGet cf.TableTasks r.tableID).isSome = true ∧
            cf' = { cf with
              Barriers := rest
              TableTasks := mapDelete cf.TableTasks r.tableID
              Scheduler := cf.Scheduler.SyncTasks (mapDelete cf.TableTasks r.tableID) })) := by
  have hne : AddTableAction ≠ DropTableAction := by decide
  unfold changeFeed.MarkDDLDone
  constructor
  · intro h
    split at h
    · cases h
    rename_i h1
    split at h
    · cases h
    rename_i b rest hb
    split at h
    · cases h
    rename_i h2
    have h2' : b.BarrierType = DDLBarrier ∧ b.BarrierTs = r.FinishTs := by
      constructor <;> by_contra hc <;> simp [hc] at h2
    refine ⟨not_not.1 h1, b, rest, hb, h2'.1, h2'.2, ?_⟩
    split at h
    · rename_i ha
      cases h
      exact Or.inl ⟨ha, rfl⟩
    · split at h
      · rename_i hd
        split at h
        · cases h
        · rename_i t hg
          cases h
          exact Or.inr ⟨hd, by simp [hg], rfl⟩
      · cases h
  · rintro ⟨h1, b, rest, hb, h2, h3, h | h⟩
    · obtain ⟨ha, rfl⟩ := h
      rw [if_neg (not_not.2 h1), hb]
      simp only
      rw [if_neg (by simp [h2, h3]), if_pos ha]
    · obtain ⟨hd, hg, rfl⟩ := h
      have ha : ¬ r.Action = AddTableAction := fun h => hne (h.symm.trans hd)
      rw [if_neg (not_not.2 h1), hb]
      simp only
      rw [if_neg (by simp [h2, h3]), if_neg ha, if_pos hd]
      cases hg' : mapGet cf.TableTasks r.tableID with
      | none => simp [hg'] at hg
      | some t => rfl

end replication

namespace replication

/-- C4: `MarkDDLDone(r)` panics unless `CheckpointTs == r.FinishTs - 1`, the head barrier
is a DDL barrier at `r.FinishTs`, the action is add or drop and, for drop, the table is
present. Otherwise it removes exactly the head barrier, maps `r.tableID` to the task
`{r.tableID, cf.CheckpointTs, 0}` for add, deletes `r.tableID` for drop, leaves the other
tasks, `CheckpointTs` and `DDLResolvedTs` as they were, and hands the new table set to
`Scheduler.SyncTasks` once. -/
theorem MarkDDLDone_spec (cf : changeFeed) (r : ddlResult) :
    ((∃ msg, cf.MarkDDLDone r = .error msg) ↔ ¬ cf.canMarkDDLDone r) ∧
    (cf.canMarkDDLDone r → ∃ cf', cf.MarkDDLDone r = .ok cf' ∧
      cf'.Barriers = cf.Barriers.tail ∧ cf'.CheckpointTs = cf.CheckpointTs ∧
      cf'.DDLResolvedTs = cf.DDLResolvedTs ∧
      (r.Action = AddTableAction → mapGet cf'.TableTasks r.tableID =
        some { TableID := r.tableID, CheckpointTs := cf.CheckpointTs, ResolvedTs := 0 }) ∧
      (r.Action = DropTableAction → mapGet cf'.TableTasks r.tableID = none) ∧
      (∀ k, k ≠ r.tableID → mapGet cf'.TableTasks k = mapGet cf.TableTasks k) ∧
      cf'.Scheduler.syncCalls = cf.Scheduler.syncCalls ++ [cf'.TableTasks]) := by
  have hne : AddTableAction ≠ DropTableAction := by decide
  have hok : cf.canMarkDDLDone r → ∃ cf', cf.MarkDDLDone r = .ok cf' ∧
      cf'.Barriers = cf.Barriers.tail ∧ cf'.CheckpointTs = cf.CheckpointTs ∧
      cf'.DDLResolvedTs = cf.DDLResolvedTs ∧
      (r.Action = AddTableAction → mapGet cf'.TableTasks r.tableID =
        some { TableID := r.tableID, CheckpointTs := cf.CheckpointTs, ResolvedTs := 0 }) ∧
      (r.Action = DropTableAction → mapGet cf'.TableTasks r.tableID = none) ∧
      (∀ k, k ≠ r.tableID → mapGet cf'.TableTasks k = mapGet cf.TableTasks k) ∧
      cf'.Scheduler.syncCalls = cf.Scheduler.syncCalls ++ [cf'.TableTasks] := by
    rintro ⟨h1, ⟨b, hb, h2, h3⟩, hact⟩
    obtain ⟨rest, hbs⟩ : ∃ rest, cf.Barriers = b :: rest := by
      cases hl : cf.Barriers with
      | nil => simp [hl] at hb
      | cons b' rest =>
        rw [hl] at hb
        simp only [List.head?_cons, Option.some.injEq] at hb
        exact ⟨rest, by rw [hb]⟩
    rcases hact with ha | ⟨hd, hg⟩
    · refine ⟨_, (MarkDDLDone_ok_iff cf r _).2
        ⟨h1, b, rest, hbs, h2, h3, Or.inl ⟨ha, rfl⟩⟩, ?_, rfl, rfl, ?_, ?_, ?_, rfl⟩
      · simp [hbs]
      · intro _
        exact mapGet_mapSet_self _ _ _
      · intro hd
        exact absurd (ha.symm.trans hd) hne
      · intro k hk
        exact mapGet_mapSet_ne _ _ _ _ hk
    · refine ⟨_, (MarkDDLDone_ok_iff cf r _).2
        ⟨h1, b, rest, hbs, h2, h3, Or.inr ⟨hd, hg, rfl⟩⟩, ?_, rfl, rfl, ?_, ?_, ?_, rfl⟩
      · simp [hbs]
      · intro ha
        exact absurd (ha.symm.trans hd) hne
      · intro _
        exact mapGet_mapDelete_self _ _
      · intro k hk
        exact mapGet_mapDelete_ne _ _ _ hk
  refine ⟨⟨?_, ?_⟩, hok⟩
  · rintro ⟨msg, hmsg⟩ hpre
    obtain ⟨cf', h, _⟩ := hok hpre
    rw [hmsg] at h
    cases h
  · intro hpre
    cases hres : cf.MarkDDLDone r with
    | error msg => exact ⟨msg, rfl⟩
    | ok cf' =>
      exfalso
      apply hpre
      obtain ⟨h1, b, rest, hbs, h2, h3, h⟩ := (MarkDDLDone_ok_iff cf r cf').1 hres
      refine ⟨h1, ⟨b, by simp [hbs], h2, h3⟩, ?_⟩
      rcases h with ⟨ha, _⟩ | ⟨hd, hg, _⟩
      · exact Or.inl ha
      · exact Or.inr ⟨hd, hg⟩

theorem cfPending11_canMarkDDLDone : cfPending11.canMarkDDLDone addTable42 :=
  ⟨rfl, ⟨_, rfl, rfl, rfl⟩, Or.inl rfl⟩

/-- Witness of C4, the scenario of the spec: with checkpoint 10 and one barrier at 11,
`MarkDDLDone({finishTs:11, action:add, tableID:42})` gives `TableTasks = {42:{10, 0}}`
and no barriers. -/
theorem MarkDDLDone_spec_witness :
    cfPending11.canMarkDDLDone addTable42 ∧
    cfPending11.MarkDDLDone addTable42 = .ok
      { TableTasks := [(42, { TableID := 42, CheckpointTs := 10, ResolvedTs := 0 })],
        CheckpointTs := 10, DDLResolvedTs := 0, Barriers := [],
        Scheduler := { syncCalls :=
          [[(42, { TableID := 42, CheckpointTs := 10, ResolvedTs := 0 })]] } } ∧
    ∃ cf', cfPending11.MarkDDLDone addTable42 = .ok cf' ∧ cf'.Barriers = [] ∧
      mapGet cf'.TableTasks 42 = some { TableID := 42, CheckpointTs := 10, ResolvedTs := 0 } := by
  obtain ⟨cf', h, hb, _, _, hadd, _⟩ :=
    (MarkDDLDone_spec cfPending11 addTable42).2 cfPending11_canMarkDDLDone
  exact ⟨cfPending11_canMarkDDLDone, rfl, cf', h, hb, hadd rfl⟩

/-! ## `ShouldRunDDL` -/

/-- C5, counterexample: with `CheckpointTs = MaxUint64` and a DDL head barrier at 0 the
head's `BarrierTs` is `<= CheckpointTs`, yet `ShouldRunDDL` does not panic: it returns
the head, because `CheckpointTs + 1` wraps to 0. -/
theorem ShouldRunDDL_wrap_returns_head :
    cfWrap.WF ∧
    (∃ b, cfWrap.Barriers.head? = some b ∧ b.BarrierTs ≤ cfWrap.CheckpointTs) ∧
    cfWrap.ShouldRunDDL = .ok (cfWrap, some { BarrierType := DDLBarrier, BarrierTs := 0 }) ∧
    ¬ ∃ msg, cfWrap.ShouldRunDDL = .error msg := by
  have h : cfWrap.ShouldRunDDL =
      .ok (cfWrap, some { BarrierType := DDLBarrier, BarrierTs := 0 }) := rfl
  refine ⟨by unfold changeFeed.WF cfWrap; simp, ⟨_, rfl, Nat.zero_le _⟩, h, ?_⟩
  rintro ⟨msg, hmsg⟩
  rw [h] at hmsg
  cases hmsg

/-- C5, amended: `ShouldRunDDL()` returns the head barrier if and only if the barrier list
is non-empty, the head's `BarrierTs == CheckpointTs + 1` (64-bit addition) and its type is
DDL; it panics exactly when the list is non-empty, the head's `BarrierTs <= CheckpointTs`
and the head is not returned by the first rule; in every remaining case it returns no
barrier; it never modifies the state. When `CheckpointTs < MaxUint64` it panics exactly
when the list is non-empty and the head's `BarrierTs <= CheckpointTs`. -/
theorem ShouldRunDDL_spec (cf : changeFeed) :
    (∀ b, cf.ShouldRunDDL = .ok (cf, some b) ↔
      cf.Barriers.head? = some b ∧ b.BarrierTs = add64 cf.CheckpointTs 1 ∧
        b.BarrierType = DDLBarrier) ∧
    ((∃ msg, cf.ShouldRunDDL = .error msg) ↔
      ∃ b, cf.Barriers.head? = some b ∧ b.BarrierTs ≤ cf.CheckpointTs ∧
        ¬ (b.BarrierTs = add64 cf.CheckpointTs 1 ∧ b.BarrierType = DDLBarrier)) ∧
    (cf.ShouldRunDDL = .ok (cf, none) ↔
      ∀ b, cf.Barriers.head? = some b →
        ¬ (b.BarrierTs = add64 cf.CheckpointTs 1 ∧ b.BarrierType = DDLBarrier) ∧
        cf.CheckpointTs < b.BarrierTs) ∧
    (∀ cf' res, cf.ShouldRunDDL = .ok (cf', res) → cf' = cf) ∧
    (cf.CheckpointTs < MaxUint64 →
      ((∃ msg, cf.ShouldRunDDL = .error msg) ↔
        ∃ b, cf.Barriers.head? = some b ∧ b.BarrierTs ≤ cf.CheckpointTs)) := by
  have hadd : cf.CheckpointTs < MaxUint64 → add64 cf.CheckpointTs 1 = cf.CheckpointTs + 1 :=
    fun h => add64_one_of_lt _ (by unfold MaxUint64 at h; exact h)
  unfold changeFeed.ShouldRunDDL
  cases hb : cf.Barriers with
  | nil => simp
  | cons b rest =>
    simp only [List.head?_cons, Option.some.injEq, exists_eq_left', forall_eq']
    by_cases h1 : b.BarrierTs = add64 cf.CheckpointTs 1 ∧ b.BarrierType = DDLBarrier
    · rw [if_pos h1]
      refine ⟨fun b' => ?_, by simp [h1], by simp [h1], ?_, ?_⟩
      · constructor
        · intro h
          simp only [Except.ok.injEq, Prod.mk.injEq, Option.some.injEq, true_and] at h
          subst h
          exact ⟨rfl, h1⟩
        · rintro ⟨rfl, _⟩
          rfl
      · intro cf' res h
        simp only [Except.ok.injEq, Prod.mk.injEq] at h
        exact h.1.symm
      · intro hlt
        have := hadd hlt
        simp only [reduceCtorEq, exists_false, false_iff, not_le]
        omega
    · rw [if_neg h1]
      by_cases h2 : b.BarrierTs ≤ cf.CheckpointTs
      · rw [if_pos h2]
        refine ⟨fun b' => ?_, by simp [h1, h2], by simp [h1, h2], ?_, by simp [h2]⟩
        · simp only [reduceCtorEq, false_iff]
          rintro ⟨rfl, h⟩
          exact h1 h
        · intro cf' res h
          cases h
      · rw [if_neg h2]
        refine ⟨fun b' => ?_, by simp [h1, h2], ?_, ?_, by simp [h2]⟩
        · simp only [Except.ok.injEq, Prod.mk.injEq, reduceCtorEq, and_false, false_iff]
          rintro ⟨rfl, h⟩
          exact h1 h
        · simp only [true_iff]
          exact ⟨h1, by omega⟩
        · intro cf' res h
          simp only [Except.ok.injEq, Prod.mk.injEq] at h
          exact h.1.symm

/-- Witness of C5 on the spec's scenario: with checkpoint 10 and a DDL barrier at 11,
`ShouldRunDDL()` returns the barrier at 11 and leaves the state as it is. -/
theorem ShouldRunDDL_spec_witness :
    cfPending11.ShouldRunDDL =
      .ok (cfPending11, some { BarrierType := DDLBarrier, BarrierTs := 11 }) :=
  ((ShouldRunDDL_spec cfPending11).1 _).2 ⟨rfl, rfl, rfl⟩

end replication

namespace replication

/-! ## How the transitions move `ResolvedTs` -/

theorem ResolvedTs_le_of_bounds (cf cf' : changeFeed)
    (ht : ∀ p ∈ cf'.TableTasks, cf.ResolvedTs ≤ p.2.ResolvedTs)
    (hb : ∀ b, cf'.Barriers.head? = some b → cf.ResolvedTs ≤ sub64 b.BarrierTs 1)
    (hd : cf.ResolvedTs ≤ cf'.DDLResolvedTs) : cf.ResolvedTs ≤ cf'.ResolvedTs :=
  (le_ResolvedTs_iff cf' cf.ResolvedTs).2
    ⟨((le_ResolvedTs_iff cf cf.ResolvedTs).1 le_rfl).1, ht, hb, hd⟩

theorem ResolvedTs_SetDDLResolvedTs_mono (cf : changeFeed) (ts : Nat)
    (h : cf.DDLResolvedTs ≤ ts) : cf.ResolvedTs ≤ (cf.SetDDLResolvedTs ts).ResolvedTs := by
  obtain ⟨_, h1, h2, h3⟩ := (le_ResolvedTs_iff cf cf.ResolvedTs).1 le_rfl
  exact ResolvedTs_le_of_bounds cf _ h1 h2 (le_trans h3 h)

theorem ResolvedTs_AddDDLBarrier_nonempty (cf cf' : changeFeed) (ts : Nat)
    (h : cf.AddDDLBarrier ts = .ok cf') (hne : cf.Barriers ≠ []) :
    cf'.ResolvedTs = cf.ResolvedTs := by
  obtain ⟨_, _, rfl⟩ := (AddDDLBarrier_ok_iff cf ts cf').1 h
  unfold changeFeed.ResolvedTs
  cases hb : cf.Barriers with
  | nil => exact absurd hb hne
  | cons b rest => rfl

theorem ResolvedTs_AddDDLBarrier_empty (cf cf' : changeFeed) (ts : Nat)
    (h : cf.AddDDLBarrier ts = .ok cf') (he : cf.Barriers = []) :
    cf'.ResolvedTs = min cf.ResolvedTs (sub64 ts 1) := by
  obtain ⟨_, _, rfl⟩ := (AddDDLBarrier_ok_iff cf ts cf').1 h
  unfold changeFeed.ResolvedTs
  simp only [he, List.nil_append]
  rw [min_def]
  split_ifs <;> omega

theorem ResolvedTs_MarkDDLDone_add (cf cf' : changeFeed) (r : ddlResult)
    (h : cf.MarkDDLDone r = .ok cf') (ha : r.Action = AddTableAction) :
    cf'.ResolvedTs = 0 := by
  have hne : AddTableAction ≠ DropTableAction := by decide
  obtain ⟨_, b, rest, _, _, _, hcase⟩ := (MarkDDLDone_ok_iff cf r cf').1 h
  rcases hcase with ⟨_, rfl⟩ | ⟨hd, _⟩
  · have hle := ((le_ResolvedTs_iff _ _).1 (le_refl (changeFeed.ResolvedTs
      { cf with
        Barriers := rest
        TableTasks := mapSet cf.TableTasks r.tableID
          { TableID := r.tableID, CheckpointTs := cf.CheckpointTs, ResolvedTs := 0 }
        Scheduler := cf.Scheduler.SyncTasks (mapSet cf.TableTasks r.tableID
          { TableID := r.tableID, CheckpointTs := cf.CheckpointTs, ResolvedTs := 0 }) }))).2.1
      (r.tableID, { TableID := r.tableID, CheckpointTs := cf.CheckpointTs, ResolvedTs := 0 })
      (List.mem_cons_self _ _)
    exact Nat.le_zero.1 hle
  · exact absurd (ha.symm.trans hd) hne

theorem ResolvedTs_MarkDDLDone_drop (cf cf' : changeFeed) (r : ddlResult)
    (h : cf.MarkDDLDone r = .ok cf') (hd : r.Action = DropTableAction)
    (hwf : cf.WF) (hs : cf.barriersSorted) (hh : cf.headAboveCheckpoint) :
    cf.ResolvedTs ≤ cf'.ResolvedTs := by
  have hne : AddTableAction ≠ DropTableAction := by decide
  obtain ⟨_, b, rest, hbs, _, _, hcase⟩ := (MarkDDLDone_ok_iff cf r cf').1 h
  obtain ⟨_, h1, h2, h3⟩ := (le_ResolvedTs_iff cf cf.ResolvedTs).1 le_rfl
  rcases hcase with ⟨ha, _⟩ | ⟨_, _, rfl⟩
  · exact absurd (ha.symm.trans hd) hne
  · refine ResolvedTs_le_of_bounds cf _ (fun p hp => ?_) (fun b' hb' => ?_) h3
    · exact h1 p (List.mem_of_mem_filter hp)
    · have hb'mem : b' ∈ rest := by
        cases rest with
        | nil => simp at hb'
        | cons c rest' =>
          simp only [List.head?_cons, Option.some.injEq] at hb'
          subst hb'
          exact List.mem_cons_self _ _
      have hpos : cf.CheckpointTs < b.BarrierTs := hh b (by simp [hbs])
      have hle : b.BarrierTs ≤ b'.BarrierTs := by
        unfold changeFeed.barriersSorted at hs
        rw [hbs] at hs
        exact List.rel_of_pairwise_cons hs hb'mem
      have hlt : b.BarrierTs < 2 ^ 64 := hwf.2.2.1 b (by simp [hbs])
      have hlt' : b'.BarrierTs < 2 ^ 64 :=
        hwf.2.2.1 b' (by rw [hbs]; exact List.mem_cons_of_mem _ hb'mem)
      have hR := h2 b (by simp [hbs])
      rw [sub64_one_of_pos _ (by omega) hlt] at hR
      rw [sub64_one_of_pos _ (by omega) hlt']
      omega

end replication

namespace replication

/-! ## Invariant I3: `CheckpointTs ≤ ResolvedTs()` -/

/-- C2, counterexample: `CheckpointTs <= ResolvedTs()` holds before and fails after
(a) `MarkDDLDone` with action add in the spec's scenario (checkpoint 10, barrier 11): the
new table has `ResolvedTs` 0; (b) `AddDDLBarrier(10)` on an empty barrier list with
checkpoint 10 and DDL resolved-ts 10: the new bound is 9; (c) `MarkDDLDone` with action
drop when the barrier behind the head is smaller than the head (barriers 11, 5). -/
theorem checkpoint_le_resolved_broken :
    (cfBarrier11.checkpointBelowResolved ∧
      ∃ cf', cfBarrier11.MarkDDLDone addTable42 = .ok cf' ∧ ¬ cf'.checkpointBelowResolved) ∧
    (cfIdle10.checkpointBelowResolved ∧
      ∃ cf', cfIdle10.AddDDLBarrier 10 = .ok cf' ∧ ¬ cf'.checkpointBelowResolved) ∧
    (cfUnsorted.checkpointBelowResolved ∧
      ∃ cf', cfUnsorted.MarkDDLDone dropTable42 = .ok cf' ∧ ¬ cf'.checkpointBelowResolved) :=
  ⟨⟨by decide, _, rfl, by decide⟩, ⟨by decide, _, rfl, by decide⟩,
    ⟨by decide, _, rfl, by decide⟩⟩

/-- C2, amended: from a state with `CheckpointTs <= ResolvedTs()` the inequality still
holds after `SetDDLResolvedTs` with a non-decreasing argument, after a non-panicking
`AddDDLBarrier(ts)` when the barrier list was non-empty or `ts > CheckpointTs`, and after
a non-panicking `MarkDDLDone` with action drop when the state is well formed and
satisfies I2 (barriers non-decreasing, head above the checkpoint). After a non-panicking
`MarkDDLDone` with action add, `ResolvedTs()` is 0, so the inequality holds exactly when
`CheckpointTs` is 0. -/
theorem checkpoint_le_resolved_preserved (cf : changeFeed)
    (hinv : cf.checkpointBelowResolved) :
    (∀ ts, cf.DDLResolvedTs ≤ ts → (cf.SetDDLResolvedTs ts).checkpointBelowResolved) ∧
    (∀ ts cf', cf.AddDDLBarrier ts = .ok cf' →
      cf.Barriers ≠ [] ∨ (cf.CheckpointTs < ts ∧ ts < 2 ^ 64) →
      cf'.checkpointBelowResolved) ∧
    (∀ r cf', cf.MarkDDLDone r = .ok cf' → r.Action = DropTableAction →
      cf.WF → cf.barriersSorted → cf.headAboveCheckpoint → cf'.checkpointBelowResolved) ∧
    (∀ r cf', cf.MarkDDLDone r = .ok cf' → r.Action = AddTableAction →
      cf'.ResolvedTs = 0 ∧ (cf'.checkpointBelowResolved ↔ cf.CheckpointTs = 0)) := by
  unfold changeFeed.checkpointBelowResolved at *
  refine ⟨fun ts hts => ?_, fun ts cf' h hcase => ?_, fun r cf' h hd hwf hs hh => ?_,
    fun r cf' h ha => ?_⟩
  · exact le_trans hinv (ResolvedTs_SetDDLResolvedTs_mono cf ts hts)
  · have hck : cf'.CheckpointTs = cf.CheckpointTs := by
      obtain ⟨_, _, rfl⟩ := (AddDDLBarrier_ok_iff cf ts cf').1 h
      rfl
    rw [hck]
    by_cases hne : cf.Barriers = []
    · rcases hcase with hc | ⟨hlt, hts⟩
      · exact absurd hne hc
      · rw [ResolvedTs_AddDDLBarrier_empty cf cf' ts h hne,
          sub64_one_of_pos ts (by omega) hts]
        exact le_min hinv (by omega)
    · rw [ResolvedTs_AddDDLBarrier_nonempty cf cf' ts h hne]
      exact hinv
  · have hck : cf'.CheckpointTs = cf.CheckpointTs := by
      obtain ⟨_, b, rest, _, _, _, hcase⟩ := (MarkDDLDone_ok_iff cf r cf').1 h
      rcases hcase with ⟨_, rfl⟩ | ⟨_, _, rfl⟩ <;> rfl
    rw [hck]
    exact le_trans hinv (ResolvedTs_MarkDDLDone_drop cf cf' r h hd hwf hs hh)
  · have hck : cf'.CheckpointTs = cf.CheckpointTs := by
      obtain ⟨_, b, rest, _, _, _, hcase⟩ := (MarkDDLDone_ok_iff cf r cf').1 h
      rcases hcase with ⟨_, rfl⟩ | ⟨_, _, rfl⟩ <;> rfl
    rw [hck, ResolvedTs_MarkDDLDone_add cf cf' r h ha]
    exact ⟨rfl, Nat.le_zero⟩

/-- Witness of C2: with table 42 resolved up to 10, checkpoint 10 and barriers 11, 20,
dropping table 42 at 11 keeps `CheckpointTs <= ResolvedTs()`. -/
theorem checkpoint_le_resolved_preserved_witness :
    cfSorted.checkpointBelowResolved ∧
    ∃ cf', cfSorted.MarkDDLDone dropTable42 = .ok cf' ∧ cf'.checkpointBelowResolved :=
  ⟨by decide, _, rfl,
    (checkpoint_le_resolved_preserved cfSorted (by decide)).2.2.1 dropTable42 _ rfl rfl
      (by decide) (by decide) (by decide)⟩

/-! ## Monotonicity of `ResolvedTs()` -/

/-- C6, counterexample: `ResolvedTs()` decreases (a) from 10 to 9 across
`AddDDLBarrier(10)` on an empty barrier list with DDL resolved-ts 10; (b) from 10 to 0
across `MarkDDLDone` with action add in the spec's scenario; (c) from 10 to 4 across
`MarkDDLDone` with action drop when the barriers are 11, 5. -/
theorem ResolvedTs_decreases :
    (cfIdle10.ResolvedTs = 10 ∧
      ∃ cf', cfIdle10.AddDDLBarrier 10 = .ok cf' ∧ cf'.ResolvedTs = 9) ∧
    (cfBarrier11.ResolvedTs = 10 ∧
      ∃ cf', cfBarrier11.MarkDDLDone addTable42 = .ok cf' ∧ cf'.ResolvedTs = 0) ∧
    (cfUnsorted.ResolvedTs = 10 ∧
      ∃ cf', cfUnsorted.MarkDDLDone dropTable42 = .ok cf' ∧ cf'.ResolvedTs = 4) :=
  ⟨⟨by decide, _, rfl, by decide⟩, ⟨by decide, _, rfl, by decide⟩,
    ⟨by decide, _, rfl, by decide⟩⟩

/-- C6, amended: in every state `ResolvedTs() <= DDLResolvedTs` and, when there is a
barrier, `ResolvedTs() <= Barriers[0].BarrierTs - 1`. `ResolvedTs()` does not decrease
across `SetDDLResolvedTs` with an argument `>=` the current `DDLResolvedTs`; it is
unchanged by a non-panicking `AddDDLBarrier` on a non-empty barrier list; it does not
decrease across a non-panicking `MarkDDLDone` with action drop from a well-formed state
that satisfies I2. A non-panicking `AddDDLBarrier(ts)` on an empty barrier list makes it
`min(ResolvedTs(), ts - 1)`, and a non-panicking `MarkDDLDone` with action add makes it 0. -/
theorem ResolvedTs_monotone (cf : changeFeed) :
    (cf.ResolvedTs ≤ cf.DDLResolvedTs ∧
      ∀ b, cf.Barriers.head? = some b → cf.ResolvedTs ≤ sub64 b.BarrierTs 1) ∧
    (∀ ts, cf.DDLResolvedTs ≤ ts → cf.ResolvedTs ≤ (cf.SetDDLResolvedTs ts).ResolvedTs) ∧
    (∀ ts cf', cf.AddDDLBarrier ts = .ok cf' →
      (cf.Barriers ≠ [] → cf'.ResolvedTs = cf.ResolvedTs) ∧
      (cf.Barriers = [] → cf'.ResolvedTs = min cf.ResolvedTs (sub64 ts 1))) ∧
    (∀ r cf', cf.MarkDDLDone r = .ok cf' → r.Action = DropTableAction →
      cf.WF → cf.barriersSorted → cf.headAboveCheckpoint →
      cf.ResolvedTs ≤ cf'.ResolvedTs) ∧
    (∀ r cf', cf.MarkDDLDone r = .ok cf' → r.Action = AddTableAction →
      cf'.ResolvedTs = 0) := by
  obtain ⟨_, _, h2, h3⟩ := (le_ResolvedTs_iff cf cf.ResolvedTs).1 le_rfl
  exact ⟨⟨h3, h2⟩, ResolvedTs_SetDDLResolvedTs_mono cf,
    fun ts cf' h => ⟨ResolvedTs_AddDDLBarrier_nonempty cf cf' ts h,
      ResolvedTs_AddDDLBarrier_empty cf cf' ts h⟩,
    fun r cf' h hd hwf hs hh => ResolvedTs_MarkDDLDone_drop cf cf' r h hd hwf hs hh,
    fun r cf' h ha => ResolvedTs_MarkDDLDone_add cf cf' r h ha⟩

/-- Witness of C6: with table 42 resolved up to 10 and barriers 11, 20, dropping table 42
at 11 does not decrease `ResolvedTs()`. -/
theorem ResolvedTs_monotone_witness :
    ∃ cf', cfSorted.MarkDDLDone dropTable42 = .ok cf' ∧ cfSorted.ResolvedTs ≤ cf'.ResolvedTs :=
  ⟨_, rfl, (ResolvedTs_monotone cfSorted).2.2.2.1 dropTable42 _ rfl rfl
    (by decide) (by decide) (by decide)⟩

/-! ## Invariant I2: the barrier list -/

/-- C7, counterexample: with no barrier, checkpoint 10 and DDL resolved-ts 10, I2 holds
and `AddDDLBarrier(10)` does not panic, yet the head barrier is then at 10, which is not
above the checkpoint. With one barrier at 11, `AddDDLBarrier(5)` does not panic and the
list 11, 5 is no longer non-decreasing. -/
theorem barrier_invariant_broken :
    (cfIdle10.barriersSorted ∧ cfIdle10.headAboveCheckpoint ∧
      ∃ cf', cfIdle10.AddDDLBarrier 10 = .ok cf' ∧ ¬ cf'.headAboveCheckpoint) ∧
    (cfPending11.barriersSorted ∧ cfPending11.headAboveCheckpoint ∧
      ∃ cf', cfPending11.AddDDLBarrier 5 = .ok cf' ∧ ¬ cf'.barriersSorted) :=
  ⟨⟨by decide, by decide, _, rfl, by decide⟩, ⟨by decide, by decide, _, rfl, by decide⟩⟩

/-- C7, amended: from a state in which the barrier list is non-decreasing in `BarrierTs`
and its head is strictly greater than `CheckpointTs`, both still hold after any
non-panicking `MarkDDLDone`; after a non-panicking `AddDDLBarrier(ts)` the head is still
strictly greater than `CheckpointTs` when the list was non-empty or `ts > CheckpointTs`,
and the list is non-decreasing when it was empty. -/
theorem barrier_invariant_preserved (cf : changeFeed)
    (hs : cf.barriersSorted) (hh : cf.headAboveCheckpoint) :
    (∀ r cf', cf.MarkDDLDone r = .ok cf' → cf'.barriersSorted ∧ cf'.headAboveCheckpoint) ∧
    (∀ ts cf', cf.AddDDLBarrier ts = .ok cf' →
      cf.Barriers ≠ [] ∨ cf.CheckpointTs < ts → cf'.headAboveCheckpoint) ∧
    (∀ ts cf', cf.AddDDLBarrier ts = .ok cf' → cf.Barriers = [] → cf'.barriersSorted) := by
  unfold changeFeed.barriersSorted changeFeed.headAboveCheckpoint at *
  refine ⟨fun r cf' h => ?_, fun ts cf' h hcase => ?_, fun ts cf' h he => ?_⟩
  · obtain ⟨_, b, rest, hbs, _, _, hcase⟩ := (MarkDDLDone_ok_iff cf r cf').1 h
    rw [hbs] at hs hh
    have hrest : rest.Pairwise (fun a b => a.BarrierTs ≤ b.BarrierTs) := hs.of_cons
    have hhead : ∀ b', rest.head? = some b' → cf.CheckpointTs < b'.BarrierTs := by
      intro b' hb'
      have hmem : b' ∈ rest := List.mem_of_mem_head? hb'
      have h1 := List.rel_of_pairwise_cons hs hmem
      have h2 := hh b rfl
      omega
    rcases hcase with ⟨_, rfl⟩ | ⟨_, _, rfl⟩ <;> exact ⟨hrest, hhead⟩
  · obtain ⟨_, _, rfl⟩ := (AddDDLBarrier_ok_iff cf ts cf').1 h
    intro b hb
    cases hbs : cf.Barriers with
    | nil =>
      rw [hbs] at hb
      simp only [List.nil_append, List.head?_cons, Option.some.injEq] at hb
      subst hb
      rcases hcase with hc | hc
      · exact absurd hbs hc
      · exact hc
    | cons c rest =>
      rw [hbs] at hb
      simp only [List.cons_append, List.head?_cons, Option.some.injEq] at hb
      subst hb
      exact hh _ (by rw [hbs]; rfl)
  · obtain ⟨_, _, rfl⟩ := (AddDDLBarrier_ok_iff cf ts cf').1 h
    simp [he]

/-- Witness of C7: with checkpoint 10 and barriers 11, 20, after `MarkDDLDone` at 11 the
barrier list 20 is non-decreasing and its head is above the checkpoint. -/
theorem barrier_invariant_preserved_witness :
    cfSorted.barriersSorted ∧ cfSorted.headAboveCheckpoint ∧
    ∃ cf', cfSorted.MarkDDLDone dropTable42 = .ok cf' ∧
      cf'.barriersSorted ∧ cf'.headAboveCheckpoint :=
  ⟨by decide, by decide, _, rfl,
    (barrier_invariant_preserved cfSorted (by decide) (by decide)).1 dropTable42 _ rfl⟩

end replication

namespace owner

/-! ## `EmitDDLEvent` -/

/-- C8: `EmitDDLEvent(ddl)` returns `(true, nil)` and changes nothing if
`ddl.CommitTs <= ddlFinishedTs`; else returns `(false, nil)` and changes nothing if
`ddl.CommitTs <= ddlSentTs`; else, when the context is not cancelled and the channel has
room, it enqueues `ddl`, sets `ddlSentTs = ddl.CommitTs` and returns `(false, nil)`; when
the `select` takes the cancellation case (context cancelled, and channel full or that
case picked) it returns `(false, Canceled)` and changes nothing. Whenever it returns an
error the error is the cancellation error and the state, `ddlSentTs` included, is
unchanged. -/
theorem EmitDDLEvent_spec (s : asyncSinkImpl) (ctxDone : Bool) (pick : emitCase)
    (ddl : DDLEvent) :
    (ddl.CommitTs ≤ s.ddlFinishedTs →
      s.EmitDDLEvent ctxDone pick ddl = some (s, true, none)) ∧
    (s.ddlFinishedTs < ddl.CommitTs → ddl.CommitTs ≤ s.ddlSentTs →
      s.EmitDDLEvent ctxDone pick ddl = some (s, false, none)) ∧
    (s.ddlFinishedTs < ddl.CommitTs → s.ddlSentTs < ddl.CommitTs → ctxDone = false →
      s.ddlCh.length < ddlChCap →
      s.EmitDDLEvent ctxDone pick ddl =
        some ({ s with ddlCh := s.ddlCh ++ [ddl], ddlSentTs := ddl.CommitTs }, false, none)) ∧
    (s.ddlFinishedTs < ddl.CommitTs → s.ddlSentTs < ddl.CommitTs → ctxDone = true →
      ddlChCap ≤ s.ddlCh.length ∨ pick = emitCase.ctxDone →
      s.EmitDDLEvent ctxDone pick ddl = some (s, false, some Err.Canceled)) ∧
    (∀ s' done e, s.EmitDDLEvent ctxDone pick ddl = some (s', done, some e) →
      e = Err.Canceled ∧ ctxDone = true ∧ done = false ∧ s' = s) := by
  unfold asyncSinkImpl.EmitDDLEvent
  refine ⟨fun h => ?_, fun h1 h2 => ?_, fun h1 h2 hc hroom => ?_,
    fun h1 h2 hc hcase => ?_, fun s' done e h => ?_⟩
  · simp [h]
  · simp [Nat.not_le.2 h1, h2]
  · simp [Nat.not_le.2 h1, Nat.not_le.2 h2, hc, hroom]
  · rcases hcase with hfull | hpick
    · simp [Nat.not_le.2 h1, Nat.not_le.2 h2, hc, Nat.not_lt.2 hfull]
    · by_cases hroom : s.ddlCh.length < ddlChCap
      · simp [Nat.not_le.2 h1, Nat.not_le.2 h2, hc, hroom, hpick]
      · simp [Nat.not_le.2 h1, Nat.not_le.2 h2, hc, hroom]
  · by_cases h1 : ddl.CommitTs ≤ s.ddlFinishedTs
    · simp [h1] at h
    by_cases h2 : ddl.CommitTs ≤ s.ddlSentTs
    · simp [h1, h2] at h
    by_cases hroom : s.ddlCh.length < ddlChCap <;> cases ctxDone <;> cases pick <;>
      simp [h1, h2, hroom] at h <;>
      (obtain ⟨rfl, rfl, rfl⟩ := h; exact ⟨rfl, rfl, rfl, rfl⟩)

/-- Witness of C8: on the fresh sink, with a live context, `EmitDDLEvent(ddl5)` enqueues
`ddl5`, sets `ddlSentTs` to 5 and returns `(false, nil)`. -/
theorem EmitDDLEvent_spec_witness :
    asyncSinkImpl.init.EmitDDLEvent false emitCase.send ddl5 =
      some ({ asyncSinkImpl.init with ddlCh := [ddl5], ddlSentTs := 5 }, false, none) :=
  (EmitDDLEvent_spec asyncSinkImpl.init false emitCase.send ddl5).2.2.1
    (by decide) (by decide) rfl (by decide)

end owner

namespace owner

/-! ## Traces of the DDL handshake -/

theorem EmitDDLEvent_cases (s : asyncSinkImpl) (ctxDone : Bool) (pick : emitCase)
    (ddl : DDLEvent) (s' : asyncSinkImpl) (done : Bool) (err : Option Err)
    (h : s.EmitDDLEvent ctxDone pick ddl = some (s', done, err)) :
    s' = s ∨
    (s.ddlFinishedTs < ddl.CommitTs ∧ s.ddlSentTs < ddl.CommitTs ∧
      s' = { s with ddlCh := s.ddlCh ++ [ddl], ddlSentTs := ddl.CommitTs }) := by
  unfold asyncSinkImpl.EmitDDLEvent at h
  by_cases h1 : ddl.CommitTs ≤ s.ddlFinishedTs
  · simp [h1] at h
    exact Or.inl h.1.symm
  by_cases h2 : ddl.CommitTs ≤ s.ddlSentTs
  · simp [h1, h2] at h
    exact Or.inl h.1.symm
  by_cases hroom : s.ddlCh.length < ddlChCap <;> cases ctxDone <;> cases pick <;>
    simp [h1, h2, hroom] at h <;>
    first
    | exact Or.inl h.1.symm
    | exact Or.inr ⟨by omega, by omega, h.1.symm⟩

theorem runStep_cases (s : asyncSinkImpl) (c : runCase) (res : Option Err)
    (s' : asyncSinkImpl) (h : s.runStep c res = some s') :
    (s'.sink.ddlCalls = s.sink.ddlCalls ∧ s'.ddlCh = s.ddlCh ∧
      s'.ddlFinishedTs = s.ddlFinishedTs ∧ s'.ddlSentTs = s.ddlSentTs) ∨
    (∃ d rest, s.ddlCh = d :: rest ∧ s'.ddlCh = rest ∧
      s'.sink.ddlCalls = s.sink.ddlCalls ++ [(d, res)] ∧ s'.ddlSentTs = s.ddlSentTs ∧
      ((accepted res = true ∧ s'.ddlFinishedTs = d.CommitTs) ∨
        (accepted res = false ∧ s'.ddlFinishedTs = s.ddlFinishedTs))) := by
  unfold asyncSinkImpl.runStep at h
  split at h
  · cases h
  cases c with
  | ctxDone =>
    simp only at h
    split at h
    · cases h
      exact Or.inl ⟨rfl, rfl, rfl, rfl⟩
    · cases h
  | errCh =>
    simp only at h
    split at h
    · cases h
    · cases h
      exact Or.inl ⟨rfl, rfl, rfl, rfl⟩
  | tick =>
    simp only at h
    split at h
    · cases h
      exact Or.inl ⟨rfl, rfl, rfl, rfl⟩
    · split at h <;> cases h <;> exact Or.inl ⟨rfl, rfl, rfl, rfl⟩
  | ddl =>
    simp only at h
    split at h
    · cases h
    · rename_i d rest hch
      refine Or.inr ⟨d, rest, hch, ?_⟩
      split at h
      · cases h
        exact ⟨rfl, rfl, rfl, Or.inl ⟨rfl, rfl⟩⟩
      · rename_i err
        split at h
        · rename_i herr
          cases h
          exact ⟨rfl, rfl, rfl, Or.inl ⟨by simp [accepted, herr], rfl⟩⟩
        · rename_i herr
          cases h
          exact ⟨rfl, rfl, rfl, Or.inr ⟨by simp [accepted, herr], rfl⟩⟩

theorem step_cases (s : asyncSinkImpl) (e : Event) :
    ((s.step e).sink.ddlCalls = s.sink.ddlCalls ∧ (s.step e).ddlCh = s.ddlCh ∧
      (s.step e).ddlFinishedTs = s.ddlFinishedTs ∧ (s.step e).ddlSentTs = s.ddlSentTs) ∨
    (∃ ddl, emittedDDLs [e] = [ddl] ∧ s.ddlFinishedTs < ddl.CommitTs ∧
      s.ddlSentTs < ddl.CommitTs ∧ (s.step e).sink.ddlCalls = s.sink.ddlCalls ∧
      (s.step e).ddlCh = s.ddlCh ++ [ddl] ∧ (s.step e).ddlFinishedTs = s.ddlFinishedTs ∧
      (s.step e).ddlSentTs = ddl.CommitTs) ∨
    (∃ d rest res, s.ddlCh = d :: rest ∧ (s.step e).ddlCh = rest ∧
      (s.step e).sink.ddlCalls = s.sink.ddlCalls ++ [(d, res)] ∧
      (s.step e).ddlSentTs = s.ddlSentTs ∧
      ((accepted res = true ∧ (s.step e).ddlFinishedTs = d.CommitTs) ∨
        (accepted res = false ∧ (s.step e).ddlFinishedTs = s.ddlFinishedTs))) := by
  cases e with
  | emitDDL ctxDone pick ddl =>
    unfold asyncSinkImpl.step
    simp only
    cases hres : s.EmitDDLEvent ctxDone pick ddl with
    | none => exact Or.inl ⟨rfl, rfl, rfl, rfl⟩
    | some out =>
      obtain ⟨s', done, err⟩ := out
      rcases EmitDDLEvent_cases s ctxDone pick ddl s' done err hres with rfl | ⟨h1, h2, rfl⟩
      · exact Or.inl ⟨rfl, rfl, rfl, rfl⟩
      · exact Or.inr (Or.inl ⟨ddl, rfl, h1, h2, rfl, rfl, rfl, rfl⟩)
  | emitCheckpoint ts => exact Or.inl ⟨rfl, rfl, rfl, rfl⟩
  | worker c res =>
    unfold asyncSinkImpl.step
    simp only
    cases hres : s.runStep c res with
    | none => exact Or.inl ⟨rfl, rfl, rfl, rfl⟩
    | some s' =>
      rcases runStep_cases s c res s' hres with h | ⟨d, rest, h⟩
      · exact Or.inl h
      · exact Or.inr (Or.inr ⟨d, rest, res, h⟩)

theorem emittedDDLs_cons (e : Event) (es : List Event) :
    emittedDDLs (e :: es) = emittedDDLs [e] ++ emittedDDLs es := by
  unfold emittedDDLs
  rw [← List.filterMap_append]
  rfl

theorem exec_cons (s : asyncSinkImpl) (e : Event) (es : List Event) :
    s.exec (e :: es) = (s.step e).exec es := rfl

end owner

namespace owner

theorem passed_eq (s : asyncSinkImpl) : s.passed = s.sink.ddlCalls.map Prod.fst := rfl

theorem ddlOrdered_step (s : asyncSinkImpl) (e : Event) (h : s.ddlOrdered) :
    (s.step e).ddlOrdered := by
  unfold asyncSinkImpl.ddlOrdered at *
  obtain ⟨hp, hle⟩ := h
  rcases step_cases s e with ⟨h1, h2, _, h4⟩ | ⟨ddl, _, _, hs, h1, h2, _, h4⟩ |
    ⟨d, rest, res, hch, h2, h1, h4, _⟩
  · rw [passed_eq, h1, h2, h4, ← passed_eq]
    exact ⟨hp, hle⟩
  · rw [passed_eq, h1, h2, h4, ← passed_eq, ← List.append_assoc]
    constructor
    · rw [List.map_append, List.pairwise_append]
      refine ⟨hp, by simp, fun a ha b hb => ?_⟩
      simp only [List.map_cons, List.map_nil, List.mem_singleton] at hb
      obtain ⟨d, hd, rfl⟩ := List.mem_map.1 ha
      have := hle d hd
      omega
    · intro d hd
      rcases List.mem_append.1 hd with hd | hd
      · have := hle d hd
        omega
      · simp only [List.mem_singleton] at hd
        rw [hd]
  · have hlist : (s.step e).passed ++ (s.step e).ddlCh = s.passed ++ s.ddlCh := by
      rw [passed_eq, h1, h2, hch, passed_eq]
      simp
    rw [hlist, h4]
    exact ⟨hp, hle⟩

theorem ddlOrdered_exec (s : asyncSinkImpl) (es : List Event) (h : s.ddlOrdered) :
    (s.exec es).ddlOrdered := by
  induction es generalizing s with
  | nil => exact h
  | cons e es ih => exact ih (s.step e) (ddlOrdered_step s e h)

theorem ddlOrdered_init : asyncSinkImpl.init.ddlOrdered := by
  unfold asyncSinkImpl.ddlOrdered asyncSinkImpl.passed asyncSinkImpl.init
  simp

theorem backendAccepted_mono (s s' : asyncSinkImpl) (d : DDLEvent)
    (hsub : ∀ x ∈ s.sink.ddlCalls, x ∈ s'.sink.ddlCalls) (h : s.backendAccepted d) :
    s'.backendAccepted d := by
  obtain ⟨r, hr, ha⟩ := h
  exact ⟨r, hsub _ hr, ha⟩

theorem ddlTraced_step (s : asyncSinkImpl) (e : Event) (E : List DDLEvent)
    (h : s.ddlTraced E) : (s.step e).ddlTraced (E ++ emittedDDLs [e]) := by
  unfold asyncSinkImpl.ddlTraced at *
  obtain ⟨hf, hp, hc⟩ := h
  rcases step_cases s e with ⟨h1, h2, h3, _⟩ | ⟨ddl, he, _, _, h1, h2, h3, _⟩ |
    ⟨d, rest, res, hch, h2, h1, _, h3⟩
  · refine ⟨?_, ?_, ?_⟩
    · rw [h3]
      rcases hf with hf | ⟨d, hd, hdts⟩
      · exact Or.inl hf
      · exact Or.inr ⟨d, backendAccepted_mono s _ d (by rw [h1]; exact fun x hx => hx) hd, hdts⟩
    · rw [passed_eq, h1, ← passed_eq]
      exact fun d hd => List.mem_append_left _ (hp d hd)
    · rw [h2]
      exact fun d hd => List.mem_append_left _ (hc d hd)
  · refine ⟨?_, ?_, ?_⟩
    · rw [h3]
      rcases hf with hf | ⟨d, hd, hdts⟩
      · exact Or.inl hf
      · exact Or.inr ⟨d, backendAccepted_mono s _ d (by rw [h1]; exact fun x hx => hx) hd, hdts⟩
    · rw [passed_eq, h1, ← passed_eq]
      exact fun d hd => List.mem_append_left _ (hp d hd)
    · rw [h2, he]
      intro d hd
      rcases List.mem_append.1 hd with hd | hd
      · exact List.mem_append_left _ (hc d hd)
      · exact List.mem_append_right _ hd
  · have hsub : ∀ x ∈ s.sink.ddlCalls, x ∈ (s.step e).sink.ddlCalls := by
      rw [h1]
      exact fun x hx => List.mem_append_left _ hx
    refine ⟨?_, ?_, ?_⟩
    · rcases h3 with ⟨hacc, hts⟩ | ⟨_, hts⟩
      · exact Or.inr ⟨d, ⟨res, by rw [h1]; simp, hacc⟩, hts.symm⟩
      · rw [hts]
        rcases hf with hf | ⟨d', hd', hdts⟩
        · exact Or.inl hf
        · exact Or.inr ⟨d', backendAccepted_mono s _ d' hsub hd', hdts⟩
    · rw [passed_eq, h1]
      intro x hx
      simp only [List.map_append, List.map_cons, List.map_nil, List.mem_append,
        List.mem_singleton] at hx
      rcases hx with hx | hx
      · exact List.mem_append_left _ (hp x hx)
      · rw [hx]
        exact List.mem_append_left _ (hc d (by rw [hch]; exact List.mem_cons_self _ _))
    · rw [h2]
      intro x hx
      exact List.mem_append_left _ (hc x (by rw [hch]; exact List.mem_cons_of_mem _ hx))

theorem ddlTraced_exec (s : asyncSinkImpl) (es : List Event) (E : List DDLEvent)
    (h : s.ddlTraced E) : (s.exec es).ddlTraced (E ++ emittedDDLs es) := by
  induction es generalizing s E with
  | nil => simpa [emittedDDLs, asyncSinkImpl.exec] using h
  | cons e es ih =>
    rw [exec_cons, emittedDDLs_cons, ← List.append_assoc]
    exact ih (s.step e) _ (ddlTraced_step s e E h)

theorem ddlTraced_init : asyncSinkImpl.init.ddlTraced [] := by
  unfold asyncSinkImpl.ddlTraced asyncSinkImpl.passed asyncSinkImpl.init
  simp

/-! ## `done` and the backend -/

/-- C9, counterexample: after `ddl5` (commit-ts 5) was emitted and executed,
`EmitDDLEvent(ddl3)` with commit-ts 3 returns `done = true` although the backend was
never given `ddl3`; and on the fresh sink `EmitDDLEvent(ddl0)` with commit-ts 0 returns
`done = true` although the backend was given nothing. -/
theorem done_without_backend :
    ((asyncSinkImpl.init.exec ddl5Executed).EmitDDLEvent false emitCase.send ddl3 =
        some (asyncSinkImpl.init.exec ddl5Executed, true, none) ∧
      ddl3 ∉ (asyncSinkImpl.init.exec ddl5Executed).passed ∧
      ¬ (asyncSinkImpl.init.exec ddl5Executed).backendAccepted ddl3) ∧
    (asyncSinkImpl.init.EmitDDLEvent false emitCase.send ddl0 =
        some (asyncSinkImpl.init, true, none) ∧
      asyncSinkImpl.init.passed = [] ∧ ¬ asyncSinkImpl.init.backendAccepted ddl0) := by
  have hcalls : (asyncSinkImpl.init.exec ddl5Executed).sink.ddlCalls = [(ddl5, none)] := rfl
  refine ⟨⟨rfl, by decide, ?_⟩, rfl, rfl, ?_⟩
  · rintro ⟨r, hr, _⟩
    rw [hcalls] at hr
    simp only [List.mem_singleton, Prod.mk.injEq] at hr
    exact absurd hr.1 (by decide)
  · rintro ⟨r, hr, _⟩
    simp [asyncSinkImpl.init] at hr

/-- C9, amended: from the fresh sink, after any sequence of `EmitDDLEvent` and
`EmitCheckpointTs` calls interleaved with worker steps, a call `EmitDDLEvent(ddl)` with
`ddl.CommitTs > 0` returns `done = true` only if the backend sink's `EmitDDLEvent` was
already invoked with that same `ddl` and accepted it (returned success or the ignored-DDL
error), provided no earlier call carried a larger commit-ts and every earlier call with
the same commit-ts carried the same `ddl`. -/
theorem done_only_after_accepted (es : List Event) (ctxDone : Bool) (pick : emitCase)
    (ddl : DDLEvent) (s' : asyncSinkImpl) (err : Option Err)
    (hpos : 0 < ddl.CommitTs)
    (hord : ∀ d ∈ emittedDDLs es, d.CommitTs ≤ ddl.CommitTs)
    (hdist : ∀ d ∈ emittedDDLs es, d.CommitTs = ddl.CommitTs → d = ddl)
    (hdone : (asyncSinkImpl.init.exec es).EmitDDLEvent ctxDone pick ddl =
      some (s', true, err)) :
    (asyncSinkImpl.init.exec es).backendAccepted ddl := by
  have htr := ddlTraced_exec asyncSinkImpl.init es [] ddlTraced_init
  rw [List.nil_append] at htr
  obtain ⟨hf, hp, _⟩ := htr
  have hle : ddl.CommitTs ≤ (asyncSinkImpl.init.exec es).ddlFinishedTs := by
    unfold asyncSinkImpl.EmitDDLEvent at hdone
    by_contra hc
    by_cases h2 : ddl.CommitTs ≤ (asyncSinkImpl.init.exec es).ddlSentTs
    · simp [hc, h2] at hdone
    · by_cases hroom : (asyncSinkImpl.init.exec es).ddlCh.length < ddlChCap <;>
        cases ctxDone <;> cases pick <;> simp [hc, h2, hroom] at hdone
  rcases hf with hf | ⟨d, hd, hdts⟩
  · omega
  · obtain ⟨r, hr, hacc⟩ := hd
    have hmem : d ∈ emittedDDLs es :=
      hp d (List.mem_map.2 ⟨(d, r), hr, rfl⟩)
    have heq : d = ddl := hdist d hmem (by have := hord d hmem; omega)
    rw [← heq]
    exact ⟨r, hr, hacc⟩

/-- Witness of C9: after `ddl5` was emitted and executed, `EmitDDLEvent(ddl5)` returns
`done = true`, and the backend has accepted `ddl5`. -/
theorem done_only_after_accepted_witness :
    (asyncSinkImpl.init.exec ddl5Executed).EmitDDLEvent false emitCase.send ddl5 =
      some (asyncSinkImpl.init.exec ddl5Executed, true, none) ∧
    (asyncSinkImpl.init.exec ddl5Executed).backendAccepted ddl5 :=
  ⟨rfl, done_only_after_accepted ddl5Executed false emitCase.send ddl5 _ none
    (by decide) (by decide) (by decide) rfl⟩

/-! ## Order of the DDL events at the backend -/

/-- C10: from the fresh sink, after any sequence of `EmitDDLEvent` and `EmitCheckpointTs`
calls interleaved with worker steps, the DDL events the worker has passed to the backend
sink's `EmitDDLEvent` are in commit-ts order: each commit-ts is `>=` (indeed `>`) every
earlier one, and no event is passed twice. -/
theorem backend_ddl_in_commit_order (es : List Event) :
    ((asyncSinkImpl.init.exec es).passed.map DDLEvent.CommitTs).Pairwise
      (fun a b => a ≤ b) ∧
    ((asyncSinkImpl.init.exec es).passed.map DDLEvent.CommitTs).Pairwise
      (fun a b => a < b) ∧
    (asyncSinkImpl.init.exec es).passed.Nodup := by
  obtain ⟨hp, _⟩ := ddlOrdered_exec asyncSinkImpl.init es ddlOrdered_init
  rw [List.map_append, List.pairwise_append] at hp
  have hlt := hp.1
  refine ⟨hlt.imp (fun h => Nat.le_of_lt h), hlt, ?_⟩
  have hnd : ((asyncSinkImpl.init.exec es).passed.map DDLEvent.CommitTs).Nodup :=
    hlt.imp (fun h => Nat.ne_of_lt h)
  exact List.Nodup.of_map _ hnd

end owner

namespace owner

/-! ## The worker's DDL step -/

theorem exec_append (s : asyncSinkImpl) (es es' : List Event) :
    s.exec (es ++ es') = (s.exec es).exec es' := by
  unfold asyncSinkImpl.exec
  rw [List.foldl_append]

theorem step_of_exited (s : asyncSinkImpl) (e : Event) (h : s.exited = true) :
    (s.step e).exited = true ∧ (s.step e).ddlFinishedTs = s.ddlFinishedTs ∧
      (s.step e).thrown = s.thrown := by
  cases e with
  | emitDDL ctxDone pick ddl =>
    unfold asyncSinkImpl.step
    simp only
    cases hres : s.EmitDDLEvent ctxDone pick ddl with
    | none => exact ⟨h, rfl, rfl⟩
    | some out =>
      obtain ⟨s', done, err⟩ := out
      rcases EmitDDLEvent_cases s ctxDone pick ddl s' done err hres with rfl | ⟨_, _, rfl⟩
      · exact ⟨h, rfl, rfl⟩
      · exact ⟨h, rfl, rfl⟩
  | emitCheckpoint ts => exact ⟨h, rfl, rfl⟩
  | worker c res =>
    have hnone : s.runStep c res = none := by
      unfold asyncSinkImpl.runStep
      rw [if_pos h]
    have hstep : s.step (Event.worker c res) = s := by
      unfold asyncSinkImpl.step
      simp only [hnone, Option.getD_none]
    rw [hstep]
    exact ⟨h, rfl, rfl⟩

theorem exec_of_exited (s : asyncSinkImpl) (es : List Event) (h : s.exited = true) :
    (s.exec es).exited = true ∧ (s.exec es).ddlFinishedTs = s.ddlFinishedTs ∧
      (s.exec es).thrown = s.thrown := by
  induction es generalizing s with
  | nil => exact ⟨h, rfl, rfl⟩
  | cons e es ih =>
    obtain ⟨h1, h2, h3⟩ := step_of_exited s e h
    obtain ⟨h4, h5, h6⟩ := ih (s.step e) h1
    rw [exec_cons]
    exact ⟨h4, h5.trans h2, h6.trans h3⟩

theorem ddlAhead_step (s : asyncSinkImpl) (e : Event) (ho : s.ddlOrdered)
    (h : s.ddlAhead) : (s.step e).ddlAhead := by
  unfold asyncSinkImpl.ddlAhead at *
  rcases step_cases s e with ⟨_, h2, h3, _⟩ | ⟨ddl, _, hlt, _, _, h2, h3, _⟩ |
    ⟨d, rest, res, hch, h2, _, _, h3⟩
  · rw [h2, h3]
    exact h
  · rw [h2, h3]
    intro d hd
    rcases List.mem_append.1 hd with hd | hd
    · exact h d hd
    · simp only [List.mem_singleton] at hd
      rw [hd]
      exact hlt
  · rw [h2]
    intro x hx
    rcases h3 with ⟨_, hts⟩ | ⟨_, hts⟩
    · rw [hts]
      have hp := ho.1
      rw [hch, List.map_append, List.pairwise_append] at hp
      have hp2 := hp.2.1
      rw [List.map_cons, List.pairwise_cons] at hp2
      exact hp2.1 _ (List.mem_map.2 ⟨x, hx, rfl⟩)
    · rw [hts]
      exact h x (by rw [hch]; exact List.mem_cons_of_mem _ hx)

theorem ddlAhead_exec (s : asyncSinkImpl) (es : List Event) (ho : s.ddlOrdered)
    (h : s.ddlAhead) : (s.exec es).ddlAhead := by
  induction es generalizing s with
  | nil => exact h
  | cons e es ih =>
    exact ih (s.step e) (ddlOrdered_step s e ho) (ddlAhead_step s e ho h)

theorem ddlAhead_init : asyncSinkImpl.init.ddlAhead := by
  unfold asyncSinkImpl.ddlAhead asyncSinkImpl.init
  simp

theorem not_done_of_lt (s : asyncSinkImpl) (ctxDone : Bool) (pick : emitCase)
    (ddl : DDLEvent) (s' : asyncSinkImpl) (err : Option Err)
    (hlt : s.ddlFinishedTs < ddl.CommitTs) :
    s.EmitDDLEvent ctxDone pick ddl ≠ some (s', true, err) := by
  intro hdone
  unfold asyncSinkImpl.EmitDDLEvent at hdone
  have hc : ¬ ddl.CommitTs ≤ s.ddlFinishedTs := by omega
  by_cases h2 : ddl.CommitTs ≤ s.ddlSentTs
  · simp [hc, h2] at hdone
  · by_cases hroom : s.ddlCh.length < ddlChCap <;>
      cases ctxDone <;> cases pick <;> simp [hc, h2, hroom] at hdone

theorem runStep_ddl_accepted (s : asyncSinkImpl) (d : DDLEvent) (rest : List DDLEvent)
    (res : Option Err) (hch : s.ddlCh = d :: rest) (hrun : s.exited = false)
    (hacc : accepted res = true) :
    s.runStep runCase.ddl res = some
      { s with
        ddlCh := rest
        sink := { s.sink with ddlCalls := s.sink.ddlCalls ++ [(d, res)] }
        ddlFinishedTs := d.CommitTs } := by
  unfold asyncSinkImpl.runStep
  cases res with
  | none => simp [hrun, hch]
  | some err =>
    have hig : err = Err.ErrDDLEventIgnored := by simpa [accepted] using hacc
    simp [hrun, hch, hig]

theorem runStep_ddl_failed (s : asyncSinkImpl) (d : DDLEvent) (rest : List DDLEvent)
    (err : Err) (hch : s.ddlCh = d :: rest) (hrun : s.exited = false)
    (hne : err ≠ Err.ErrDDLEventIgnored) :
    s.runStep runCase.ddl (some err) = some
      { s with
        ddlCh := rest
        sink := { s.sink with ddlCalls := s.sink.ddlCalls ++ [(d, some err)] }
        thrown := s.thrown ++ [err]
        exited := true } := by
  unfold asyncSinkImpl.runStep
  simp [hrun, hch, hne]

/-- C11: in a state reached from the fresh sink, when the worker takes `d` from the
channel and the backend's `EmitDDLEvent` returns success or the ignored-DDL error, the
worker sets `ddlFinishedTs = d.CommitTs`, does not invoke the error handler and keeps
running; for any other error it leaves `ddlFinishedTs` unchanged, hands that error to the
error handler once and exits, and after any later events the error handler has still
been invoked only that once and `EmitDDLEvent(d)` does not return `done = true`. -/
theorem worker_ddl_step (es : List Event) (d : DDLEvent) (rest : List DDLEvent)
    (res : Option Err) (hch : (asyncSinkImpl.init.exec es).ddlCh = d :: rest)
    (hrun : (asyncSinkImpl.init.exec es).exited = false) :
    ∃ s', (asyncSinkImpl.init.exec es).runStep runCase.ddl res = some s' ∧
      s'.sink.ddlCalls = (asyncSinkImpl.init.exec es).sink.ddlCalls ++ [(d, res)] ∧
      (accepted res = true →
        s'.ddlFinishedTs = d.CommitTs ∧
        s'.thrown = (asyncSinkImpl.init.exec es).thrown ∧ s'.exited = false) ∧
      (∀ err, res = some err → err ≠ Err.ErrDDLEventIgnored →
        s'.ddlFinishedTs = (asyncSinkImpl.init.exec es).ddlFinishedTs ∧
        s'.thrown = (asyncSinkImpl.init.exec es).thrown ++ [err] ∧ s'.exited = true ∧
        ∀ es' ctxDone pick s'' e,
          (s'.exec es').thrown = (asyncSinkImpl.init.exec es).thrown ++ [err] ∧
          (s'.exec es').EmitDDLEvent ctxDone pick d ≠ some (s'', true, e)) := by
  have hahead := ddlAhead_exec asyncSinkImpl.init es ddlOrdered_init ddlAhead_init
  have hlt : (asyncSinkImpl.init.exec es).ddlFinishedTs < d.CommitTs :=
    hahead d (by rw [hch]; exact List.mem_cons_self _ _)
  generalize asyncSinkImpl.init.exec es = s at *
  by_cases hacc : accepted res = true
  · refine ⟨_, runStep_ddl_accepted s d rest res hch hrun hacc, rfl,
      fun _ => ⟨rfl, rfl, hrun⟩, fun err herr hne => ?_⟩
    subst herr
    simp [accepted, hne] at hacc
  · cases res with
    | none => simp [accepted] at hacc
    | some err =>
      have hne : err ≠ Err.ErrDDLEventIgnored := by
        intro h
        simp [accepted, h] at hacc
      refine ⟨_, runStep_ddl_failed s d rest err hch hrun hne, rfl,
        fun h => absurd h hacc, fun err' herr' _ => ?_⟩
      simp only [Option.some.injEq] at herr'
      subst herr'
      refine ⟨rfl, rfl, rfl, fun es' ctxDone pick s'' e => ?_⟩
      obtain ⟨_, hfin, hthr⟩ := exec_of_exited
        ({ s with
            ddlCh := rest
            sink := { s.sink with ddlCalls := s.sink.ddlCalls ++ [(d, some err)] }
            thrown := s.thrown ++ [err]
            exited := true } : asyncSinkImpl) es' rfl
      refine ⟨hthr, not_done_of_lt _ ctxDone pick d s'' e ?_⟩
      rw [hfin]
      exact hlt

/-- Witness of C11: after `ddl5` was sent, a worker step at which the backend fails with
`ErrExecDDLFailed` hands that error to the error handler and exits. -/
theorem worker_ddl_step_witness :
    ∃ s', (asyncSinkImpl.init.exec ddl5Sent).runStep runCase.ddl (some Err.ErrExecDDLFailed) =
        some s' ∧
      s'.ddlFinishedTs = 0 ∧ s'.thrown = [Err.ErrExecDDLFailed] ∧ s'.exited = true := by
  obtain ⟨s', h, _, _, hfail⟩ :=
    worker_ddl_step ddl5Sent ddl5 [] (some Err.ErrExecDDLFailed) rfl rfl
  obtain ⟨h1, h2, h3, _⟩ := hfail Err.ErrExecDDLFailed rfl (by decide)
  exact ⟨s', h, h1, h2, h3⟩

end owner

namespace owner

/-! ## The checkpoint path -/

theorem runStep_tick_skip (s : asyncSinkImpl) (res : Option Err) (hrun : s.exited = false)
    (h : s.checkpointTs ≤ s.lastCheckpointTs) : s.runStep runCase.tick res = some s := by
  unfold asyncSinkImpl.runStep
  simp [hrun, h]

theorem runStep_tick_forward (s : asyncSinkImpl) (res : Option Err) (hrun : s.exited = false)
    (h : s.lastCheckpointTs < s.checkpointTs) :
    ∃ s', s.runStep runCase.tick res = some s' ∧
      s'.sink.checkpointCalls = s.sink.checkpointCalls ++ [s.checkpointTs] ∧
      s'.lastCheckpointTs = s.checkpointTs ∧ s'.checkpointTs = s.checkpointTs ∧
      (res = none → s'.exited = false) := by
  have h0 : ¬ s.checkpointTs = 0 := by omega
  have h1 : ¬ s.checkpointTs ≤ s.lastCheckpointTs := by omega
  unfold asyncSinkImpl.runStep
  cases res with
  | none =>
    exact ⟨{ s with
        lastCheckpointTs := s.checkpointTs
        sink := { s.sink with
          checkpointCalls := s.sink.checkpointCalls ++ [s.checkpointTs] } },
      by simp [hrun, h0, h1], rfl, rfl, rfl, fun _ => hrun⟩
  | some err =>
    exact ⟨{ s with
        lastCheckpointTs := s.checkpointTs
        sink := { s.sink with
          checkpointCalls := s.sink.checkpointCalls ++ [s.checkpointTs] }
        thrown := s.thrown ++ [err]
        exited := true },
      by simp [hrun, h0, h1], rfl, rfl, rfl, fun h => by cases h⟩

theorem step_checkpoint_cases (s : asyncSinkImpl) (e : Event) :
    ((s.step e).sink.checkpointCalls = s.sink.checkpointCalls ∧
      (s.step e).lastCheckpointTs = s.lastCheckpointTs) ∨
    (s.lastCheckpointTs < s.checkpointTs ∧
      (s.step e).sink.checkpointCalls = s.sink.checkpointCalls ++ [s.checkpointTs] ∧
      (s.step e).lastCheckpointTs = s.checkpointTs) := by
  cases e with
  | emitDDL ctxDone pick ddl =>
    unfold asyncSinkImpl.step
    simp only
    cases hres : s.EmitDDLEvent ctxDone pick ddl with
    | none => exact Or.inl ⟨rfl, rfl⟩
    | some out =>
      obtain ⟨s', done, err⟩ := out
      rcases EmitDDLEvent_cases s ctxDone pick ddl s' done err hres with rfl | ⟨_, _, rfl⟩
      · exact Or.inl ⟨rfl, rfl⟩
      · exact Or.inl ⟨rfl, rfl⟩
  | emitCheckpoint ts => exact Or.inl ⟨rfl, rfl⟩
  | worker c res =>
    by_cases hrun : s.exited = false
    swap
    · have hnone : s.runStep c res = none := by
        unfold asyncSinkImpl.runStep
        rw [if_pos (by simpa using hrun)]
      have hstep : s.step (Event.worker c res) = s := by
        unfold asyncSinkImpl.step
        simp only [hnone, Option.getD_none]
      rw [hstep]
      exact Or.inl ⟨rfl, rfl⟩
    cases c with
    | tick =>
      by_cases h : s.checkpointTs ≤ s.lastCheckpointTs
      · have hstep : s.step (Event.worker runCase.tick res) = s := by
          unfold asyncSinkImpl.step
          simp only [runStep_tick_skip s res hrun h, Option.getD_some]
        rw [hstep]
        exact Or.inl ⟨rfl, rfl⟩
      · obtain ⟨s', hs', h1, h2, _⟩ := runStep_tick_forward s res hrun (by omega)
        have hstep : s.step (Event.worker runCase.tick res) = s' := by
          unfold asyncSinkImpl.step
          simp only [hs', Option.getD_some]
        rw [hstep]
        exact Or.inr ⟨by omega, h1, h2⟩
    | ctxDone =>
      unfold asyncSinkImpl.step asyncSinkImpl.runStep
      simp only [hrun, Bool.false_eq_true, if_false]
      split <;> exact Or.inl ⟨rfl, rfl⟩
    | errCh =>
      unfold asyncSinkImpl.step asyncSinkImpl.runStep
      simp only [hrun, Bool.false_eq_true, if_false]
      split <;> exact Or.inl ⟨rfl, rfl⟩
    | ddl =>
      unfold asyncSinkImpl.step
      simp only
      cases hres : s.runStep runCase.ddl res with
      | none => exact Or.inl ⟨rfl, rfl⟩
      | some s' =>
        unfold asyncSinkImpl.runStep at hres
        simp only [hrun, Bool.false_eq_true, if_false] at hres
        split at hres
        · cases hres
        · split at hres
          · cases hres
            exact Or.inl ⟨rfl, rfl⟩
          · split at hres <;> cases hres <;> exact Or.inl ⟨rfl, rfl⟩

theorem getLast?_getD_append_singleton (l : List Nat) (x : Nat) :
    (l ++ [x]).getLast?.getD 0 = x := by
  simp

theorem checkpointOrdered_step (s : asyncSinkImpl) (e : Event) (h : s.checkpointOrdered) :
    (s.step e).checkpointOrdered := by
  unfold asyncSinkImpl.checkpointOrdered asyncSinkImpl.lastForwarded at *
  obtain ⟨hp, hle, hlast⟩ := h
  rcases step_checkpoint_cases s e with ⟨h1, h2⟩ | ⟨hlt, h1, h2⟩
  · rw [h1, h2]
    exact ⟨hp, hle, hlast⟩
  · rw [h1, h2]
    refine ⟨?_, ?_, ?_⟩
    · rw [List.pairwise_append]
      refine ⟨hp, by simp, fun a ha b hb => ?_⟩
      simp only [List.mem_singleton] at hb
      have := hle a ha
      omega
    · intro x hx
      rcases List.mem_append.1 hx with hx | hx
      · have := hle x hx
        omega
      · simp only [List.mem_singleton] at hx
        omega
    · simp

theorem checkpointOrdered_exec (s : asyncSinkImpl) (es : List Event)
    (h : s.checkpointOrdered) : (s.exec es).checkpointOrdered := by
  induction es generalizing s with
  | nil => exact h
  | cons e es ih => exact ih (s.step e) (checkpointOrdered_step s e h)

theorem checkpointOrdered_init : asyncSinkImpl.init.checkpointOrdered := by
  unfold asyncSinkImpl.checkpointOrdered asyncSinkImpl.lastForwarded asyncSinkImpl.init
  simp

/-- C12: from the fresh sink, after any sequence of `EmitCheckpointTs` calls, worker ticks
and other events, the values the backend's `EmitCheckpointTs` has received are strictly
increasing; and at a tick the running worker forwards the stored checkpoint-ts exactly
when it exceeds the last forwarded value (0 when none was forwarded): then the backend
receives it, and otherwise (equal or regressing) the backend receives nothing. -/
theorem checkpoint_forwarded_iff_exceeds (es : List Event) :
    (asyncSinkImpl.init.exec es).sink.checkpointCalls.Pairwise (fun a b => a < b) ∧
    ∀ res, (asyncSinkImpl.init.exec es).exited = false →
      ∃ s', (asyncSinkImpl.init.exec es).runStep runCase.tick res = some s' ∧
        ((asyncSinkImpl.init.exec es).lastForwarded < (asyncSinkImpl.init.exec es).checkpointTs →
          s'.sink.checkpointCalls = (asyncSinkImpl.init.exec es).sink.checkpointCalls ++
            [(asyncSinkImpl.init.exec es).checkpointTs]) ∧
        ((asyncSinkImpl.init.exec es).checkpointTs ≤ (asyncSinkImpl.init.exec es).lastForwarded →
          s'.sink.checkpointCalls = (asyncSinkImpl.init.exec es).sink.checkpointCalls) := by
  obtain ⟨hp, _, hlast⟩ := checkpointOrdered_exec asyncSinkImpl.init es checkpointOrdered_init
  refine ⟨hp, fun res hrun => ?_⟩
  generalize asyncSinkImpl.init.exec es = s at *
  by_cases h : s.checkpointTs ≤ s.lastCheckpointTs
  · exact ⟨s, runStep_tick_skip s res hrun h, fun hlt => by omega, fun _ => rfl⟩
  · obtain ⟨s', hs', h1, _⟩ := runStep_tick_forward s res hrun (by omega)
    exact ⟨s', hs', fun _ => h1, fun hle => by omega⟩

/-- Witness of C12, the spec's scenario 3: inputs 1, 10, 5, 10, 20 with a tick after each
give the backend values 1, 10, 20, which are strictly increasing. -/
theorem checkpoint_forwarded_iff_exceeds_witness :
    (asyncSinkImpl.init.exec checkpointScenario).sink.checkpointCalls = [1, 10, 20] ∧
    (asyncSinkImpl.init.exec checkpointScenario).sink.checkpointCalls.Pairwise
      (fun a b => a < b) :=
  ⟨rfl, (checkpoint_forwarded_iff_exceeds checkpointScenario).1⟩

end owner

namespace owner

theorem exec_ticks_noop (s : asyncSinkImpl) (n : Nat) (hrun : s.exited = false)
    (h : s.checkpointTs ≤ s.lastCheckpointTs) : s.exec (ticks n) = s := by
  induction n with
  | zero => rfl
  | succ n ih =>
    have hstep : s.step tick = s := by
      unfold asyncSinkImpl.step tick
      simp only [runStep_tick_skip s none hrun h, Option.getD_some]
    unfold ticks at ih ⊢
    rw [List.replicate_succ, exec_cons, hstep]
    exact ih

theorem exec_emitCheckpoint_ticks (s : asyncSinkImpl) (ts n : Nat) (hrun : s.exited = false) :
    (s.lastCheckpointTs < ts →
      (s.exec (Event.emitCheckpoint ts :: ticks (n + 1))).sink.checkpointCalls =
        s.sink.checkpointCalls ++ [ts]) ∧
    (ts ≤ s.lastCheckpointTs →
      (s.exec (Event.emitCheckpoint ts :: ticks (n + 1))).sink.checkpointCalls =
        s.sink.checkpointCalls) := by
  have hticks : ticks (n + 1) = tick :: ticks n := by
    unfold ticks
    rw [List.replicate_succ]
  have h1 : s.step (Event.emitCheckpoint ts) = s.EmitCheckpointTs ts := rfl
  rw [exec_cons, h1, hticks, exec_cons]
  constructor
  · intro hlt
    obtain ⟨s', hs', hc, hl, hck, hex⟩ :=
      runStep_tick_forward (s.EmitCheckpointTs ts) none hrun hlt
    have hstep : (s.EmitCheckpointTs ts).step tick = s' := by
      unfold asyncSinkImpl.step tick
      simp only [hs', Option.getD_some]
    rw [hstep, exec_ticks_noop s' n (hex rfl) (by rw [hl, hck]), hc]
    rfl
  · intro hle
    have hstep : (s.EmitCheckpointTs ts).step tick = s.EmitCheckpointTs ts := by
      unfold asyncSinkImpl.step tick
      simp only [runStep_tick_skip (s.EmitCheckpointTs ts) none hrun hle, Option.getD_some]
    rw [hstep, exec_ticks_noop (s.EmitCheckpointTs ts) n hrun hle]
    rfl

theorem exec_emitCheckpoints (s : asyncSinkImpl) (xs : List Nat) :
    (s.exec (xs.map Event.emitCheckpoint)).sink = s.sink ∧
    (s.exec (xs.map Event.emitCheckpoint)).lastCheckpointTs = s.lastCheckpointTs ∧
    (s.exec (xs.map Event.emitCheckpoint)).exited = s.exited := by
  induction xs generalizing s with
  | nil => exact ⟨rfl, rfl, rfl⟩
  | cons x xs ih =>
    rw [List.map_cons, exec_cons]
    exact ih (s.step (Event.emitCheckpoint x))

/-- C13, counterexample: after the inputs 10, 5 with a tick after each, the last input is 5
but the backend has received only 10; after the single input 0 and a tick the backend has
received nothing. -/
theorem latest_checkpoint_not_last_input :
    ((asyncSinkImpl.init.exec checkpointRegress).sink.checkpointCalls = [10] ∧
      (asyncSinkImpl.init.exec checkpointRegress).sink.checkpointCalls.getLast? ≠ some 5) ∧
    (asyncSinkImpl.init.exec checkpointZero).sink.checkpointCalls = [] :=
  ⟨⟨rfl, by decide⟩, rfl⟩

/-- C13, amended: on a fresh sink, after a non-empty sequence of `EmitCheckpointTs` calls
with no tick in between, followed by at least one worker tick (backend never failing), the
backend has received exactly the last input when it is above 0, and nothing when it is 0.
In general, after any events that leave the worker running, an `EmitCheckpointTs(ts)`
followed by at least one tick makes `ts` the latest value the backend has received when
`ts` exceeds the value last forwarded before (0 when none), and otherwise leaves what the
backend has received unchanged. -/
theorem latest_checkpoint_after_ticks :
    (∀ (xs : List Nat) (ts n : Nat),
      (asyncSinkImpl.init.exec
        (xs.map Event.emitCheckpoint ++ Event.emitCheckpoint ts :: ticks (n + 1))
        ).sink.checkpointCalls = if 0 < ts then [ts] else []) ∧
    (∀ (es : List Event) (ts n : Nat), (asyncSinkImpl.init.exec es).exited = false →
      ((asyncSinkImpl.init.exec es).lastForwarded < ts →
        (asyncSinkImpl.init.exec (es ++ Event.emitCheckpoint ts :: ticks (n + 1))
          ).sink.checkpointCalls = (asyncSinkImpl.init.exec es).sink.checkpointCalls ++ [ts]) ∧
      (ts ≤ (asyncSinkImpl.init.exec es).lastForwarded →
        (asyncSinkImpl.init.exec (es ++ Event.emitCheckpoint ts :: ticks (n + 1))
          ).sink.checkpointCalls = (asyncSinkImpl.init.exec es).sink.checkpointCalls)) := by
  constructor
  · intro xs ts n
    obtain ⟨h1, h2, h3⟩ := exec_emitCheckpoints asyncSinkImpl.init xs
    have h := exec_emitCheckpoint_ticks
      (asyncSinkImpl.init.exec (xs.map Event.emitCheckpoint)) ts n (by rw [h3]; rfl)
    rw [h2, h1] at h
    rw [exec_append]
    by_cases hts : 0 < ts
    · rw [if_pos hts]
      exact h.1 hts
    · rw [if_neg hts]
      exact h.2 (by have : asyncSinkImpl.init.lastCheckpointTs = 0 := rfl; omega)
  · intro es ts n hrun
    obtain ⟨_, _, hlast⟩ :=
      checkpointOrdered_exec asyncSinkImpl.init es checkpointOrdered_init
    have h := exec_emitCheckpoint_ticks (asyncSinkImpl.init.exec es) ts n hrun
    rw [exec_append, ← hlast]
    exact h

/-- Witness of C13: after the inputs 1, 10 with a tick after each, the input 20 followed
by two ticks makes the backend's values 1, 10, 20. -/
theorem latest_checkpoint_after_ticks_witness :
    (asyncSinkImpl.init.exec
      ([Event.emitCheckpoint 1, tick, Event.emitCheckpoint 10, tick] ++
        Event.emitCheckpoint 20 :: ticks (1 + 1))).sink.checkpointCalls = [1, 10] ++ [20] :=
  (latest_checkpoint_after_ticks.2 [Event.emitCheckpoint 1, tick, Event.emitCheckpoint 10, tick]
    20 1 rfl).1 (by decide)

end owner

namespace sort

/-! ## Binary search -/

theorem searchLoop_spec (f : Nat → Bool) (n : Nat)
    (hmono : ∀ a b, a ≤ b → b < n → f a = true → f b = true) :
    ∀ fuel i j, i ≤ j → j ≤ n → j - i ≤ fuel → (∀ k, k < i → f k = false) →
      (∀ k, j ≤ k → k < n → f k = true) →
      searchLoop f fuel i j ≤ n ∧ (∀ k, k < searchLoop f fuel i j → f k = false) ∧
        (∀ k, searchLoop f fuel i j ≤ k → k < n → f k = true) := by
  intro fuel
  induction fuel with
  | zero =>
    intro i j hij hjn hfuel hlo hhi
    have : i = j := by omega
    subst this
    exact ⟨hjn, hlo, hhi⟩
  | succ fuel ih =>
    intro i j hij hjn hfuel hlo hhi
    unfold searchLoop
    by_cases hlt : i < j
    · rw [if_pos hlt]
      simp only
      cases hf : f ((i + j) / 2) with
      | false =>
        simp only [Bool.not_false, if_true]
        refine ih _ j (by omega) hjn (by omega) (fun k hk => ?_) hhi
        cases hk' : f k with
        | false => rfl
        | true =>
          have := hmono k ((i + j) / 2) (by omega) (by omega) hk'
          rw [hf] at this
          cases this
      | true =>
        simp only [Bool.not_true, Bool.false_eq_true, if_false]
        refine ih i _ (by omega) (by omega) (by omega) hlo (fun k hk hkn => ?_)
        exact hmono _ k hk hkn hf
    · rw [if_neg hlt]
      have : i = j := by omega
      subst this
      exact ⟨hjn, hlo, hhi⟩

theorem Search_spec (f : Nat → Bool) (n : Nat)
    (hmono : ∀ a b, a ≤ b → b < n → f a = true → f b = true) :
    Search n f ≤ n ∧ (∀ k, k < Search n f → f k = false) ∧
      (∀ k, Search n f ≤ k → k < n → f k = true) :=
  searchLoop_spec f n hmono n 0 n (Nat.zero_le _) (Nat.le_refl _) (by omega)
    (fun k hk => absurd hk (Nat.not_lt_zero _)) (fun k hk hkn => absurd hkn (by omega))

end sort

namespace sink

/-! ## The split of a sorted buffer -/

theorem sorted_getElem? (l : List RowChangedEvent)
    (hs : (l.map RowChangedEvent.CommitTs).Pairwise (fun a b => a ≤ b)) :
    ∀ (a b : Nat) (x y : RowChangedEvent), a ≤ b → l[a]? = some x → l[b]? = some y →
      x.CommitTs ≤ y.CommitTs := by
  induction l with
  | nil =>
    intro a b x y _ hx
    simp at hx
  | cons r l ih =>
    rw [List.map_cons, List.pairwise_cons] at hs
    intro a b x y hab hx hy
    cases b with
    | zero =>
      have : a = 0 := by omega
      subst this
      rw [hx] at hy
      cases hy
      exact Nat.le_refl _
    | succ b =>
      rw [List.getElem?_cons_succ] at hy
      cases a with
      | zero =>
        simp only [List.getElem?_cons_zero, Option.some.injEq] at hx
        subst hx
        exact hs.1 _ (List.mem_map.2 ⟨y, List.mem_iff_getElem?.2 ⟨b, hy⟩, rfl⟩)
      | succ a =>
        rw [List.getElem?_cons_succ] at hx
        exact ih hs.2 a b x y (by omega) hx hy

theorem commitAbove_mono (l : List RowChangedEvent) (ts : Nat)
    (hs : (l.map RowChangedEvent.CommitTs).Pairwise (fun a b => a ≤ b)) :
    ∀ a b, a ≤ b → b < l.length → commitAbove l ts a = true → commitAbove l ts b = true := by
  intro a b hab hb ha
  unfold commitAbove at *
  cases hxa : l[a]? with
  | none => simp [hxa] at ha
  | some x =>
    cases hxb : l[b]? with
    | none =>
      have := List.getElem?_eq_none_iff.1 hxb
      omega
    | some y =>
      have hle := sorted_getElem? l hs a b x y hab hxa hxb
      simp only [hxa, decide_eq_true_eq] at ha
      simp only [decide_eq_true_eq]
      omega

theorem search_split (l : List RowChangedEvent) (ts : Nat)
    (hs : (l.map RowChangedEvent.CommitTs).Pairwise (fun a b => a ≤ b)) :
    l.take (sort.Search l.length (commitAbove l ts)) =
        l.filter (fun r => decide (r.CommitTs ≤ ts)) ∧
    l.drop (sort.Search l.length (commitAbove l ts)) =
        l.filter (fun r => decide (r.CommitTs > ts)) := by
  obtain ⟨_, hlo, hhi⟩ := sort.Search_spec (commitAbove l ts) l.length (commitAbove_mono l ts hs)
  generalize sort.Search l.length (commitAbove l ts) = i at *
  have htake : ∀ x ∈ l.take i, x.CommitTs ≤ ts := by
    intro x hx
    obtain ⟨k, hk⟩ := List.mem_iff_getElem?.1 hx
    rw [List.getElem?_take] at hk
    split at hk
    · rename_i hki
      have := hlo k hki
      unfold commitAbove at this
      simp only [hk, decide_eq_false_iff_not] at this
      omega
    · cases hk
  have hdrop : ∀ x ∈ l.drop i, x.CommitTs > ts := by
    intro x hx
    obtain ⟨k, hk⟩ := List.mem_iff_getElem?.1 hx
    rw [List.getElem?_drop] at hk
    have hlen : i + k < l.length := by
      by_contra hc
      rw [List.getElem?_eq_none_iff.2 (by omega)] at hk
      cases hk
    have := hhi (i + k) (by omega) hlen
    unfold commitAbove at this
    simpa only [hk, decide_eq_true_eq] using this
  have hl : l.take i ++ l.drop i = l := List.take_append_drop i l
  constructor
  · conv => rhs; rw [← hl]
    rw [List.filter_append, List.filter_eq_self.2 (fun x hx => by simpa using htake x hx),
      List.filter_eq_nil_iff.2 (fun x hx => by have := hdrop x hx; simp; omega),
      List.append_nil]
  · conv => rhs; rw [← hl]
    rw [List.filter_append,
      List.filter_eq_nil_iff.2 (fun x hx => by have := htake x hx; simp; omega),
      List.filter_eq_self.2 (fun x hx => by simpa using hdrop x hx), List.nil_append]

/-! ## The flush watermark -/

theorem le_foldl_min_iff (m : Manager) (l : List (model.TableID × Nat)) (acc n : Nat) :
    n ≤ l.foldl (fun minTs e =>
        if minTs > m.getEmittedTs e.2 then m.getEmittedTs e.2 else minTs) acc ↔
      n ≤ acc ∧ ∀ e ∈ l, n ≤ m.getEmittedTs e.2 := by
  induction l generalizing acc with
  | nil => simp
  | cons p l ih =>
    rw [List.foldl_cons, ih]
    simp only [List.mem_cons, forall_eq_or_imp]
    constructor
    · rintro ⟨h1, h2⟩
      refine ⟨?_, ?_, h2⟩ <;> (split at h1 <;> omega)
    · rintro ⟨h1, h2, h3⟩
      refine ⟨?_, h3⟩
      split <;> omega

theorem foldl_min_attained (m : Manager) (l : List (model.TableID × Nat)) (acc : Nat) :
    l.foldl (fun minTs e =>
        if minTs > m.getEmittedTs e.2 then m.getEmittedTs e.2 else minTs) acc = acc ∨
      ∃ e ∈ l, l.foldl (fun minTs e =>
        if minTs > m.getEmittedTs e.2 then m.getEmittedTs e.2 else minTs) acc =
          m.getEmittedTs e.2 := by
  induction l generalizing acc with
  | nil => simp
  | cons p l ih =>
    rw [List.foldl_cons]
    rcases ih (if acc > m.getEmittedTs p.2 then m.getEmittedTs p.2 else acc) with h | ⟨q, hq, h⟩
    · by_cases hlt : acc > m.getEmittedTs p.2
      · rw [if_pos hlt] at h ⊢
        exact Or.inr ⟨p, List.mem_cons_self _ _, h⟩
      · rw [if_neg hlt] at h ⊢
        exact Or.inl h
    · exact Or.inr ⟨q, List.mem_cons_of_mem _ hq, h⟩

theorem getMinEmittedTs_le (m : Manager) :
    ∀ e ∈ m.tableSinks, m.getMinEmittedTs ≤ m.getEmittedTs e.2 := by
  intro e he
  unfold Manager.getMinEmittedTs
  have hne : ¬ m.tableSinks.length = 0 := by
    intro h
    rw [List.length_eq_zero] at h
    rw [h] at he
    cases he
  rw [if_neg hne]
  exact ((le_foldl_min_iff m m.tableSinks MaxUint64 _).1 (Nat.le_refl _)).2 e he

end sink

namespace sink

/-! ## `tableSink.FlushRowChangedEvents` -/

theorem Manager.ext_fields (a b : Manager) (h1 : a.backendSink = b.backendSink)
    (h2 : a.checkpointTs = b.checkpointTs) (h3 : a.tableSinks = b.tableSinks)
    (h4 : a.objects = b.objects) (h5 : a.next = b.next) : a = b := by
  cases a
  cases b
  simp only at h1 h2 h3 h4 h5
  subst h1 h2 h3 h4 h5
  rfl

/-- C14: for a table-sink buffer that is non-decreasing in `CommitTs`, when the backend
accepts the rows, `FlushRowChangedEvents(resolvedTs)` is `flushBackendSink` run in the
state in which the backend has been given, in one `EmitRowChangedEvents` call, exactly the
buffered rows with `CommitTs <= resolvedTs` in buffer order (no call when there are none),
the buffer holds exactly the rows with `CommitTs > resolvedTs` in order, and `emittedTs`
is `resolvedTs`. -/
theorem tableFlush_spec (m : Manager) (p resolvedTs : Nat) (resp : flushResult)
    (hs : m.bufferSorted p) :
    m.tableFlushRowChangedEvents p resolvedTs none resp =
      (Manager.store
        { m with backendSink :=
          { m.backendSink with rowCalls :=
            if (m.objects p).buffer.filter (fun r => decide (r.CommitTs ≤ resolvedTs)) = []
            then m.backendSink.rowCalls
            else m.backendSink.rowCalls ++
              [(m.objects p).buffer.filter (fun r => decide (r.CommitTs ≤ resolvedTs))] } }
        p
        { tableID := (m.objects p).tableID
          buffer := (m.objects p).buffer.filter (fun r => decide (r.CommitTs > resolvedTs))
          emittedTs := resolvedTs }).flushBackendSink resp := by
  obtain ⟨htake, hdrop⟩ := search_split (m.objects p).buffer resolvedTs hs
  obtain ⟨hle, _, _⟩ := sort.Search_spec (commitAbove (m.objects p).buffer resolvedTs)
    (m.objects p).buffer.length (commitAbove_mono (m.objects p).buffer resolvedTs hs)
  unfold Manager.tableFlushRowChangedEvents
  simp only
  rw [← htake, ← hdrop]
  generalize sort.Search (m.objects p).buffer.length
    (commitAbove (m.objects p).buffer resolvedTs) = i at *
  by_cases hi : i = 0
  · subst hi
    simp only [List.take_zero, List.drop_zero, if_true]
  · have hne : ¬ (m.objects p).buffer.take i = [] := by
      intro h
      have hlen := congrArg List.length h
      rw [List.length_take] at hlen
      simp only [List.length_nil] at hlen
      omega
    rw [if_neg hi, if_neg hne]
    congr 1
    apply Manager.ext_fields
    · rfl
    · rfl
    · rfl
    · funext q
      unfold Manager.store
      by_cases hq : q = p
      · simp [hq]
      · simp [hq]
    · rfl

theorem managerAB_fields :
    managerAB.map (fun m =>
        (m.backendSink, m.checkpointTs, m.tableSinks, m.objects 0, m.objects 1, m.next)) =
      some (managerABState.backendSink, managerABState.checkpointTs,
        managerABState.tableSinks, managerABState.objects 0, managerABState.objects 1,
        managerABState.next) := rfl

theorem managerABState_sorted : managerABState.bufferSorted 0 := by
  unfold Manager.bufferSorted managerABState rowA6 rowA7 rowA8
  simp

/-- Witness of C14, the spec's scenario 6: with A's buffer 6, 7, 8,
`FlushRowChangedEvents(7)` on A gives the backend the rows A@6, 7 in one call, keeps A@8,
sets A's `emittedTs` to 7 and flushes the backend at 5. -/
theorem tableFlush_spec_witness :
    managerABState.bufferSorted 0 ∧
    (managerABState.tableFlushRowChangedEvents 0 7 none (5, none)).1.backendSink =
      { rowCalls := [[rowA6, rowA7]], flushCalls := [5] } ∧
    ((managerABState.tableFlushRowChangedEvents 0 7 none (5, none)).1.objects 0) =
      { tableID := 1, buffer := [rowA8], emittedTs := 7 } := by
  refine ⟨managerABState_sorted, ?_, ?_⟩
  · rw [tableFlush_spec managerABState 0 7 (5, none) managerABState_sorted]
    rfl
  · rw [tableFlush_spec managerABState 0 7 (5, none) managerABState_sorted]
    rfl

end sink

namespace sink

/-! ## `flushBackendSink` -/

theorem flushBackendSink_fields (m : Manager) (resp : flushResult) :
    (m.flushBackendSink resp).1.backendSink.flushCalls =
      m.backendSink.flushCalls ++ [m.getMinEmittedTs] ∧
    (m.flushBackendSink resp).1.backendSink.rowCalls = m.backendSink.rowCalls ∧
    (m.flushBackendSink resp).1.tableSinks = m.tableSinks ∧
    (m.flushBackendSink resp).1.objects = m.objects ∧
    (resp.2 = none → (m.flushBackendSink resp).1.checkpointTs = resp.1 ∧
      (m.flushBackendSink resp).2 = (resp.1, none)) ∧
    (∀ err, resp.2 = some err → (m.flushBackendSink resp).1.checkpointTs = m.checkpointTs ∧
      (m.flushBackendSink resp).2 = (m.checkpointTs, some err)) := by
  unfold Manager.flushBackendSink
  cases h : resp.2 with
  | none => exact ⟨rfl, rfl, rfl, rfl, fun _ => ⟨rfl, rfl⟩, fun err herr => by cases herr⟩
  | some e =>
    refine ⟨rfl, rfl, rfl, rfl, fun h' => (by cases h'), fun err herr => ?_⟩
    simp only [Option.some.injEq] at herr
    subst herr
    exact ⟨rfl, rfl⟩

/-- C15: `flushBackendSink` calls the backend's `FlushRowChangedEvents` once, with the
minimum `emittedTs` over the live table sinks (below each of them and equal to one of
them), or with the manager's `checkpointTs` when there is no live table sink; on success
it stores the backend's return value as the new `checkpointTs` and returns it; on a
backend error it returns the old `checkpointTs` with the error and leaves `checkpointTs`
unchanged. The table sinks are not touched. -/
theorem flushBackendSink_spec (m : Manager) (resp : flushResult) (hwf : m.WF) :
    (m.flushBackendSink resp).1.backendSink.flushCalls =
      m.backendSink.flushCalls ++ [m.getMinEmittedTs] ∧
    (m.tableSinks = [] → m.getMinEmittedTs = m.checkpointTs) ∧
    (m.tableSinks ≠ [] →
      (∀ e ∈ m.tableSinks, m.getMinEmittedTs ≤ m.getEmittedTs e.2) ∧
      ∃ e ∈ m.tableSinks, m.getMinEmittedTs = m.getEmittedTs e.2) ∧
    (resp.2 = none → (m.flushBackendSink resp).1.checkpointTs = resp.1 ∧
      (m.flushBackendSink resp).2 = (resp.1, none)) ∧
    (∀ err, resp.2 = some err → (m.flushBackendSink resp).1.checkpointTs = m.checkpointTs ∧
      (m.flushBackendSink resp).2 = (m.checkpointTs, some err)) ∧
    (m.flushBackendSink resp).1.tableSinks = m.tableSinks ∧
    (m.flushBackendSink resp).1.objects = m.objects ∧
    (m.flushBackendSink resp).1.backendSink.rowCalls = m.backendSink.rowCalls := by
  obtain ⟨h1, h2, h3, h4, h5, h6⟩ := flushBackendSink_fields m resp
  refine ⟨h1, ?_, ?_, h5, h6, h3, h4, h2⟩
  · intro he
    unfold Manager.getMinEmittedTs Manager.getCheckpointTs
    simp [he]
  · intro hne
    refine ⟨getMinEmittedTs_le m, ?_⟩
    have hlen : ¬ m.tableSinks.length = 0 := by
      intro h
      exact hne (List.length_eq_zero.1 h)
    unfold Manager.getMinEmittedTs
    rw [if_neg hlen]
    rcases foldl_min_attained m m.tableSinks MaxUint64 with h | h
    · obtain ⟨e, he⟩ := List.exists_mem_of_ne_nil _ hne
      refine ⟨e, he, ?_⟩
      have hle := ((le_foldl_min_iff m m.tableSinks MaxUint64 _).1 (Nat.le_refl _)).2 e he
      have hlt := hwf e he
      rw [h] at hle ⊢
      unfold MaxUint64 at *
      omega
    · exact h

theorem managerA7_WF : managerA7.WF := by
  unfold Manager.WF Manager.getEmittedTs managerA7
  simp

/-- Witness of C15, the spec's scenario 6: sinks A and B created at 5, A flushed to 7 gives
a backend flush at 5; B then flushed to 9 gives a backend flush at 7. -/
theorem flushBackendSink_spec_witness :
    managerA7.WF ∧ managerA7.getMinEmittedTs = 5 ∧
    (managerA7.flushBackendSink (5, none)).1.backendSink.flushCalls = [] ++ [5] ∧
    ((managerABState.tableFlushRowChangedEvents 0 7 none (5, none)).1.tableFlushRowChangedEvents
      1 9 none (7, none)).1.backendSink =
      { rowCalls := [[rowA6, rowA7], [rowB6, rowB9]], flushCalls := [5, 7] } :=
  ⟨managerA7_WF, rfl, (flushBackendSink_spec managerA7 (5, none) managerA7_WF).1, rfl⟩

/-! ## Invariant I5 -/

theorem flushBackendSink_inv (m : Manager) (resp : flushResult) (hok : resp.2 = none)
    (hret : ∀ a, (m.flushBackendSink resp).1.backendSink.flushCalls.getLast? = some a →
      resp.1 ≤ a) :
    (m.flushBackendSink resp).1.checkpointBelowEmitted := by
  obtain ⟨h1, _, h3, h4, h5, _⟩ := flushBackendSink_fields m resp
  have hle : resp.1 ≤ m.getMinEmittedTs := hret _ (by rw [h1]; simp)
  unfold Manager.checkpointBelowEmitted Manager.getEmittedTs
  rw [(h5 hok).1, h3, h4]
  intro e he
  exact le_trans hle (getMinEmittedTs_le m e he)

theorem flushBackendSink_error_inv (m : Manager) (resp : flushResult)
    (herr : (m.flushBackendSink resp).2.2 ≠ none) (h : m.checkpointBelowEmitted) :
    (m.flushBackendSink resp).1.checkpointBelowEmitted := by
  obtain ⟨_, _, h3, h4, h5, h6⟩ := flushBackendSink_fields m resp
  cases hr : resp.2 with
  | none =>
    rw [(h5 hr).2] at herr
    exact absurd rfl herr
  | some err =>
    unfold Manager.checkpointBelowEmitted Manager.getEmittedTs at *
    rw [(h6 err hr).1, h3, h4]
    exact h

theorem store_inv (m : Manager) (p : Nat) (t : tableSink) (h : m.checkpointBelowEmitted)
    (ht : m.checkpointTs ≤ t.emittedTs) : (m.store p t).checkpointBelowEmitted := by
  unfold Manager.checkpointBelowEmitted Manager.getEmittedTs Manager.store at *
  intro e he
  simp only
  by_cases hq : e.2 = p
  · rw [if_pos hq]
    exact ht
  · rw [if_neg hq]
    exact h e he

theorem tableFlush_cases (m : Manager) (p resolvedTs : Nat) (emitErr : Option String)
    (resp : flushResult) :
    (∃ rows buf, m.tableFlushRowChangedEvents p resolvedTs emitErr resp =
      (Manager.store { m with backendSink := { m.backendSink with rowCalls := rows } } p
        { tableID := (m.objects p).tableID, buffer := buf,
          emittedTs := resolvedTs }).flushBackendSink resp) ∨
    (∃ rows buf err, emitErr = some err ∧
      m.tableFlushRowChangedEvents p resolvedTs emitErr resp =
        (Manager.store { m with backendSink := { m.backendSink with rowCalls := rows } } p
          { tableID := (m.objects p).tableID, buffer := buf,
            emittedTs := (m.objects p).emittedTs }, m.checkpointTs, some err)) := by
  unfold Manager.tableFlushRowChangedEvents
  simp only
  split
  · exact Or.inl ⟨m.backendSink.rowCalls, (m.objects p).buffer, rfl⟩
  · cases emitErr with
    | some err => exact Or.inr ⟨_, _, err, rfl, rfl⟩
    | none =>
      refine Or.inl ⟨m.backendSink.rowCalls ++ [(m.objects p).buffer.take
          (sort.Search (m.objects p).buffer.length (commitAbove (m.objects p).buffer resolvedTs))],
        (m.objects p).buffer.drop
          (sort.Search (m.objects p).buffer.length (commitAbove (m.objects p).buffer resolvedTs)),
        ?_⟩
      simp only
      congr 1
      apply Manager.ext_fields
      · rfl
      · rfl
      · rfl
      · funext q
        unfold Manager.store
        by_cases hq : q = p
        · simp [hq]
        · simp [hq]
      · rfl

end sink

namespace sink

/-- C16, counterexample: on a manager at checkpoint 10, `CreateTableSink(1, 5)` does not
panic and the new sink's `emittedTs` 5 is below `checkpointTs` 10; and with one sink at
`emittedTs` 10, a `FlushRowChangedEvents(5)` at which the backend's flush fails leaves
that sink's `emittedTs` at 5 and `checkpointTs` at 10. -/
theorem checkpoint_below_emitted_broken :
    ((NewManager 10).checkpointBelowEmitted ∧
      ∃ m' p, (NewManager 10).CreateTableSink 1 5 = .ok (m', p) ∧
        ¬ m'.checkpointBelowEmitted) ∧
    (managerOne10.checkpointBelowEmitted ∧
      ¬ (managerOne10.tableFlushRowChangedEvents 0 5 none
        (0, some "flush failed")).1.checkpointBelowEmitted) := by
  refine ⟨⟨?_, _, _, rfl, ?_⟩, ?_, ?_⟩
  · intro e he
    cases he
  · intro h
    have := h (1, 0) (List.mem_cons_self _ _)
    revert this
    decide
  · intro e he
    exact Nat.le_refl _
  · intro h
    have := h (1, 0) (List.mem_cons_self _ _)
    revert this
    decide

/-- C16, amended: `checkpointTs <= emittedTs` of every live table sink holds after
`NewManager`; it is preserved by a non-panicking `CreateTableSink(tableID,
startCheckpointTs)` when `startCheckpointTs >= checkpointTs`, and by every table sink's
`Close`; it holds after every table sink's `FlushRowChangedEvents(resolvedTs)` that
returns no error when the backend's `FlushRowChangedEvents` returned a value `<=` its
argument; and it is preserved by a `FlushRowChangedEvents(resolvedTs)` that returns an
error when `resolvedTs >= checkpointTs`. -/
theorem checkpoint_below_emitted_preserved :
    (∀ c, (NewManager c).checkpointBelowEmitted) ∧
    (∀ (m : Manager) (id : model.TableID) (start : Nat) (m' : Manager) (p : Nat),
      m.checkpointBelowEmitted → m.CreateTableSink id start = .ok (m', p) →
      m.checkpointTs ≤ start → m'.checkpointBelowEmitted) ∧
    (∀ (m : Manager) (p ts : Nat) (emitErr : Option String) (resp : flushResult),
      (m.tableFlushRowChangedEvents p ts emitErr resp).2.2 = none →
      (∀ a, (m.tableFlushRowChangedEvents p ts emitErr resp).1.backendSink.flushCalls.getLast?
        = some a → resp.1 ≤ a) →
      (m.tableFlushRowChangedEvents p ts emitErr resp).1.checkpointBelowEmitted) ∧
    (∀ (m : Manager) (p ts : Nat) (emitErr : Option String) (resp : flushResult),
      m.checkpointBelowEmitted →
      (m.tableFlushRowChangedEvents p ts emitErr resp).2.2 ≠ none → m.checkpointTs ≤ ts →
      (m.tableFlushRowChangedEvents p ts emitErr resp).1.checkpointBelowEmitted) ∧
    (∀ (m : Manager) (p : Nat), m.checkpointBelowEmitted →
      (m.tableClose p).1.checkpointBelowEmitted) := by
  refine ⟨?_, ?_, ?_, ?_, ?_⟩
  · intro c e he
    cases he
  · intro m id start m' p hinv hok hstart
    unfold Manager.CreateTableSink at hok
    cases hg : mapGet m.tableSinks id with
    | some q =>
      rw [hg] at hok
      cases hok
    | none =>
      rw [hg] at hok
      simp only [Except.ok.injEq, Prod.mk.injEq] at hok
      obtain ⟨rfl, _⟩ := hok
      intro e he
      unfold Manager.getEmittedTs Manager.store
      simp only
      by_cases hq : e.2 = m.next
      · rw [if_pos hq]
        exact hstart
      · rw [if_neg hq]
        simp only [mapSet, Manager.store, List.mem_cons] at he
        rcases he with he | he
        · rw [he] at hq
          exact absurd rfl hq
        · exact hinv e (List.mem_of_mem_filter he)
  · intro m p ts emitErr resp hnone hret
    rcases tableFlush_cases m p ts emitErr resp with ⟨rows, buf, h⟩ | ⟨rows, buf, err, _, h⟩
    · rw [h] at hnone hret ⊢
      have hok : resp.2 = none := by
        cases hr : resp.2 with
        | none => rfl
        | some err =>
          rw [((flushBackendSink_fields _ resp).2.2.2.2.2 err hr).2] at hnone
          cases hnone
      exact flushBackendSink_inv _ resp hok hret
    · rw [h] at hnone
      cases hnone
  · intro m p ts emitErr resp hinv herr hts
    rcases tableFlush_cases m p ts emitErr resp with ⟨rows, buf, h⟩ | ⟨rows, buf, err, _, h⟩
    · rw [h] at herr ⊢
      exact flushBackendSink_error_inv _ resp herr
        (store_inv { m with backendSink := { m.backendSink with rowCalls := rows } } p _
          hinv hts)
    · rw [h]
      intro e he
      unfold Manager.getEmittedTs Manager.store
      simp only
      by_cases hq : e.2 = p
      · rw [if_pos hq]
        have := hinv e he
        unfold Manager.getEmittedTs at this
        rw [hq] at this
        exact this
      · rw [if_neg hq]
        exact hinv e he
  · intro m p hinv e he
    unfold Manager.tableClose Manager.destroyTableSink mapDelete at he
    exact hinv e (List.mem_of_mem_filter he)

/-- Witness of C16: in scenario 6, after `FlushRowChangedEvents(7)` on A with a backend
that returns 5 for the flush at 5, `checkpointTs` is at most every live `emittedTs`. -/
theorem checkpoint_below_emitted_preserved_witness :
    (managerABState.tableFlushRowChangedEvents 0 7 none (5, none)).1.checkpointBelowEmitted :=
  checkpoint_below_emitted_preserved.2.2.1 managerABState 0 7 none (5, none) rfl
    (fun a ha => by
      have h : (managerABState.tableFlushRowChangedEvents 0 7 none
          (5, none)).1.backendSink.flushCalls = [5] := rfl
      rw [h] at ha
      simp only [List.getLast?_singleton, Option.some.injEq] at ha
      omega)

end sink

/-! ## Maps with any key type -/

theorem kvGet_kvSet_self {κ β : Type} [DecidableEq κ] (m : List (κ × β)) (k : κ) (v : β) :
    kvGet (kvSet m k v) k = some v := by
  simp [kvGet, kvSet]

theorem kvGet_kvDelete_self {κ β : Type} [DecidableEq κ] (m : List (κ × β)) (k : κ) :
    kvGet (kvDelete m k) k = none := by
  simp [kvGet, kvDelete, List.find?_eq_none]

theorem kvGet_kvDelete_ne {κ β : Type} [DecidableEq κ] (m : List (κ × β)) (k k' : κ)
    (h : k' ≠ k) : kvGet (kvDelete m k) k' = kvGet m k' := by
  induction m with
  | nil => simp [kvGet, kvDelete]
  | cons p m ih =>
    unfold kvGet kvDelete at ih ⊢
    by_cases hp : p.1 = k
    · have hne : ¬ p.1 = k' := fun h' => h (h'.symm.trans hp)
      rw [List.filter_cons_of_neg (by simp [hp]), List.find?_cons_of_neg _ (by simp [hne])]
      exact ih
    · rw [List.filter_cons_of_pos (by simp [hp])]
      by_cases hp' : p.1 = k'
      · rw [List.find?_cons_of_pos _ (by simp [hp']), List.find?_cons_of_pos _ (by simp [hp'])]
      · rw [List.find?_cons_of_neg _ (by simp [hp']), List.find?_cons_of_neg _ (by simp [hp'])]
        exact ih

theorem kvGet_kvSet_ne {κ β : Type} [DecidableEq κ] (m : List (κ × β)) (k k' : κ) (v : β)
    (h : k' ≠ k) : kvGet (kvSet m k v) k' = kvGet m k' := by
  have h1 := kvGet_kvDelete_ne m k k' h
  unfold kvGet kvSet at *
  rw [List.find?_cons_of_neg _ (by simp [h.symm])]
  exact h1

theorem kvGet_isSome_kvSet {κ β : Type} [DecidableEq κ] (m : List (κ × β)) (k k' : κ) (v : β) :
    (kvGet (kvSet m k v) k').isSome = (if k' = k then true else (kvGet m k').isSome) := by
  by_cases h : k' = k
  · rw [if_pos h, h, kvGet_kvSet_self]
    rfl
  · rw [if_neg h, kvGet_kvSet_ne m k k' v h]

theorem kvGet_isSome_kvDelete {κ β : Type} [DecidableEq κ] (m : List (κ × β)) (k k' : κ) :
    (kvGet (kvDelete m k) k').isSome = (if k' = k then false else (kvGet m k').isSome) := by
  by_cases h : k' = k
  · rw [if_pos h, h, kvGet_kvDelete_self]
    rfl
  · rw [if_neg h, kvGet_kvDelete_ne m k k' h]

theorem length_ne_zero_iff_kvGet {κ β : Type} [DecidableEq κ] (m : List (κ × β)) :
    (m.length != 0) = true ↔ ∃ k, (kvGet m k).isSome = true := by
  cases m with
  | nil => simp [kvGet]
  | cons p m =>
    simp only [List.length_cons, bne_iff_ne, ne_eq, Nat.add_one_ne_zero, not_false_eq_true,
      true_iff]
    exact ⟨p.1, by simp [kvGet]⟩

namespace model

/-! ## `CheckCaptureAlive` -/

/-- C20: `CheckCaptureAlive(id)` enqueues exactly one patch, on the Capture key of `id`,
and changes nothing else in the state; for every byte value `v` the patch's function
returns the `ErrLeaseExpired` error if and only if `v` is absent or empty, and otherwise
returns `(v, false, nil)`; it always returns `v` itself with `changed = false`, so the
patch never modifies the store. -/
theorem CheckCaptureAlive_spec (C : Codec) (s : GlobalReactorState C) (id : String) :
    ∃ p : orchestrator.SingleDataPatch,
      (s.CheckCaptureAlive id).pendingPatches = s.pendingPatches ++ [p] ∧
      p.Key = C.keyString { Tp := .Capture, CaptureID := id } ∧
      (s.CheckCaptureAlive id).Owner = s.Owner ∧
      (s.CheckCaptureAlive id).Captures = s.Captures ∧
      (s.CheckCaptureAlive id).Changefeeds = s.Changefeeds ∧
      ∀ v : Option Bytes,
        ((p.Func v).2.2 = some Error.ErrLeaseExpired ↔ (v = none ∨ v = some [])) ∧
        (¬ (v = none ∨ v = some []) → p.Func v = (v, false, none)) ∧
        ((p.Func v).2.2 = some Error.ErrLeaseExpired ∨ (p.Func v).2.2 = none) ∧
        (p.Func v).1 = v ∧ (p.Func v).2.1 = false := by
  refine ⟨_, rfl, rfl, rfl, rfl, rfl, fun v => ?_⟩
  simp only
  unfold checkAliveFunc
  cases v with
  | none => simp
  | some b =>
    cases b with
    | nil => simp
    | cons x xs => simp

/-- Witness of C20: on the fresh state with the example codec, `CheckCaptureAlive("cap1")`
enqueues one patch on `/tidb/cdc/capture/cap1` whose function fails with `ErrLeaseExpired`
on the absent value and returns the text `7` unchanged. -/
theorem CheckCaptureAlive_spec_witness :
    ∃ p : orchestrator.SingleDataPatch,
      ((NewGlobalState toyCodec).CheckCaptureAlive "cap1").pendingPatches = [] ++ [p] ∧
      p.Key = "/tidb/cdc/capture/cap1" ∧
      (p.Func none).2.2 = some Error.ErrLeaseExpired ∧
      p.Func (some seven) = (some seven, false, none) := by
  obtain ⟨p, hp, hk, _, _, _, hf⟩ :=
    CheckCaptureAlive_spec toyCodec (NewGlobalState toyCodec) "cap1"
  exact ⟨p, hp, hk.trans rfl, (hf none).1.2 (Or.inl rfl),
    (hf (some seven)).2.1 (by simp [seven])⟩

/-! ## The patch functions -/

theorem patchFunc_semantics {T : Type} (decode : Bytes → Option T × Option String)
    (marshal : T → Except String Bytes) (fn : Option T → Option T × Bool × Option Error) :
    PatchSemantics decode marshal fn (patchFunc decode marshal fn) := by
  intro v arg
  constructor
  · intro b err hv hdec
    subst hv
    unfold patchFunc
    simp [hdec]
  · intro harg
    have hrun : ∀ r, fn arg = r → patchFunc decode marshal fn v =
        (match r with
          | (_, _, some err) => (none, false, some err)
          | (ne, changed, none) =>
            if !changed then (v, false, none)
            else
              match ne with
              | none => (none, true, none)
              | some x =>
                match marshal x with
                | .error err => (none, false, some (Error.external err))
                | .ok nv => (some nv, true, none)) := by
      intro r hr
      rcases harg with ⟨rfl, rfl⟩ | ⟨b, rfl, hdec, rfl⟩
      · unfold patchFunc
        simp only [hr]
      · unfold patchFunc
        simp only [hdec, hr]
    refine ⟨fun ne changed err h => ?_, fun ne h => ?_, fun h => ?_, fun x nv h hm => ?_,
      fun x err h hm => ?_⟩
    · rw [hrun _ h]
    · rw [hrun _ h]
      rfl
    · rw [hrun _ h]
      rfl
    · rw [hrun _ h]
      simp [hm]
    · rw [hrun _ h]
      simp [hm]

end model

namespace model

/-- C19: each of `PatchInfo`, `PatchStatus`, `PatchTaskPosition`, `PatchTaskStatus` and
`PatchTaskWorkload` enqueues exactly one patch and changes nothing else. The patch's key
is the typed key carrying the changefeed's own `ID`; its function, applied to on-store
bytes `v`, hands `fn` absent when `v` is nil and the decoded value otherwise (a decode
failure is an error), returns an error of `fn` as an error with `changed = false`,
returns `(v, false)` if `fn` reports unchanged, `(nil, true)` if `fn` reports changed with
a nil result, and otherwise the JSON encoding of `fn`'s result with `changed = true`. -/
theorem Patch_spec (C : Codec) (s : ChangefeedReactorState C) :
    (∀ fn, ∃ p : orchestrator.SingleDataPatch,
      s.PatchInfo fn = { s with pendingPatches := s.pendingPatches ++ [p] } ∧
      p.Key = C.keyString { Tp := .ChangefeedInfo, ChangefeedID := s.ID } ∧
      PatchSemantics (fun b => (some (C.unmarshalInfo b).1, (C.unmarshalInfo b).2))
        C.marshalInfo fn p.Func) ∧
    (∀ fn, ∃ p : orchestrator.SingleDataPatch,
      s.PatchStatus fn = { s with pendingPatches := s.pendingPatches ++ [p] } ∧
      p.Key = C.keyString { Tp := .ChangeFeedStatus, ChangefeedID := s.ID } ∧
      PatchSemantics (fun b => (some (C.unmarshalStatus b).1, (C.unmarshalStatus b).2))
        C.marshalStatus fn p.Func) ∧
    (∀ cap fn, ∃ p : orchestrator.SingleDataPatch,
      s.PatchTaskPosition cap fn = { s with pendingPatches := s.pendingPatches ++ [p] } ∧
      p.Key = C.keyString { Tp := .TaskPosition, CaptureID := cap, ChangefeedID := s.ID } ∧
      PatchSemantics (fun b => (some (C.unmarshalPosition b).1, (C.unmarshalPosition b).2))
        C.marshalPosition fn p.Func) ∧
    (∀ cap fn, ∃ p : orchestrator.SingleDataPatch,
      s.PatchTaskStatus cap fn = { s with pendingPatches := s.pendingPatches ++ [p] } ∧
      p.Key = C.keyString { Tp := .TaskStatus, CaptureID := cap, ChangefeedID := s.ID } ∧
      PatchSemantics
        (fun b => (some (C.unmarshalTaskStatus b).1, (C.unmarshalTaskStatus b).2))
        C.marshalTaskStatus fn p.Func) ∧
    (∀ cap fn, ∃ p : orchestrator.SingleDataPatch,
      s.PatchTaskWorkload cap fn = { s with pendingPatches := s.pendingPatches ++ [p] } ∧
      p.Key = C.keyString { Tp := .TaskWorkload, CaptureID := cap, ChangefeedID := s.ID } ∧
      PatchSemantics C.unmarshalWorkloadNil C.marshalWorkload fn p.Func) :=
  ⟨fun fn => ⟨_, rfl, rfl, patchFunc_semantics _ _ fn⟩,
    fun fn => ⟨_, rfl, rfl, patchFunc_semantics _ _ fn⟩,
    fun _ fn => ⟨_, rfl, rfl, patchFunc_semantics _ _ fn⟩,
    fun _ fn => ⟨_, rfl, rfl, patchFunc_semantics _ _ fn⟩,
    fun _ fn => ⟨_, rfl, rfl, patchFunc_semantics _ _ fn⟩⟩

/-- Witness of C19: with the example codec, the patch enqueued by `PatchStatus` with a
callback that adds 1 has the key `/tidb/cdc/job/cf1`; applied to the text `7` it returns
the text `8` with `changed = true`. -/
theorem Patch_spec_witness :
    ∃ p : orchestrator.SingleDataPatch,
      (NewChangefeedReactorState toyCodec "cf1").PatchStatus
          (fun e => (e.map (fun n => n + 1), true, none)) =
        { NewChangefeedReactorState toyCodec "cf1" with pendingPatches := [] ++ [p] } ∧
      p.Key = "/tidb/cdc/job/cf1" ∧
      p.Func (some seven) = (some [56], true, none) := by
  obtain ⟨p, hp, hk, hsem⟩ := (Patch_spec toyCodec (NewChangefeedReactorState toyCodec "cf1")).2.1
    (fun e => (e.map (fun n => n + 1), true, none))
  exact ⟨p, hp, hk.trans rfl,
    ((hsem (some seven) (some 7)).2 (Or.inr ⟨seven, rfl, rfl, rfl⟩)).2.2.2.1 8 [56] rfl rfl⟩

/-! ## `Update` with a value that does not decode -/

theorem UpdateKey_info_decode_failure (C : Codec) (s : GlobalReactorState C) (k : etcd.CDCKey)
    (v : Bytes) (err : String) (htp : k.Tp = .ChangefeedInfo)
    (hnew : kvGet s.Changefeeds k.ChangefeedID = none)
    (hdec : (C.unmarshalInfo v).2 = some err) :
    (s.UpdateKey k (some v)).2 = some (Error.external err) ∧
    kvGet (s.UpdateKey k (some v)).1.Changefeeds k.ChangefeedID =
      some { NewChangefeedReactorState C k.ChangefeedID with
        Info := some (C.unmarshalInfo v).1 } := by
  unfold GlobalReactorState.UpdateKey
  simp only [htp, hnew, Option.isNone_some, Bool.false_eq_true, if_false]
  unfold GlobalReactorState.updateChangefeed ChangefeedReactorState.UpdateCDCKey
  simp only [htp, NewChangefeedReactorState, ne_eq, not_true_eq_false, if_false, hdec]
  exact ⟨trivial, kvGet_kvSet_self _ _ _⟩

/-- C17, the code at the failing input (with the example codec, which like JSON rejects the
text `{`): on the fresh state, `Update` of the info key of `cf1` with the value `{`
returns an error, yet `Changefeeds` now holds an entry for `cf1` whose `Info` is the zero
value; after a successful `Update` of that key with `7`, a second `Update` with `{` returns
an error and has replaced the `Info` 7 by the zero value. The sibling path for a Capture
key returns `ErrUnmarshalFailed` and leaves `Captures` as it was. -/
theorem Update_decode_failure_changes_state :
    (kvGet (NewGlobalState toyCodec).Changefeeds "cf1").isNone = true ∧
    ((NewGlobalState toyCodec).Update "/tidb/cdc/changefeed/info/cf1" (some openBrace)).2 =
      some (Error.external "invalid character") ∧
    (kvGet ((NewGlobalState toyCodec).Update "/tidb/cdc/changefeed/info/cf1"
        (some openBrace)).1.Changefeeds "cf1").map (fun cs => (cs.ID, cs.Info, cs.Status)) =
      some ("cf1", some 0, none) ∧
    (kvGet ((NewGlobalState toyCodec).Update "/tidb/cdc/changefeed/info/cf1"
        (some seven)).1.Changefeeds "cf1").map (fun cs => cs.Info) = some (some 7) ∧
    ((((NewGlobalState toyCodec).Update "/tidb/cdc/changefeed/info/cf1" (some seven)).1.Update
        "/tidb/cdc/changefeed/info/cf1" (some openBrace)).2 =
      some (Error.external "invalid character")) ∧
    (kvGet (((NewGlobalState toyCodec).Update "/tidb/cdc/changefeed/info/cf1"
        (some seven)).1.Update "/tidb/cdc/changefeed/info/cf1"
        (some openBrace)).1.Changefeeds "cf1").map (fun cs => cs.Info) = some (some 0) ∧
    ((NewGlobalState toyCodec).Update "/tidb/cdc/capture/cap1" (some openBrace)).2 =
      some (Error.ErrUnmarshalFailed "invalid character") ∧
    ((NewGlobalState toyCodec).Update "/tidb/cdc/capture/cap1" (some openBrace)).1.Captures =
      [] :=
  ⟨rfl, rfl, rfl, rfl, rfl, rfl, rfl, rfl⟩

end model

namespace model

/-! ## The changefeed map as the fold of the key events -/

theorem Exist_iff_has {C : Codec} (cs : ChangefeedReactorState C) :
    cs.Exist = true ↔ ∃ kd, cs.has kd = true := by
  unfold ChangefeedReactorState.Exist
  simp only [Bool.or_eq_true, length_ne_zero_iff_kvGet]
  constructor
  · rintro ((((h | h) | ⟨cap, h⟩) | ⟨cap, h⟩) | ⟨cap, h⟩)
    · exact ⟨SlotKind.info, h⟩
    · exact ⟨SlotKind.status, h⟩
    · exact ⟨SlotKind.position cap, h⟩
    · exact ⟨SlotKind.taskStatus cap, h⟩
    · exact ⟨SlotKind.workload cap, h⟩
  · rintro ⟨kd, h⟩
    cases kd with
    | info => exact Or.inl (Or.inl (Or.inl (Or.inl h)))
    | status => exact Or.inl (Or.inl (Or.inl (Or.inr h)))
    | position cap => exact Or.inl (Or.inl (Or.inr ⟨cap, h⟩))
    | taskStatus cap => exact Or.inl (Or.inr ⟨cap, h⟩)
    | workload cap => exact Or.inr ⟨cap, h⟩

theorem UpdateCDCKey_ID {C : Codec} (cs : ChangefeedReactorState C) (k : etcd.CDCKey)
    (value : Option Bytes) : (cs.UpdateCDCKey k value).1.ID = cs.ID := by
  unfold ChangefeedReactorState.UpdateCDCKey
  cases k.Tp <;> cases value <;> simp only <;> (repeat' split) <;> rfl

theorem UpdateCDCKey_none_ok {C : Codec} (cs : ChangefeedReactorState C) (k : etcd.CDCKey) :
    (cs.UpdateCDCKey k none).2 = none := by
  unfold ChangefeedReactorState.UpdateCDCKey
  cases k.Tp <;> simp only <;> (try split) <;> rfl

theorem UpdateCDCKey_has {C : Codec} (cs : ChangefeedReactorState C) (k : etcd.CDCKey)
    (value : Option Bytes) (kd : SlotKind) (hk : kindOf k = some kd)
    (hid : k.ChangefeedID = cs.ID) (kd' : SlotKind) :
    (cs.UpdateCDCKey k value).1.has kd' = if kd' = kd then value.isSome else cs.has kd' := by
  unfold kindOf at hk
  unfold ChangefeedReactorState.UpdateCDCKey
  cases htp : k.Tp <;> rw [htp] at hk <;> simp only [reduceCtorEq, Option.some.injEq] at hk <;>
    subst hk <;> simp only [hid, ne_eq, not_true_eq_false, if_false] <;>
    cases value <;> cases kd' <;> (try simp only []) <;>
    first
    | (simp [ChangefeedReactorState.has, kvGet_isSome_kvSet, kvGet_isSome_kvDelete]; done)
    | (split <;>
        simp [ChangefeedReactorState.has, kvGet_isSome_kvSet, kvGet_isSome_kvDelete])

end model

namespace model

theorem UpdateKey_of_kind {C : Codec} (s : GlobalReactorState C) (k : etcd.CDCKey)
    (value : Option Bytes) (kd : SlotKind) (hk : kindOf k = some kd) :
    s.UpdateKey k value =
      match kvGet s.Changefeeds k.ChangefeedID with
      | some cs => s.updateChangefeed s.Changefeeds cs k value
      | none =>
        if value.isNone then (s, none)
        else
          s.updateChangefeed (kvSet s.Changefeeds k.ChangefeedID
            (NewChangefeedReactorState C k.ChangefeedID))
            (NewChangefeedReactorState C k.ChangefeedID) k value := by
  unfold kindOf at hk
  unfold GlobalReactorState.UpdateKey
  cases htp : k.Tp <;> rw [htp] at hk <;> simp only [reduceCtorEq] at hk

theorem UpdateKey_of_no_kind {C : Codec} (s : GlobalReactorState C) (k : etcd.CDCKey)
    (value : Option Bytes) (hk : kindOf k = none) :
    (s.UpdateKey k value).1.Changefeeds = s.Changefeeds := by
  unfold kindOf at hk
  unfold GlobalReactorState.UpdateKey
  cases htp : k.Tp <;> rw [htp] at hk <;> simp only [reduceCtorEq] at hk
  · simp only
    split <;> rfl
  · cases value with
    | none => rfl
    | some v =>
      simp only
      split <;> rfl

theorem New_has {C : Codec} (id : String) (kd : SlotKind) :
    (NewChangefeedReactorState C id).has kd = false := by
  cases kd <;> simp [NewChangefeedReactorState, ChangefeedReactorState.has, kvGet]

theorem updateChangefeed_get {C : Codec} (s : GlobalReactorState C)
    (changefeeds : List (String × ChangefeedReactorState C)) (cs : ChangefeedReactorState C)
    (k : etcd.CDCKey) (value : Option Bytes) (kd : SlotKind) (hk : kindOf k = some kd)
    (hid : k.ChangefeedID = cs.ID)
    (hok : (s.updateChangefeed changefeeds cs k value).2 = none) (id : String) :
    kvGet (s.updateChangefeed changefeeds cs k value).1.Changefeeds id =
      if id = k.ChangefeedID then
        (if (cs.UpdateCDCKey k value).1.Exist then some (cs.UpdateCDCKey k value).1 else none)
      else kvGet changefeeds id := by
  unfold GlobalReactorState.updateChangefeed at hok ⊢
  simp only at hok ⊢
  cases hr : (cs.UpdateCDCKey k value).2 with
  | some err =>
    rw [hr] at hok
    cases hok
  | none =>
    simp only [hr]
    have hexist : value.isSome = true → (cs.UpdateCDCKey k value).1.Exist = true := by
      intro hv
      rw [Exist_iff_has]
      exact ⟨kd, by rw [UpdateCDCKey_has cs k value kd hk hid kd, if_pos rfl]; exact hv⟩
    by_cases hdel : (value.isNone && !(cs.UpdateCDCKey k value).1.Exist) = true
    · rw [if_pos hdel]
      simp only [Bool.and_eq_true, Bool.not_eq_true', Option.isNone_iff_eq_none] at hdel
      simp only [hdel.2, Bool.false_eq_true, if_false]
      by_cases hidk : id = k.ChangefeedID
      · rw [if_pos hidk, hidk]
        exact kvGet_kvDelete_self _ _
      · rw [if_neg hidk, kvGet_kvDelete_ne _ _ _ hidk, kvGet_kvSet_ne _ _ _ _ hidk]
    · rw [if_neg hdel]
      have hex : (cs.UpdateCDCKey k value).1.Exist = true := by
        cases value with
        | some v => exact hexist rfl
        | none =>
          simp only [Option.isNone_none, Bool.true_and, Bool.not_eq_true', Bool.not_eq_false]
            at hdel
          exact hdel
      simp only [hex, if_true]
      by_cases hidk : id = k.ChangefeedID
      · rw [if_pos hidk, hidk]
        exact kvGet_kvSet_self _ _ _
      · rw [if_neg hidk, kvGet_kvSet_ne _ _ _ _ hidk]

theorem UpdateKey_get {C : Codec} (s : GlobalReactorState C) (k : etcd.CDCKey)
    (value : Option Bytes) (kd : SlotKind) (hk : kindOf k = some kd)
    (hID : ∀ cs, kvGet s.Changefeeds k.ChangefeedID = some cs → cs.ID = k.ChangefeedID)
    (hok : (s.UpdateKey k value).2 = none) (id : String) :
    kvGet (s.UpdateKey k value).1.Changefeeds id =
      if id = k.ChangefeedID then
        (if (((kvGet s.Changefeeds k.ChangefeedID).getD
            (NewChangefeedReactorState C k.ChangefeedID)).UpdateCDCKey k value).1.Exist
          then some (((kvGet s.Changefeeds k.ChangefeedID).getD
            (NewChangefeedReactorState C k.ChangefeedID)).UpdateCDCKey k value).1
          else none)
      else kvGet s.Changefeeds id := by
  rw [UpdateKey_of_kind s k value kd hk] at hok ⊢
  cases hget : kvGet s.Changefeeds k.ChangefeedID with
  | some cs =>
    rw [hget] at hok
    simp only [Option.getD_some] at hok ⊢
    exact updateChangefeed_get s s.Changefeeds cs k value kd hk (hID cs hget).symm hok id
  | none =>
    rw [hget] at hok
    simp only [Option.getD_none] at hok ⊢
    cases value with
    | none =>
      simp only [Option.isNone_none, if_true]
      have hex : ((NewChangefeedReactorState C k.ChangefeedID).UpdateCDCKey k none).1.Exist =
          false := by
        rw [Bool.eq_false_iff]
        intro h
        obtain ⟨kd', hkd'⟩ := (Exist_iff_has _).1 h
        rw [UpdateCDCKey_has _ k none kd hk rfl kd'] at hkd'
        split at hkd'
        · cases hkd'
        · rw [New_has] at hkd'
          cases hkd'
      simp only [hex, Bool.false_eq_true, if_false]
      by_cases hidk : id = k.ChangefeedID
      · rw [if_pos hidk, hidk]
        exact hget
      · rw [if_neg hidk]
    | some v =>
      simp only [Option.isNone_some, Bool.false_eq_true, if_false] at hok ⊢
      rw [updateChangefeed_get s _ _ k (some v) kd hk rfl hok id]
      by_cases hidk : id = k.ChangefeedID
      · rw [if_pos hidk, if_pos hidk]
      · rw [if_neg hidk, if_neg hidk, kvGet_kvSet_ne _ _ _ _ hidk]

end model

namespace model

theorem tracks_step {C : Codec} (s : GlobalReactorState C) (L : String × SlotKind → Bool)
    (k : etcd.CDCKey) (value : Option Bytes) (ht : s.tracks L)
    (hok : (s.UpdateKey k value).2 = none) :
    (s.UpdateKey k value).1.tracks (liveStep L k value) := by
  obtain ⟨hI1, hI2⟩ := ht
  cases hk : kindOf k with
  | none =>
    have hcf := UpdateKey_of_no_kind s k value hk
    unfold GlobalReactorState.tracks GlobalReactorState.has liveStep
    rw [hcf, hk]
    exact ⟨hI1, hI2⟩
  | some kd =>
    have hID : ∀ cs, kvGet s.Changefeeds k.ChangefeedID = some cs → cs.ID = k.ChangefeedID :=
      fun cs hcs => (hI1 _ cs hcs).1
    have hget := UpdateKey_get s k value kd hk hID hok
    have hcs0ID : ((kvGet s.Changefeeds k.ChangefeedID).getD
        (NewChangefeedReactorState C k.ChangefeedID)).ID = k.ChangefeedID := by
      cases hg : kvGet s.Changefeeds k.ChangefeedID with
      | none => rfl
      | some cs => exact hID cs hg
    have hcs0has : ∀ kd', ((kvGet s.Changefeeds k.ChangefeedID).getD
        (NewChangefeedReactorState C k.ChangefeedID)).has kd' = L (k.ChangefeedID, kd') := by
      intro kd'
      rw [← hI2]
      unfold GlobalReactorState.has
      cases hg : kvGet s.Changefeeds k.ChangefeedID with
      | none => exact New_has _ _
      | some cs => rfl
    generalize (kvGet s.Changefeeds k.ChangefeedID).getD
      (NewChangefeedReactorState C k.ChangefeedID) = cs0 at hget hcs0ID hcs0has
    have hhas := UpdateCDCKey_has cs0 k value kd hk hcs0ID.symm
    constructor
    · intro id cs hcs
      rw [hget id] at hcs
      by_cases hidk : id = k.ChangefeedID
      · rw [if_pos hidk] at hcs
        by_cases hex : (cs0.UpdateCDCKey k value).1.Exist = true
        · rw [if_pos hex] at hcs
          cases hcs
          exact ⟨by rw [UpdateCDCKey_ID, hcs0ID, hidk], hex⟩
        · rw [if_neg hex] at hcs
          cases hcs
      · rw [if_neg hidk] at hcs
        exact hI1 id cs hcs
    · intro sl
      obtain ⟨c, kd'⟩ := sl
      unfold GlobalReactorState.has liveStep
      simp only [hk]
      rw [hget c]
      by_cases hidk : c = k.ChangefeedID
      · subst hidk
        rw [if_pos rfl]
        have hlhs : (match (if (cs0.UpdateCDCKey k value).1.Exist = true
              then some (cs0.UpdateCDCKey k value).1 else none) with
            | none => false
            | some cs => cs.has kd') = (cs0.UpdateCDCKey k value).1.has kd' := by
          by_cases hex : (cs0.UpdateCDCKey k value).1.Exist = true
          · rw [if_pos hex]
          · rw [if_neg hex]
            simp only
            cases hh : (cs0.UpdateCDCKey k value).1.has kd' with
            | false => rfl
            | true => exact absurd ((Exist_iff_has _).2 ⟨kd', hh⟩) hex
        rw [hlhs, hhas kd', hcs0has kd']
        by_cases hkd : kd' = kd
        · subst hkd
          simp
        · have hne : ¬ (k.ChangefeedID, kd') = (k.ChangefeedID, kd) := by
            intro h
            exact hkd (Prod.mk.inj h).2
          rw [if_neg hkd, if_neg hne]
      · rw [if_neg hidk]
        have hne : ¬ (c, kd') = (k.ChangefeedID, kd) := by
          intro h
          exact hidk (Prod.mk.inj h).1
        rw [if_neg hne, ← hI2]
        rfl

theorem tracks_runUpdates {C : Codec} (evs : List (String × Option Bytes)) :
    ∀ (s s' : GlobalReactorState C) (L : String × SlotKind → Bool), s.tracks L →
      s.runUpdates evs = some s' →
      s'.tracks (evs.foldl (fun L ev =>
        match C.parseKey ev.1 with
        | .ok k => liveStep L k ev.2
        | .error _ => L) L) := by
  induction evs with
  | nil =>
    intro s s' L ht hrun
    simp only [GlobalReactorState.runUpdates, Option.some.injEq] at hrun
    subst hrun
    exact ht
  | cons ev evs ih =>
    intro s s' L ht hrun
    unfold GlobalReactorState.runUpdates at hrun
    cases hok : (s.Update ev.1 ev.2).2 with
    | some err =>
      rw [hok] at hrun
      cases hrun
    | none =>
      rw [hok] at hrun
      simp only at hrun
      rw [List.foldl_cons]
      refine ih _ s' _ ?_ hrun
      unfold GlobalReactorState.Update at hok ⊢
      cases hp : C.parseKey ev.1 with
      | error e =>
        rw [hp] at hok
        cases hok
      | ok k =>
        rw [hp] at hok
        exact tracks_step s L k ev.2 ht hok

theorem tracks_init (C : Codec) : (NewGlobalState C).tracks (fun _ => false) := by
  constructor
  · intro id cs hcs
    simp [NewGlobalState, kvGet] at hcs
  · intro sl
    simp [GlobalReactorState.has, NewGlobalState, kvGet]

/-- C18: starting from `NewGlobalState`, after any sequence of `Update` calls that all
succeed, a changefeed id is present in `Changefeeds` if and only if at least one of its
Info, Status, TaskPosition, TaskStatus or TaskWorkload keys has been set and not deleted
since; every entry of `Changefeeds` satisfies `Exist()` and carries its key as `ID`; a
delete for a changefeed that is not in the map returns no error and changes nothing; and a
delete of a key of a changefeed none of whose other keys is set succeeds and leaves no
entry for it. -/
theorem changefeed_present_iff_key_live (C : Codec) (evs : List (String × Option Bytes))
    (s : GlobalReactorState C) (hrun : (NewGlobalState C).runUpdates evs = some s) :
    (∀ id, (kvGet s.Changefeeds id).isSome = true ↔ ∃ kd, liveKeys C evs (id, kd) = true) ∧
    (∀ id cs, kvGet s.Changefeeds id = some cs → cs.Exist = true ∧ cs.ID = id) ∧
    (∀ key k kd, C.parseKey key = .ok k → kindOf k = some kd →
      kvGet s.Changefeeds k.ChangefeedID = none → s.Update key none = (s, none)) ∧
    (∀ key k kd, C.parseKey key = .ok k → kindOf k = some kd →
      (∀ kd', kd' ≠ kd → liveKeys C evs (k.ChangefeedID, kd') = false) →
      (s.Update key none).2 = none ∧
      kvGet (s.Update key none).1.Changefeeds k.ChangefeedID = none) := by
  have ht : s.tracks (liveKeys C evs) :=
    tracks_runUpdates evs (NewGlobalState C) s _ (tracks_init C) hrun
  obtain ⟨hI1, hI2⟩ := ht
  refine ⟨fun id => ?_, fun id cs hcs => ⟨(hI1 id cs hcs).2, (hI1 id cs hcs).1⟩, ?_, ?_⟩
  · constructor
    · intro h
      cases hg : kvGet s.Changefeeds id with
      | none =>
        rw [hg] at h
        cases h
      | some cs =>
        obtain ⟨kd, hkd⟩ := (Exist_iff_has cs).1 (hI1 id cs hg).2
        refine ⟨kd, ?_⟩
        rw [← hI2]
        unfold GlobalReactorState.has
        simp only [hg]
        exact hkd
    · rintro ⟨kd, hkd⟩
      rw [← hI2] at hkd
      unfold GlobalReactorState.has at hkd
      cases hg : kvGet s.Changefeeds id with
      | none =>
        simp only [hg] at hkd
        cases hkd
      | some cs => rfl
  · intro key k kd hp hk hnone
    unfold GlobalReactorState.Update
    rw [hp]
    simp only
    rw [UpdateKey_of_kind s k none kd hk, hnone]
    rfl
  · intro key k kd hp hk hothers
    have hupd : s.Update key none = s.UpdateKey k none := by
      unfold GlobalReactorState.Update
      rw [hp]
    have hok : (s.UpdateKey k none).2 = none := by
      rw [UpdateKey_of_kind s k none kd hk]
      cases hg : kvGet s.Changefeeds k.ChangefeedID with
      | none => rfl
      | some cs =>
        simp only
        unfold GlobalReactorState.updateChangefeed
        simp only [UpdateCDCKey_none_ok]
        split <;> rfl
    rw [hupd]
    refine ⟨hok, ?_⟩
    obtain ⟨_, hJ2⟩ := tracks_step s (liveKeys C evs) k none ⟨hI1, hI2⟩ hok
    cases hg : kvGet (s.UpdateKey k none).1.Changefeeds k.ChangefeedID with
    | none => rfl
    | some cs =>
      exfalso
      have hex := (tracks_step s (liveKeys C evs) k none ⟨hI1, hI2⟩ hok).1 _ cs hg
      obtain ⟨kd', hkd'⟩ := (Exist_iff_has cs).1 hex.2
      have h2 := hJ2 (k.ChangefeedID, kd')
      unfold GlobalReactorState.has at h2
      simp only [hg] at h2
      rw [hkd'] at h2
      unfold liveStep at h2
      simp only [hk] at h2
      by_cases hkd : kd' = kd
      · subst hkd
        simp at h2
      · have hne : ¬ (k.ChangefeedID, kd') = (k.ChangefeedID, kd) := by
          intro h
          exact hkd (Prod.mk.inj h).2
        rw [if_neg hne, hothers kd' hkd] at h2
        cases h2

/-- Witness of C18, with the example codec: after the info key and the status key of `cf1`
were set and both deleted, all four calls succeeding, `cf1` is in `Changefeeds` exactly
when one of its keys is set, which is not the case: the map is empty. -/
theorem changefeed_present_iff_key_live_witness :
    ∃ s, (NewGlobalState toyCodec).runUpdates cf1Events = some s ∧
      s.Changefeeds.length = 0 ∧
      ((kvGet s.Changefeeds "cf1").isSome = true ↔
        ∃ kd, liveKeys toyCodec cf1Events ("cf1", kd) = true) :=
  ⟨_, rfl, rfl, (changefeed_present_iff_key_live toyCodec cf1Events _ rfl).1 "cf1"⟩

end model

namespace owner

/-! ## The DDL puller -/

/-- C21: `FrontDDL()` returns `(resolvedTS, nil)` when the pending queue is empty and
`(head.FinishedTS, head)` otherwise, and leaves the state unchanged; `PopFrontDDL()`
returns the same pair as `FrontDDL()`, removes exactly the head of the queue when it is
non-empty, keeping the rest in order, and never changes `resolvedTS`. -/
theorem FrontDDL_PopFrontDDL_spec (h : ddlPullerImpl) :
    (h.pendingDDLJobs = [] →
      h.FrontDDL = (h, h.resolvedTS, none) ∧ h.PopFrontDDL = (h, h.resolvedTS, none)) ∧
    (∀ job rest, h.pendingDDLJobs = job :: rest →
      h.FrontDDL = (h, job.FinishedTS, some job) ∧
      h.PopFrontDDL = ({ h with pendingDDLJobs := rest }, job.FinishedTS, some job)) ∧
    h.FrontDDL.1 = h ∧ h.PopFrontDDL.2 = h.FrontDDL.2 ∧
    h.PopFrontDDL.1.pendingDDLJobs = h.pendingDDLJobs.tail ∧
    h.PopFrontDDL.1.resolvedTS = h.resolvedTS ∧
    h.PopFrontDDL.1.lastDDLFinishedTs = h.lastDDLFinishedTs := by
  unfold ddlPullerImpl.FrontDDL ddlPullerImpl.PopFrontDDL
  cases hp : h.pendingDDLJobs with
  | nil =>
    refine ⟨fun _ => ⟨rfl, rfl⟩, fun job rest hjr => (by cases hjr), rfl, rfl, ?_, rfl, rfl⟩
    simp [hp]
  | cons j js =>
    refine ⟨fun hnil => (by cases hnil), fun job rest hjr => ?_, rfl, rfl, rfl, rfl, rfl⟩
    simp only [List.cons.injEq] at hjr
    obtain ⟨rfl, rfl⟩ := hjr
    exact ⟨rfl, rfl⟩

/-- Witness of C21: with two pending jobs, `PopFrontDDL()` returns the first and leaves
the second. -/
theorem FrontDDL_PopFrontDDL_spec_witness :
    ({ resolvedTS := 99, pendingDDLJobs := [jobAt 100 1, jobAt 105 3],
       lastDDLFinishedTs := 105 } : ddlPullerImpl).PopFrontDDL =
      ({ resolvedTS := 99, pendingDDLJobs := [jobAt 105 3], lastDDLFinishedTs := 105 },
        100, some (jobAt 100 1)) :=
  ((FrontDDL_PopFrontDDL_spec _).2.1 (jobAt 100 1) [jobAt 105 3] rfl).2

end owner

namespace owner

theorem receiveJob_resolvedTS (h : ddlPullerImpl) (r : Nat) (j : timodel.Job) :
    ({ h with resolvedTS := r } : ddlPullerImpl).receiveJob j =
      { h.receiveJob j with resolvedTS := r } := by
  unfold ddlPullerImpl.receiveJob
  simp only
  split <;> rfl

theorem receiveJobs_resolvedTS (js : List timodel.Job) :
    ∀ (h : ddlPullerImpl) (r : Nat),
      ({ h with resolvedTS := r } : ddlPullerImpl).receiveJobs js =
        { h.receiveJobs js with resolvedTS := r } := by
  induction js with
  | nil => intro h r; rfl
  | cons j js ih =>
    intro h r
    unfold ddlPullerImpl.receiveJobs at ih ⊢
    rw [List.foldl_cons, List.foldl_cons, receiveJob_resolvedTS, ih]

theorem consume_eq_receiveJobs (env : ddlCollaborators) (raws : List model.RawKVEntry) :
    ∀ h : ddlPullerImpl, decodable env raws →
      ∃ r, h.consume env raws = { h.receiveJobs (delivered env raws) with resolvedTS := r } := by
  induction raws with
  | nil => intro h _; exact ⟨h.resolvedTS, rfl⟩
  | cons raw raws ih =>
    intro h hdec
    have hdec' : decodable env raws := fun x hx => hdec x (List.mem_cons_of_mem _ hx)
    have hraw := hdec raw (List.mem_cons_self _ _)
    unfold ddlPullerImpl.consume delivered
    rw [List.filterMap_cons]
    unfold ddlPullerImpl.receiveDDL
    by_cases hres : raw.OpType = model.OpType.OpTypeResolved
    · simp only [hres, if_true]
      split
      · obtain ⟨r, hr⟩ := ih { h with resolvedTS := raw.CRTs } hdec'
        refine ⟨r, ?_⟩
        rw [hr, receiveJobs_resolvedTS]
        rfl
      · exact ih h hdec'
    · obtain ⟨res, hok⟩ := hraw hres
      simp only [hres, if_false, hok]
      cases res with
      | none => exact ih h hdec'
      | some job =>
        simp only
        by_cases hdis : env.ShouldDiscardDDL job.Tp = true
        · simp only [hdis, if_true]
          exact ih h hdec'
        · simp only [hdis]
          obtain ⟨r, hr⟩ := ih (h.receiveJob job) hdec'
          exact ⟨r, hr⟩

theorem consume_fields (env : ddlCollaborators) (raws : List model.RawKVEntry)
    (h : ddlPullerImpl) (hdec : decodable env raws) :
    (h.consume env raws).pendingDDLJobs = (h.receiveJobs (delivered env raws)).pendingDDLJobs ∧
    (h.consume env raws).lastDDLFinishedTs =
      (h.receiveJobs (delivered env raws)).lastDDLFinishedTs := by
  obtain ⟨r, hr⟩ := consume_eq_receiveJobs env raws h hdec
  rw [hr]
  exact ⟨rfl, rfl⟩

theorem receiveJobs_append (h : ddlPullerImpl) (js : List timodel.Job) (j : timodel.Job) :
    h.receiveJobs (js ++ [j]) = (h.receiveJobs js).receiveJob j := by
  simp [ddlPullerImpl.receiveJobs, List.foldl_append]

theorem pops_spec (r l : Nat) : ∀ p : List timodel.Job,
    ({ resolvedTS := r, pendingDDLJobs := p, lastDDLFinishedTs := l } : ddlPullerImpl).pops
        (p.length + 1) =
      p.map (fun j => (j.FinishedTS, some j)) ++ [(r, none)] := by
  intro p
  induction p with
  | nil => rfl
  | cons j js ih =>
    simp only [List.length_cons, List.map_cons, List.cons_append]
    rw [ddlPullerImpl.pops]
    simp only [ddlPullerImpl.PopFrontDDL]
    rw [ih]

end owner

namespace owner

theorem pops_all (h : ddlPullerImpl) :
    h.pops (h.pendingDDLJobs.length + 1) =
      h.pendingDDLJobs.map (fun j => (j.FinishedTS, some j)) ++ [(h.resolvedTS, none)] := by
  obtain ⟨r, p, l⟩ := h
  exact pops_spec r l p

theorem receiveJobs_inv (startTs : Nat) (jobs : List timodel.Job)
    (hs : jobs.Pairwise (fun a b => a.FinishedTS ≤ b.FinishedTS)) :
    ((newDDLPuller startTs).receiveJobs jobs).resolvedTS = sub64 startTs 1 ∧
    (∀ x ∈ jobs, x.FinishedTS ≤ ((newDDLPuller startTs).receiveJobs jobs).lastDDLFinishedTs) ∧
    (∀ p ∈ ((newDDLPuller startTs).receiveJobs jobs).pendingDDLJobs,
      p.FinishedTS ≤ ((newDDLPuller startTs).receiveJobs jobs).lastDDLFinishedTs ∧
        p.FinishedTS ≠ 0) ∧
    (((newDDLPuller startTs).receiveJobs jobs).lastDDLFinishedTs ≠ 0 →
      ∃ p ∈ ((newDDLPuller startTs).receiveJobs jobs).pendingDDLJobs,
        p.FinishedTS = ((newDDLPuller startTs).receiveJobs jobs).lastDDLFinishedTs) ∧
    ((newDDLPuller startTs).receiveJobs jobs).pendingDDLJobs.Sublist jobs ∧
    ((newDDLPuller startTs).receiveJobs jobs).pendingDDLJobs.Pairwise
      (fun a b => a.FinishedTS < b.FinishedTS) ∧
    (∀ x ∈ jobs, x.FinishedTS ≠ 0 →
      ∃ p ∈ ((newDDLPuller startTs).receiveJobs jobs).pendingDDLJobs,
        p.FinishedTS = x.FinishedTS) ∧
    (∀ p ∈ ((newDDLPuller startTs).receiveJobs jobs).pendingDDLJobs,
      jobs.find? (fun x => decide (x.FinishedTS = p.FinishedTS)) = some p) := by
  induction jobs using List.reverseRecOn with
  | nil => simp [ddlPullerImpl.receiveJobs, newDDLPuller]
  | append_singleton js j ih =>
    rw [receiveJobs_append]
    have hs' := List.pairwise_append.1 hs
    obtain ⟨hres, hle, hp, hlast, hsub, hpw, hcov, hfind⟩ := ih hs'.1
    have hjle : ∀ x ∈ js, x.FinishedTS ≤ j.FinishedTS :=
      fun x hx => hs'.2.2 x hx j (List.mem_singleton.2 rfl)
    generalize (newDDLPuller startTs).receiveJobs js = h at hres hle hp hlast hsub hpw hcov hfind
    unfold ddlPullerImpl.receiveJob
    by_cases heq : j.FinishedTS = h.lastDDLFinishedTs
    · simp only [if_pos heq]
      refine ⟨hres, ?_, hp, hlast, hsub.trans (List.sublist_append_left js [j]), hpw, ?_, ?_⟩
      · intro x hx
        rcases List.mem_append.1 hx with hx | hx
        · exact hle x hx
        · rw [List.mem_singleton.1 hx, heq]
      · intro x hx hx0
        rcases List.mem_append.1 hx with hx | hx
        · exact hcov x hx hx0
        · rw [List.mem_singleton.1 hx] at hx0 ⊢
          rw [heq] at hx0 ⊢
          exact hlast hx0
      · intro p hpm
        rw [List.find?_append, hfind p hpm]
        rfl
    · simp only [if_neg heq]
      have hlastle : h.lastDDLFinishedTs < j.FinishedTS := by
        by_cases h0 : h.lastDDLFinishedTs = 0
        · omega
        · obtain ⟨p, hpm, hpe⟩ := hlast h0
          have := hjle p (hsub.subset hpm)
          omega
      refine ⟨hres, ?_, ?_, ?_, List.Sublist.append hsub (List.Sublist.refl _), ?_, ?_, ?_⟩
      · intro x hx
        rcases List.mem_append.1 hx with hx | hx
        · exact hjle x hx
        · rw [List.mem_singleton.1 hx]
      · intro p hpm
        rcases List.mem_append.1 hpm with hpm | hpm
        · exact ⟨hjle p (hsub.subset hpm), (hp p hpm).2⟩
        · rw [List.mem_singleton.1 hpm]
          exact ⟨le_refl _, by omega⟩
      · intro _
        exact ⟨j, List.mem_append.2 (Or.inr (List.mem_singleton.2 rfl)), rfl⟩
      · refine List.pairwise_append.2 ⟨hpw, List.pairwise_singleton _ _, ?_⟩
        intro a ha b hb
        rw [List.mem_singleton.1 hb]
        have := (hp a ha).1
        omega
      · intro x hx hx0
        rcases List.mem_append.1 hx with hx | hx
        · obtain ⟨p, hpm, hpe⟩ := hcov x hx hx0
          exact ⟨p, List.mem_append.2 (Or.inl hpm), hpe⟩
        · exact ⟨j, List.mem_append.2 (Or.inr (List.mem_singleton.2 rfl)),
            by rw [List.mem_singleton.1 hx]⟩
      · intro p hpm
        rcases List.mem_append.1 hpm with hpm | hpm
        · rw [List.find?_append, hfind p hpm]
          rfl
        · rw [List.mem_singleton.1 hpm, List.find?_append]
          have hnone : js.find? (fun x => decide (x.FinishedTS = j.FinishedTS)) = none := by
            rw [List.find?_eq_none]
            intro x hx
            have := hle x hx
            simp only [decide_eq_true_eq]
            omega
          rw [hnone]
          simp

end owner

namespace owner

theorem exampleCollaborators_decodable (raws : List model.RawKVEntry) :
    decodable exampleCollaborators raws :=
  fun _ _ _ => ⟨_, rfl⟩

/-- Scenario 2 of the spec, evaluated: the jobs 100, 100, 105, 105, 110 leave the first job
of each `FinishedTS` pending, and four pops yield 100, 105, 110 and then the resolved ts. -/
theorem dedup_scenario :
    delivered exampleCollaborators dedupRaws = dedupJobs ∧
    ((newDDLPuller 100).consume exampleCollaborators dedupRaws).pendingDDLJobs =
      [jobAt 100 1, jobAt 105 3, jobAt 110 5] ∧
    ((newDDLPuller 100).consume exampleCollaborators dedupRaws).pops 4 =
      [(100, some (jobAt 100 1)), (105, some (jobAt 105 3)), (110, some (jobAt 110 5)),
        (103, none)] := by
  decide

/-- C22, as the spec states it, fails for a job whose `FinishedTS` is zero: the jobs
delivered have the distinct `FinishedTS` values 0 and 100, in non-decreasing order, but the
pending queue holds no job for 0, because `lastDDLFinishedTs` starts at zero. -/
theorem zero_FinishedTS_not_pending :
    delivered exampleCollaborators zeroFirstRaws = zeroFirstJobs ∧
    zeroFirstJobs.Pairwise (fun a b => a.FinishedTS ≤ b.FinishedTS) ∧
    ((newDDLPuller 1).consume exampleCollaborators zeroFirstRaws).pendingDDLJobs =
      [jobAt 100 2] ∧
    ((newDDLPuller 1).consume exampleCollaborators zeroFirstRaws).pops 2 =
      [(100, some (jobAt 100 2)), (0, none)] := by
  decide

/-- C22, amended: when no entry fails to decode and the decoded, non-discarded DDL jobs
among the entries given to a fresh puller come in non-decreasing `FinishedTS` order, the
pending queue is a subsequence of those jobs (arrival order) with strictly increasing
`FinishedTS`; it holds a job for every non-zero `FinishedTS` delivered and none with
`FinishedTS` zero, and each pending job is the first delivered job carrying its
`FinishedTS`. Successive `PopFrontDDL()` calls return the pending jobs in that order, each
with its `FinishedTS`, and then `(resolvedTS, nil)`. -/
theorem pending_one_per_nonzero_FinishedTS (env : ddlCollaborators) (startTs : Nat)
    (raws : List model.RawKVEntry) (hdec : decodable env raws)
    (hsorted : (delivered env raws).Pairwise (fun a b => a.FinishedTS ≤ b.FinishedTS)) :
    ((newDDLPuller startTs).consume env raws).pendingDDLJobs.Sublist (delivered env raws) ∧
    ((newDDLPuller startTs).consume env raws).pendingDDLJobs.Pairwise
      (fun a b => a.FinishedTS < b.FinishedTS) ∧
    (∀ x ∈ delivered env raws, x.FinishedTS ≠ 0 →
      ∃ p ∈ ((newDDLPuller startTs).consume env raws).pendingDDLJobs,
        p.FinishedTS = x.FinishedTS) ∧
    (∀ p ∈ ((newDDLPuller startTs).consume env raws).pendingDDLJobs,
      p.FinishedTS ≠ 0 ∧
        (delivered env raws).find? (fun x => decide (x.FinishedTS = p.FinishedTS)) = some p) ∧
    ((newDDLPuller startTs).consume env raws).pops
        (((newDDLPuller startTs).consume env raws).pendingDDLJobs.length + 1) =
      ((newDDLPuller startTs).consume env raws).pendingDDLJobs.map
          (fun j => (j.FinishedTS, some j)) ++
        [(((newDDLPuller startTs).consume env raws).resolvedTS, none)] := by
  obtain ⟨_, _, hp, _, hsub, hpw, hcov, hfind⟩ :=
    receiveJobs_inv startTs (delivered env raws) hsorted
  rw [(consume_fields env raws (newDDLPuller startTs) hdec).1]
  refine ⟨hsub, hpw, hcov, fun p hpm => ⟨(hp p hpm).2, hfind p hpm⟩, ?_⟩
  rw [← (consume_fields env raws (newDDLPuller startTs) hdec).1]
  exact pops_all _

/-- Witness of C22: the spec's scenario 2, jobs 100, 100, 105, 105, 110 delivered to a
puller started at 100. -/
theorem pending_one_per_nonzero_FinishedTS_witness :
    decodable exampleCollaborators dedupRaws ∧
    (delivered exampleCollaborators dedupRaws).Pairwise
      (fun a b => a.FinishedTS ≤ b.FinishedTS) ∧
    ((newDDLPuller 100).consume exampleCollaborators dedupRaws).pendingDDLJobs.Pairwise
      (fun a b => a.FinishedTS < b.FinishedTS) ∧
    ((newDDLPuller 100).consume exampleCollaborators dedupRaws).pops
        (((newDDLPuller 100).consume exampleCollaborators dedupRaws).pendingDDLJobs.length + 1) =
      ((newDDLPuller 100).consume exampleCollaborators dedupRaws).pendingDDLJobs.map
          (fun j => (j.FinishedTS, some j)) ++
        [(((newDDLPuller 100).consume exampleCollaborators dedupRaws).resolvedTS, none)] :=
  ⟨exampleCollaborators_decodable dedupRaws, by decide,
    (pending_one_per_nonzero_FinishedTS exampleCollaborators 100 dedupRaws
      (exampleCollaborators_decodable dedupRaws) (by decide)).2.1,
    (pending_one_per_nonzero_FinishedTS exampleCollaborators 100 dedupRaws
      (exampleCollaborators_decodable dedupRaws) (by decide)).2.2.2.2⟩

end owner

namespace owner

/-! ## Closing the async sink -/

/-- The value `Close()` returns when it returns: the sync-point store's result when there is
a store, whatever the backend sink returned, and the backend sink's result otherwise. -/
theorem Close_result (s s' : asyncSinkImpl) (syncpointStore : Bool)
    (sinkErr storeErr err : Option Err) (ws : List (runCase × Option Err))
    (h : s.Close syncpointStore sinkErr storeErr ws = some (s', err)) :
    err = if syncpointStore then storeErr else sinkErr := by
  unfold asyncSinkImpl.Close at h
  simp only [] at h
  split at h
  · simp only [Option.some.injEq, Prod.mk.injEq] at h
    exact h.2.symm
  · cases h

/-- C23, the divergence: with a sync-point store whose `Close()` succeeds, `Close()` returns
`nil` although the backend sink's `Close()` returned an error; the worker was cancelled and
has returned. -/
theorem Close_drops_backend_error :
    asyncSinkImpl.init.Close true (some sinkCloseFailed) none [(runCase.ctxDone, none)] =
      some ({ asyncSinkImpl.init with cancelled := true, exited := true }, none) := by
  decide

/-! ## `ddlSentTs` and `ddlFinishedTs` -/

/-- Between calls, when every call of `EmitDDLEvent` and every iteration of the worker is
taken as one step, `ddlSentTs ≥ ddlFinishedTs`. -/
theorem ddlFinishedTs_le_ddlSentTs_between_calls (es : List Event) :
    (asyncSinkImpl.init.exec es).ddlFinishedTs ≤ (asyncSinkImpl.init.exec es).ddlSentTs := by
  have ho := ddlOrdered_exec asyncSinkImpl.init es ddlOrdered_init
  have ht := ddlTraced_exec asyncSinkImpl.init es [] ddlTraced_init
  rcases ht.1 with h0 | ⟨d, ⟨r, hr, _⟩, hd⟩
  · omega
  · rw [← hd]
    refine ho.2 d (List.mem_append.2 (Or.inl ?_))
    rw [passed_eq]
    exact List.mem_map.2 ⟨(d, r), hr, rfl⟩

end owner

namespace model

/-! ## Changefeed states and their keys -/

theorem mem_kvDelete {κ β : Type} [DecidableEq κ] (m : List (κ × β)) (k : κ) (p : κ × β)
    (h : p ∈ kvDelete m k) : p ∈ m :=
  (List.mem_filter.1 h).1

theorem mem_kvSet {κ β : Type} [DecidableEq κ] (m : List (κ × β)) (k : κ) (v : β) (p : κ × β)
    (h : p ∈ kvSet m k v) : p = (k, v) ∨ p ∈ m := by
  rcases List.mem_cons.1 h with h | h
  · exact Or.inl h
  · exact Or.inr (mem_kvDelete m k p h)

theorem kvGet_mem {κ β : Type} [DecidableEq κ] (m : List (κ × β)) (k : κ) (v : β)
    (h : kvGet m k = some v) : (k, v) ∈ m := by
  unfold kvGet at h
  obtain ⟨p, hp, hv⟩ := Option.map_eq_some'.1 h
  have hk := List.find?_some hp
  have hm := List.mem_of_find?_eq_some hp
  simp only [decide_eq_true_eq] at hk
  rw [← hk, ← hv]
  exact hm

theorem updateChangefeed_keyedByID {C : Codec} (s : GlobalReactorState C)
    (changefeeds : List (String × ChangefeedReactorState C)) (cs : ChangefeedReactorState C)
    (k : etcd.CDCKey) (value : Option Bytes)
    (hm : ∀ id c, (id, c) ∈ changefeeds → c.ID = id) (hid : cs.ID = k.ChangefeedID) :
    (s.updateChangefeed changefeeds cs k value).1.keyedByID := by
  have hset : ∀ id c, (id, c) ∈ kvSet changefeeds k.ChangefeedID (cs.UpdateCDCKey k value).1 →
      c.ID = id := by
    intro id c hc
    rcases mem_kvSet _ _ _ _ hc with h | h
    · simp only [Prod.mk.injEq] at h
      rw [h.1, h.2, UpdateCDCKey_ID, hid]
    · exact hm id c h
  unfold GlobalReactorState.updateChangefeed GlobalReactorState.keyedByID
  simp only
  split
  · exact hset
  · split
    · intro id c hc
      exact hset id c (mem_kvDelete _ _ _ hc)
    · exact hset

theorem Update_keyedByID {C : Codec} (s : GlobalReactorState C) (key : String)
    (value : Option Bytes) (h : s.keyedByID) : (s.Update key value).1.keyedByID := by
  unfold GlobalReactorState.Update
  split
  · exact h
  · rename_i k _
    cases hk : kindOf k with
    | none =>
      unfold GlobalReactorState.keyedByID
      rw [UpdateKey_of_no_kind s k value hk]
      exact h
    | some kd =>
      rw [UpdateKey_of_kind s k value kd hk]
      cases hg : kvGet s.Changefeeds k.ChangefeedID with
      | some cs =>
        exact updateChangefeed_keyedByID s s.Changefeeds cs k value h
          (h _ _ (kvGet_mem _ _ _ hg))
      | none =>
        simp only
        split
        · exact h
        · refine updateChangefeed_keyedByID s _ _ k value ?_ rfl
          intro id c hc
          rcases mem_kvSet _ _ _ _ hc with h1 | h1
          · simp only [Prod.mk.injEq] at h1
            rw [h1.1, h1.2]
            rfl
          · exact h id c h1

theorem UpdateCDCKey_other_ID {C : Codec} (cs : ChangefeedReactorState C) (key : etcd.CDCKey)
    (value : Option Bytes) (h : key.ChangefeedID ≠ cs.ID) :
    cs.UpdateCDCKey key value = (cs, none) := by
  unfold ChangefeedReactorState.UpdateCDCKey
  cases key.Tp <;> simp only [h, ne_eq, not_false_eq_true, if_true]

end model

namespace model

/-- C25: in every state reached from `NewGlobalState` by `Update` calls, whatever they
return, every entry `(id, cs)` of `Changefeeds` has `cs.ID = id`; and `UpdateCDCKey` with a
key whose `ChangefeedID` differs from `cs.ID` returns no error and leaves `cs` unchanged,
so `UpdateCDCKey` changes `cs` or fails only for a key bearing `cs.ID`. -/
theorem Changefeeds_keyed_by_ID (C : Codec) (evs : List (String × Option Bytes)) :
    (∀ id cs, (id, cs) ∈ ((NewGlobalState C).applyUpdates evs).Changefeeds → cs.ID = id) ∧
    (∀ (cs : ChangefeedReactorState C) (key : etcd.CDCKey) (value : Option Bytes),
      key.ChangefeedID ≠ cs.ID → cs.UpdateCDCKey key value = (cs, none)) ∧
    (∀ (cs : ChangefeedReactorState C) (key : etcd.CDCKey) (value : Option Bytes),
      cs.UpdateCDCKey key value ≠ (cs, none) → key.ChangefeedID = cs.ID) := by
  refine ⟨?_, UpdateCDCKey_other_ID, ?_⟩
  · have hinit : (NewGlobalState C).keyedByID := by
      intro id cs hm
      cases hm
    have hall : ∀ (es : List (String × Option Bytes)) (s : GlobalReactorState C),
        s.keyedByID → (s.applyUpdates es).keyedByID := by
      intro es
      induction es with
      | nil => intro s hs; exact hs
      | cons e es ih =>
        intro s hs
        exact ih _ (Update_keyedByID s e.1 e.2 hs)
    exact hall evs _ hinit
  · intro cs key value hne
    by_contra hid
    exact hne (UpdateCDCKey_other_ID cs key value hid)

/-- Witness of C25: after the info key of `cf1` was set, the entry of the map under `cf1`
has `ID` `cf1`, and that state ignores the info key of `cf2`. -/
theorem Changefeeds_keyed_by_ID_witness :
    ("cf1", cf1WithInfo) ∈ ((NewGlobalState toyCodec).applyUpdates
      [("/tidb/cdc/changefeed/info/cf1", some seven)]).Changefeeds ∧
    cf1WithInfo.ID = "cf1" ∧
    ({ Tp := .ChangefeedInfo, ChangefeedID := "cf2" } : etcd.CDCKey).ChangefeedID ≠
      cf1WithInfo.ID ∧
    cf1WithInfo.UpdateCDCKey { Tp := .ChangefeedInfo, ChangefeedID := "cf2" } (some seven) =
      (cf1WithInfo, none) :=
  ⟨List.Mem.head _,
    (Changefeeds_keyed_by_ID toyCodec [("/tidb/cdc/changefeed/info/cf1", some seven)]).1
      "cf1" cf1WithInfo (List.Mem.head _),
    by decide,
    (Changefeeds_keyed_by_ID toyCodec []).2.1 cf1WithInfo
      { Tp := .ChangefeedInfo, ChangefeedID := "cf2" } (some seven) (by decide)⟩

end model

namespace model

/-! ## Pending patches -/

theorem GetPatches_foldl {C : Codec} (m : List (String × ChangefeedReactorState C)) :
    ∀ (acc : List (String × ChangefeedReactorState C) × List orchestrator.SingleDataPatch),
    m.foldl (fun (acc : List (String × ChangefeedReactorState C) ×
        List orchestrator.SingleDataPatch) p =>
        (acc.1 ++ [(p.1, p.2.GetPatches.1)], acc.2 ++ p.2.GetPatches.2)) acc =
      (acc.1 ++ m.map (fun p => (p.1, { p.2 with pendingPatches := [] })),
        acc.2 ++ m.flatMap (fun p => p.2.pendingPatches)) := by
  induction m with
  | nil => intro acc; simp
  | cons p m ih =>
    intro acc
    rw [List.foldl_cons, ih]
    simp [ChangefeedReactorState.GetPatches, List.append_assoc]

theorem GetPatches_eq {C : Codec} (s : GlobalReactorState C) :
    s.GetPatches =
      ({ s with
          Changefeeds := s.Changefeeds.map (fun p => (p.1, { p.2 with pendingPatches := [] }))
          pendingPatches := [] }, s.allPending) := by
  unfold GlobalReactorState.GetPatches GlobalReactorState.allPending
  simp only [GetPatches_foldl, List.nil_append]

theorem allPending_GetPatches {C : Codec} (s : GlobalReactorState C) :
    s.GetPatches.1.allPending = [] := by
  rw [GetPatches_eq]
  unfold GlobalReactorState.allPending
  simp only [List.nil_append]
  induction s.Changefeeds with
  | nil => rfl
  | cons p m ih => simpa using ih

theorem nodupKeys_GetPatches {C : Codec} (s : GlobalReactorState C) (h : s.nodupKeys) :
    s.GetPatches.1.nodupKeys := by
  rw [GetPatches_eq]
  unfold GlobalReactorState.nodupKeys at *
  simpa [List.map_map, Function.comp_def] using h

end model

namespace model

theorem nodup_kvDelete {κ β : Type} [DecidableEq κ] (m : List (κ × β)) (k : κ)
    (h : (m.map Prod.fst).Nodup) : ((kvDelete m k).map Prod.fst).Nodup :=
  List.Nodup.sublist (List.Sublist.map _ (List.filter_sublist m)) h

theorem not_mem_keys_kvDelete {κ β : Type} [DecidableEq κ] (m : List (κ × β)) (k : κ) :
    k ∉ (kvDelete m k).map Prod.fst := by
  intro hk
  obtain ⟨p, hp, hpk⟩ := List.mem_map.1 hk
  have := (List.mem_filter.1 hp).2
  simp [hpk] at this

theorem nodup_kvSet {κ β : Type} [DecidableEq κ] (m : List (κ × β)) (k : κ) (v : β)
    (h : (m.map Prod.fst).Nodup) : ((kvSet m k v).map Prod.fst).Nodup := by
  unfold kvSet
  rw [List.map_cons, List.nodup_cons]
  exact ⟨not_mem_keys_kvDelete m k, nodup_kvDelete m k h⟩

theorem kvDelete_of_not_mem {κ β : Type} [DecidableEq κ] (m : List (κ × β)) (k : κ)
    (h : k ∉ m.map Prod.fst) : kvDelete m k = m := by
  unfold kvDelete
  rw [List.filter_eq_self]
  intro p hp
  have hne : p.1 ≠ k := fun he => h (List.mem_map.2 ⟨p, hp, he⟩)
  simp [hne]

theorem not_mem_keys_of_kvGet_none {κ β : Type} [DecidableEq κ] (m : List (κ × β)) (k : κ)
    (h : kvGet m k = none) : k ∉ m.map Prod.fst := by
  intro hk
  obtain ⟨p, hp, hpk⟩ := List.mem_map.1 hk
  unfold kvGet at h
  rw [Option.map_eq_none', List.find?_eq_none] at h
  have := h p hp
  simp [hpk] at this

theorem kvDelete_kvSet_self {κ β : Type} [DecidableEq κ] (m : List (κ × β)) (k : κ) (v : β) :
    kvDelete (kvSet m k v) k = kvDelete m k := by
  unfold kvSet
  have h1 : kvDelete ((k, v) :: kvDelete m k) k = kvDelete (kvDelete m k) k := by
    unfold kvDelete
    rw [List.filter_cons_of_neg (by simp)]
  rw [h1]
  exact kvDelete_of_not_mem _ _ (not_mem_keys_kvDelete m k)

theorem flatMap_perm_kvDelete {κ β γ : Type} [DecidableEq κ] (f : κ × β → List γ)
    (m : List (κ × β)) (k : κ) (v : β) (hn : (m.map Prod.fst).Nodup)
    (hg : kvGet m k = some v) :
    (m.flatMap f).Perm (f (k, v) ++ (kvDelete m k).flatMap f) := by
  induction m with
  | nil => simp [kvGet] at hg
  | cons p m ih =>
    rw [List.map_cons, List.nodup_cons] at hn
    by_cases hp : p.1 = k
    · have hv : p = (k, v) := by
        unfold kvGet at hg
        rw [List.find?_cons_of_pos _ (by simp [hp])] at hg
        simp only [Option.map_some', Option.some.injEq] at hg
        exact Prod.ext hp hg
      have hd : kvDelete (p :: m) k = m := by
        have h1 : kvDelete (p :: m) k = kvDelete m k := by
          unfold kvDelete
          rw [List.filter_cons_of_neg (by simp [hp])]
        rw [h1]
        exact kvDelete_of_not_mem m k (hp ▸ hn.1)
      rw [hd, List.flatMap_cons, hv]
    · have hg' : kvGet m k = some v := by
        unfold kvGet at hg ⊢
        rw [List.find?_cons_of_neg _ (by simp [hp])] at hg
        exact hg
      have hd : kvDelete (p :: m) k = p :: kvDelete m k := by
        unfold kvDelete
        rw [List.filter_cons_of_pos (by simp [hp])]
      rw [hd, List.flatMap_cons, List.flatMap_cons]
      refine (List.Perm.append_left (f p) (ih hn.2 hg')).trans ?_
      rw [← List.append_assoc, ← List.append_assoc]
      exact List.Perm.append_right _ List.perm_append_comm

theorem UpdateCDCKey_pendingPatches {C : Codec} (cs : ChangefeedReactorState C)
    (k : etcd.CDCKey) (value : Option Bytes) :
    (cs.UpdateCDCKey k value).1.pendingPatches = cs.pendingPatches := by
  unfold ChangefeedReactorState.UpdateCDCKey
  cases k.Tp <;> cases value <;> simp only <;> (repeat' split) <;> rfl

theorem applyPatch_pendingPatches {C : Codec} (cs : ChangefeedReactorState C)
    (c : PatchCall C) :
    (cs.applyPatch c).pendingPatches = cs.pendingPatches ++ c.built cs.ID := by
  cases c <;> rfl

end model

namespace model

theorem updateChangefeed_allPending {C : Codec} (s : GlobalReactorState C)
    (changefeeds : List (String × ChangefeedReactorState C)) (cs : ChangefeedReactorState C)
    (k : etcd.CDCKey) (value : Option Bytes) :
    (s.updateChangefeed changefeeds cs k value).1.allPending =
      s.pendingPatches ++ (cs.pendingPatches ++
        (kvDelete changefeeds k.ChangefeedID).flatMap (fun p => p.2.pendingPatches)) := by
  have hset : (kvSet changefeeds k.ChangefeedID (cs.UpdateCDCKey k value).1).flatMap
      (fun p => p.2.pendingPatches) = cs.pendingPatches ++
        (kvDelete changefeeds k.ChangefeedID).flatMap (fun p => p.2.pendingPatches) := by
    unfold kvSet
    rw [List.flatMap_cons, UpdateCDCKey_pendingPatches]
  unfold GlobalReactorState.updateChangefeed GlobalReactorState.allPending
  simp only
  split
  · simp only [hset]
  · split
    · simp only [kvDelete_kvSet_self, ChangefeedReactorState.GetPatches,
        UpdateCDCKey_pendingPatches, List.append_assoc]
    · simp only [hset]

theorem updateChangefeed_nodupKeys {C : Codec} (s : GlobalReactorState C)
    (changefeeds : List (String × ChangefeedReactorState C)) (cs : ChangefeedReactorState C)
    (k : etcd.CDCKey) (value : Option Bytes) (h : (changefeeds.map Prod.fst).Nodup) :
    (s.updateChangefeed changefeeds cs k value).1.nodupKeys := by
  unfold GlobalReactorState.updateChangefeed GlobalReactorState.nodupKeys
  simp only
  split
  · exact nodup_kvSet _ _ _ h
  · split
    · exact nodup_kvDelete _ _ (nodup_kvSet _ _ _ h)
    · exact nodup_kvSet _ _ _ h

theorem Update_pending {C : Codec} (s : GlobalReactorState C) (key : String)
    (value : Option Bytes) (h : s.nodupKeys) :
    (s.Update key value).1.nodupKeys ∧ (s.Update key value).1.allPending.Perm s.allPending := by
  unfold GlobalReactorState.Update
  split
  · exact ⟨h, List.Perm.refl _⟩
  · rename_i k _
    cases hk : kindOf k with
    | none =>
      have hc := UpdateKey_of_no_kind s k value hk
      have hp : (s.UpdateKey k value).1.pendingPatches = s.pendingPatches := by
        unfold kindOf at hk
        unfold GlobalReactorState.UpdateKey
        cases htp : k.Tp <;> rw [htp] at hk <;> simp only [reduceCtorEq] at hk
        · simp only
          split <;> rfl
        · cases value with
          | none => rfl
          | some v =>
            simp only
            split <;> rfl
      unfold GlobalReactorState.nodupKeys GlobalReactorState.allPending
      rw [hc, hp]
      exact ⟨h, List.Perm.refl _⟩
    | some kd =>
      rw [UpdateKey_of_kind s k value kd hk]
      cases hg : kvGet s.Changefeeds k.ChangefeedID with
      | some cs =>
        simp only
        refine ⟨updateChangefeed_nodupKeys s _ cs k value h, ?_⟩
        rw [updateChangefeed_allPending]
        unfold GlobalReactorState.allPending
        exact List.Perm.append_left _
          (flatMap_perm_kvDelete (fun p => p.2.pendingPatches) s.Changefeeds k.ChangefeedID
            cs h hg).symm
      | none =>
        simp only
        split
        · exact ⟨h, List.Perm.refl _⟩
        · refine ⟨updateChangefeed_nodupKeys s _ _ k value (nodup_kvSet _ _ _ h), ?_⟩
          rw [updateChangefeed_allPending, kvDelete_kvSet_self,
            kvDelete_of_not_mem _ _ (not_mem_keys_of_kvGet_none _ _ hg)]
          exact List.Perm.refl _

end model

namespace model

theorem call_pending {C : Codec} (s : GlobalReactorState C) (c : Call C) (h : s.nodupKeys) :
    (s.call c).nodupKeys ∧
    (s.call c).allPending.Perm
      (match c with
        | .getPatches => []
        | _ => s.allPending ++ s.enqueued c) := by
  cases c with
  | update key value =>
    simp only [GlobalReactorState.call, GlobalReactorState.enqueued, List.append_nil]
    exact Update_pending s key value h
  | patch id c =>
    simp only [GlobalReactorState.call, GlobalReactorState.enqueued]
    cases hg : kvGet s.Changefeeds id with
    | none => simpa using h
    | some cs =>
      refine ⟨nodup_kvSet _ _ _ h, ?_⟩
      unfold GlobalReactorState.allPending
      simp only [kvSet, List.flatMap_cons, applyPatch_pendingPatches, List.append_assoc]
      refine List.Perm.append_left _ ?_
      refine (List.Perm.append_left _ List.perm_append_comm).trans ?_
      rw [← List.append_assoc]
      exact List.Perm.append_right _
        (flatMap_perm_kvDelete (fun p => p.2.pendingPatches) s.Changefeeds id cs h hg).symm
  | checkCaptureAlive captureID =>
    simp only [GlobalReactorState.call, GlobalReactorState.enqueued]
    refine ⟨h, ?_⟩
    unfold GlobalReactorState.allPending GlobalReactorState.CheckCaptureAlive NewGlobalState
    simp only [List.nil_append, List.append_assoc]
    exact List.Perm.append_left _ List.perm_append_comm
  | getPatches =>
    simp only [GlobalReactorState.call]
    refine ⟨nodupKeys_GetPatches s h, ?_⟩
    rw [allPending_GetPatches]

theorem calls_pending {C : Codec} (cs : List (Call C)) :
    ∀ (s : GlobalReactorState C) (since : List orchestrator.SingleDataPatch),
      s.nodupKeys → s.allPending.Perm since →
      (s.calls cs).nodupKeys ∧ (s.calls cs).allPending.Perm (s.enqueuedSince since cs) := by
  induction cs with
  | nil => intro s since hn hp; exact ⟨hn, hp⟩
  | cons c cs ih =>
    intro s since hn hp
    have hstep := call_pending s c hn
    unfold GlobalReactorState.calls
    rw [List.foldl_cons]
    cases c with
    | getPatches =>
      rw [GlobalReactorState.enqueuedSince]
      exact ih _ [] hstep.1 hstep.2
    | update key value =>
      rw [GlobalReactorState.enqueuedSince]
      · exact ih _ _ hstep.1 (hstep.2.trans (List.Perm.append_right _ hp))
      · intro hc; cases hc
    | patch id c =>
      rw [GlobalReactorState.enqueuedSince]
      · exact ih _ _ hstep.1 (hstep.2.trans (List.Perm.append_right _ hp))
      · intro hc; cases hc
    | checkCaptureAlive captureID =>
      rw [GlobalReactorState.enqueuedSince]
      · exact ih _ _ hstep.1 (hstep.2.trans (List.Perm.append_right _ hp))
      · intro hc; cases hc

end model

namespace model

theorem Update_removal_hoists {C : Codec} (s : GlobalReactorState C) (key : String)
    (value : Option Bytes) (k : etcd.CDCKey) (kd : SlotKind) (cs : ChangefeedReactorState C)
    (hkey : C.parseKey key = .ok k) (hk : kindOf k = some kd)
    (hg : kvGet s.Changefeeds k.ChangefeedID = some cs)
    (hgone : kvGet (s.Update key value).1.Changefeeds k.ChangefeedID = none) :
    (s.Update key value).1.pendingPatches = s.pendingPatches ++ cs.pendingPatches := by
  unfold GlobalReactorState.Update at hgone ⊢
  rw [hkey] at hgone ⊢
  simp only at hgone ⊢
  rw [UpdateKey_of_kind s k value kd hk, hg] at hgone ⊢
  simp only at hgone ⊢
  unfold GlobalReactorState.updateChangefeed at hgone ⊢
  simp only at hgone ⊢
  split at hgone
  · rw [kvGet_kvSet_self] at hgone
    cases hgone
  · split at hgone
    · rename_i hnone hrem
      simp only [hnone, hrem, if_true, ChangefeedReactorState.GetPatches,
        UpdateCDCKey_pendingPatches]
    · rw [kvGet_kvSet_self] at hgone
      cases hgone

/-- The scenario `hoistCalls`, evaluated: the patch enqueued on `cf1` is in the global queue
after `cf1` was removed, and `GetPatches` returns it followed by the patch of
`CheckCaptureAlive`. -/
theorem hoist_scenario :
    ((NewGlobalState toyCodec).calls hoistCalls).Changefeeds.length = 0 ∧
    ((NewGlobalState toyCodec).calls hoistCalls).GetPatches.2 =
      (PatchCall.info setInfo8 : PatchCall toyCodec).built "cf1" ++
        ((NewGlobalState toyCodec).CheckCaptureAlive "cap1").pendingPatches ∧
    ((NewGlobalState toyCodec).calls hoistCalls).GetPatches.2.length = 2 :=
  ⟨rfl, rfl, rfl⟩

/-- C26: no pending patch is lost or duplicated. After any sequence of `Update`, `Patch`
(on changefeed states held in the map), `CheckCaptureAlive` and `GetPatches` calls made on
the state built by `NewGlobalState`, the next `GetPatches` returns, up to the order, exactly
the patches enqueued since the last `GetPatches`, each as often as it was enqueued; it
returns the global queue first and then the queues of the changefeed states in the map; an
`Update` that removes a changefeed state appends that state's patches to the global queue;
and a `GetPatches` called immediately afterwards returns no patch. -/
theorem GetPatches_returns_enqueued_once (C : Codec) (cs : List (Call C)) :
    ((NewGlobalState C).calls cs).GetPatches.2.Perm
      ((NewGlobalState C).enqueuedSince [] cs) ∧
    ((NewGlobalState C).calls cs).GetPatches.2 =
      ((NewGlobalState C).calls cs).pendingPatches ++
        ((NewGlobalState C).calls cs).Changefeeds.flatMap (fun p => p.2.pendingPatches) ∧
    ((NewGlobalState C).calls cs).GetPatches.1.GetPatches.2 = [] ∧
    (∀ (key : String) (value : Option Bytes) (k : etcd.CDCKey) (kd : SlotKind)
      (c : ChangefeedReactorState C), C.parseKey key = .ok k → kindOf k = some kd →
      kvGet ((NewGlobalState C).calls cs).Changefeeds k.ChangefeedID = some c →
      kvGet (((NewGlobalState C).calls cs).Update key value).1.Changefeeds k.ChangefeedID =
        none →
      (((NewGlobalState C).calls cs).Update key value).1.pendingPatches =
        ((NewGlobalState C).calls cs).pendingPatches ++ c.pendingPatches) := by
  have hinit : (NewGlobalState C).nodupKeys := List.nodup_nil
  have hp := (calls_pending cs (NewGlobalState C) [] hinit (List.Perm.refl _)).2
  refine ⟨?_, ?_, ?_, ?_⟩
  · rw [GetPatches_eq]
    exact hp
  · rw [GetPatches_eq]
    rfl
  · have h2 := GetPatches_eq ((NewGlobalState C).calls cs).GetPatches.1
    rw [h2, allPending_GetPatches]
  · intro key value k kd c hkey hk hg hgone
    exact Update_removal_hoists _ key value k kd c hkey hk hg hgone

end model

namespace model

/-- Witness of C26: after `patchedCalls` the deletion of the info key of `cf1` removes the
changefeed state and leaves its patch in the global queue. -/
theorem GetPatches_returns_enqueued_once_witness :
    toyCodec.parseKey "/tidb/cdc/changefeed/info/cf1" = .ok cf1InfoKey ∧
    kindOf cf1InfoKey = some SlotKind.info ∧
    kvGet ((NewGlobalState toyCodec).calls patchedCalls).Changefeeds cf1InfoKey.ChangefeedID =
      some cf1Patched ∧
    kvGet (((NewGlobalState toyCodec).calls patchedCalls).Update
      "/tidb/cdc/changefeed/info/cf1" none).1.Changefeeds cf1InfoKey.ChangefeedID = none ∧
    (((NewGlobalState toyCodec).calls patchedCalls).Update
      "/tidb/cdc/changefeed/info/cf1" none).1.pendingPatches =
      ((NewGlobalState toyCodec).calls patchedCalls).pendingPatches ++
        cf1Patched.pendingPatches :=
  ⟨rfl, rfl, rfl, rfl,
    (GetPatches_returns_enqueued_once toyCodec patchedCalls).2.2.2
      "/tidb/cdc/changefeed/info/cf1" none cf1InfoKey SlotKind.info cf1Patched rfl rfl rfl rfl⟩

end model

namespace sink

/-! ## A failed `tableSink.FlushRowChangedEvents` -/

theorem tableFlush_emit_error_state (m : Manager) (p resolvedTs : Nat) (err : String)
    (resp : flushResult)
    (hi : sort.Search (m.objects p).buffer.length
      (commitAbove (m.objects p).buffer resolvedTs) ≠ 0) :
    m.tableFlushRowChangedEvents p resolvedTs (some err) resp =
      ({ backendSink :=
            { rowCalls := m.backendSink.rowCalls ++
                [(m.objects p).buffer.take (sort.Search (m.objects p).buffer.length
                  (commitAbove (m.objects p).buffer resolvedTs))]
              flushCalls := m.backendSink.flushCalls },
          checkpointTs := m.checkpointTs,
          tableSinks := m.tableSinks,
          objects := fun q =>
            if q = p then
              { tableID := (m.objects p).tableID,
                buffer :=
                  (m.objects p).buffer.drop (sort.Search (m.objects p).buffer.length
                    (commitAbove (m.objects p).buffer resolvedTs)),
                emittedTs := (m.objects p).emittedTs }
            else m.objects q,
          next := m.next },
        m.checkpointTs, some err) := by
  unfold Manager.tableFlushRowChangedEvents
  simp only [hi, if_false]
  rfl

theorem search_zero_of_all_above (l : List RowChangedEvent) (ts : Nat)
    (h : ∀ x ∈ l, x.CommitTs > ts) : sort.Search l.length (commitAbove l ts) = 0 := by
  have hall : ∀ b, b < l.length → commitAbove l ts b = true := by
    intro b hb
    unfold commitAbove
    rw [List.getElem?_eq_getElem hb]
    simp only [decide_eq_true_eq]
    exact h _ (List.getElem_mem hb)
  obtain ⟨hle, hlo, _⟩ := sort.Search_spec (commitAbove l ts) l.length
    (fun a b _ hb _ => hall b hb)
  by_contra hne
  have h0 := hlo 0 (Nat.pos_of_ne_zero hne)
  rw [hall 0 (by omega)] at h0
  cases h0

theorem tableFlush_no_rows (m : Manager) (p resolvedTs : Nat) (emitErr : Option String)
    (resp : flushResult)
    (h0 : sort.Search (m.objects p).buffer.length
      (commitAbove (m.objects p).buffer resolvedTs) = 0) :
    (m.tableFlushRowChangedEvents p resolvedTs emitErr resp).1.backendSink.rowCalls =
      m.backendSink.rowCalls := by
  unfold Manager.tableFlushRowChangedEvents
  simp only [h0, if_true]
  rw [(flushBackendSink_fields _ resp).2.1]
  rfl

end sink

namespace sink

/-- C27, as stated, fails: in scenario 6, `FlushRowChangedEvents(7)` on A with a failing
backend `EmitRowChangedEvents` returns the error with the checkpoint 5, calls no backend
flush and leaves `emittedTs` at 5, but the buffer of A has lost the rows committed at 6 and
7, and a retry with a working backend gives the backend no row. -/
theorem failed_flush_drops_rows :
    (managerABState.tableFlushRowChangedEvents 0 7 (some emitFailed) (0, none)).2 =
      (5, some emitFailed) ∧
    managerAfterFailedFlush.backendSink.flushCalls = [] ∧
    managerAfterFailedFlush.backendSink.rowCalls = [[rowA6, rowA7]] ∧
    (managerAfterFailedFlush.objects 0).emittedTs = 5 ∧
    (managerABState.objects 0).buffer = [rowA6, rowA7, rowA8] ∧
    (managerAfterFailedFlush.objects 0).buffer = [rowA8] ∧
    (managerAfterFailedFlush.tableFlushRowChangedEvents 0 7 none (5, none)).1.backendSink.rowCalls
      = [[rowA6, rowA7]] :=
  ⟨rfl, rfl, rfl, rfl, rfl, rfl, rfl⟩

/-- C27, amended: a failed table-sink flush is not atomic. When the search finds rows to
forward and the backend's `EmitRowChangedEvents` returns an error,
`FlushRowChangedEvents` returns that error together with the manager's current
`checkpointTs`, does not call the backend's `FlushRowChangedEvents`, and leaves
`checkpointTs`, the other table sinks and this table sink's `emittedTs` unchanged; the rows
handed to the backend have been removed from the buffer. For a buffer that is non-decreasing
in `CommitTs` those are the rows with `CommitTs <= resolvedTs`, the buffer keeps exactly the
rows with `CommitTs > resolvedTs`, and a retry with the same `resolvedTs` gives the backend
no row. -/
theorem failed_flush_spec (m : Manager) (p resolvedTs : Nat) (err : String)
    (resp : flushResult)
    (hi : sort.Search (m.objects p).buffer.length
      (commitAbove (m.objects p).buffer resolvedTs) ≠ 0) :
    (m.tableFlushRowChangedEvents p resolvedTs (some err) resp).2 =
      (m.getCheckpointTs, some err) ∧
    (m.tableFlushRowChangedEvents p resolvedTs (some err) resp).1.backendSink.flushCalls =
      m.backendSink.flushCalls ∧
    (m.tableFlushRowChangedEvents p resolvedTs (some err) resp).1.backendSink.rowCalls =
      m.backendSink.rowCalls ++ [(m.objects p).buffer.take
        (sort.Search (m.objects p).buffer.length
          (commitAbove (m.objects p).buffer resolvedTs))] ∧
    (m.tableFlushRowChangedEvents p resolvedTs (some err) resp).1.checkpointTs =
      m.checkpointTs ∧
    (m.tableFlushRowChangedEvents p resolvedTs (some err) resp).1.tableSinks = m.tableSinks ∧
    (∀ q, q ≠ p →
      (m.tableFlushRowChangedEvents p resolvedTs (some err) resp).1.objects q = m.objects q) ∧
    ((m.tableFlushRowChangedEvents p resolvedTs (some err) resp).1.objects p).emittedTs =
      (m.objects p).emittedTs ∧
    ((m.tableFlushRowChangedEvents p resolvedTs (some err) resp).1.objects p).buffer =
      (m.objects p).buffer.drop (sort.Search (m.objects p).buffer.length
        (commitAbove (m.objects p).buffer resolvedTs)) ∧
    (m.bufferSorted p →
      (m.objects p).buffer.take (sort.Search (m.objects p).buffer.length
          (commitAbove (m.objects p).buffer resolvedTs)) =
        (m.objects p).buffer.filter (fun r => decide (r.CommitTs ≤ resolvedTs)) ∧
      ((m.tableFlushRowChangedEvents p resolvedTs (some err) resp).1.objects p).buffer =
        (m.objects p).buffer.filter (fun r => decide (r.CommitTs > resolvedTs)) ∧
      ∀ (emitErr : Option String) (resp2 : flushResult),
        ((m.tableFlushRowChangedEvents p resolvedTs (some err) resp).1.tableFlushRowChangedEvents
          p resolvedTs emitErr resp2).1.backendSink.rowCalls =
        (m.tableFlushRowChangedEvents p resolvedTs (some err) resp).1.backendSink.rowCalls) := by
  rw [tableFlush_emit_error_state m p resolvedTs err resp hi]
  refine ⟨rfl, rfl, rfl, rfl, rfl, ?_, ?_, ?_, ?_⟩
  · intro q hq
    simp only [if_neg hq]
  · simp only [if_true]
  · simp only [if_true]
  · intro hs
    obtain ⟨htake, hdrop⟩ := search_split (m.objects p).buffer resolvedTs hs
    refine ⟨htake, ?_, ?_⟩
    · simp only [if_true]
      exact hdrop
    · intro emitErr resp2
      refine tableFlush_no_rows _ p resolvedTs emitErr resp2 ?_
      simp only [if_true]
      rw [hdrop]
      refine search_zero_of_all_above _ resolvedTs ?_
      intro x hx
      have := (List.mem_filter.1 hx).2
      simpa using this

/-- Witness of C27: the failed flush of A at 7 in scenario 6. -/
theorem failed_flush_spec_witness :
    sort.Search (managerABState.objects 0).buffer.length
      (commitAbove (managerABState.objects 0).buffer 7) ≠ 0 ∧
    (managerABState.tableFlushRowChangedEvents 0 7 (some emitFailed) (0, none)).2 =
      (managerABState.getCheckpointTs, some emitFailed) ∧
    ((managerABState.tableFlushRowChangedEvents 0 7 (some emitFailed) (0, none)).1.objects
      0).buffer =
      (managerABState.objects 0).buffer.drop
        (sort.Search (managerABState.objects 0).buffer.length
          (commitAbove (managerABState.objects 0).buffer 7)) :=
  ⟨by decide,
    (failed_flush_spec managerABState 0 7 emitFailed (0, none) (by decide)).1,
    (failed_flush_spec managerABState 0 7 emitFailed (0, none) (by decide)).2.2.2.2.2.2.2.1⟩

end sink

namespace owner

/-! ## The two goroutines, statement by statement -/

/-- Without interleaving, the three caller steps are the call `EmitDDLEvent` as one
step. -/
theorem fine_call_eq_emitDDL (f : fineState) (ctxDone : Bool) (pick : emitCase)
    (ddl : DDLEvent) (hc : f.caller = callerPc.idle) :
    (((f.step (fineEvent.load ddl)).step (fineEvent.select ctxDone pick)).step
      fineEvent.store).s = f.s.step (Event.emitDDL ctxDone pick ddl) := by
  obtain ⟨s, caller, taken⟩ := f
  simp only at hc
  subst hc
  simp only [fineState.step, asyncSinkImpl.step, asyncSinkImpl.EmitDDLEvent]
  by_cases h1 : ddl.CommitTs ≤ s.ddlFinishedTs
  · simp [h1]
  by_cases h2 : ddl.CommitTs ≤ s.ddlSentTs
  · simp [h1, h2]
  by_cases hroom : s.ddlCh.length < ddlChCap <;> cases ctxDone <;> cases pick <;>
    simp [h1, h2, hroom, fineState.emitSelect]

/-- Without interleaving, the worker's receive and execute are the iteration of `run` for a
DDL as one step. -/
theorem fine_worker_eq_runStep (f : fineState) (res : Option Err) (ht : f.taken = none) :
    ((f.step fineEvent.receive).step (fineEvent.execute res)).s =
      f.s.step (Event.worker runCase.ddl res) := by
  obtain ⟨s, caller, taken⟩ := f
  simp only at ht
  subst ht
  simp only [fineState.step, asyncSinkImpl.step, asyncSinkImpl.runStep]
  by_cases hx : s.exited = true
  · simp [hx]
  · cases hch : s.ddlCh with
    | nil => simp [hx]
    | cons d rest =>
      cases res with
      | none => simp [hx, asyncSinkImpl.executeDDL]
      | some err =>
        by_cases he : err = Err.ErrDDLEventIgnored <;> simp [hx, asyncSinkImpl.executeDDL, he]

end owner

namespace owner

theorem ddlBounded_emitSelect (f : fineState) (ctxDone : Bool) (pick : emitCase)
    (ddl : DDLEvent) (fin : Nat) (hc : f.caller = callerPc.loaded ddl fin)
    (hs : f.s.ddlSentTs < ddl.CommitTs) (h : f.ddlBounded) :
    (f.emitSelect ctxDone pick ddl).ddlBounded := by
  obtain ⟨s, caller, taken⟩ := f
  simp only at hc hs
  subst hc
  obtain ⟨h1, h2, h3, _⟩ := h
  simp only [fineState.sentBound] at h1 h2 h3
  have hidle : ({ s := s, caller := callerPc.idle, taken := taken } : fineState).ddlBounded :=
    ⟨h1, h2, h3, fun d hd => by cases hd⟩
  have hsent : fineState.ddlBounded
      { s := { s with ddlCh := s.ddlCh ++ [ddl] }, caller := callerPc.sent ddl, taken := taken } := by
    refine ⟨?_, ?_, ?_, ?_⟩
    · intro d hd
      simp only [fineState.sentBound]
      rcases List.mem_append.1 hd with hd | hd
      · have := h1 d hd
        omega
      · rw [List.mem_singleton.1 hd]
    · simp only [fineState.sentBound]
      omega
    · intro d hd
      have := h3 d hd
      simp only [fineState.sentBound]
      omega
    · intro d hd
      simp only [callerPc.sent.injEq] at hd
      rw [← hd]
      exact hs
  unfold fineState.emitSelect
  simp only
  split
  · exact ⟨h1, h2, h3, fun d hd => by cases hd⟩
  · exact hidle
  · exact hsent
  · split
    · exact hidle
    · exact hsent

theorem ddlBounded_of_fields (f g : fineState) (h : f.ddlBounded) (hc : g.caller = f.caller)
    (hs : g.s.ddlSentTs = f.s.ddlSentTs) (hch : ∀ d ∈ g.s.ddlCh, d ∈ f.s.ddlCh)
    (hfin : g.s.ddlFinishedTs = f.s.ddlFinishedTs ∨
      (∃ d ∈ f.s.ddlCh, g.s.ddlFinishedTs = d.CommitTs) ∨
      (∃ d, f.taken = some d ∧ g.s.ddlFinishedTs = d.CommitTs))
    (ht : ∀ d, g.taken = some d → f.taken = some d ∨ d ∈ f.s.ddlCh) : g.ddlBounded := by
  obtain ⟨h1, h2, h3, h4⟩ := h
  have hb : g.sentBound = f.sentBound := by
    unfold fineState.sentBound
    rw [hc, hs]
  refine ⟨fun d hd => hb ▸ h1 d (hch d hd), ?_, ?_, ?_⟩
  · rw [hb]
    rcases hfin with hf | ⟨d, hd, hf⟩ | ⟨d, hd, hf⟩
    · rw [hf]
      exact h2
    · rw [hf]
      exact h1 d hd
    · rw [hf]
      exact h3 d hd
  · intro d hd
    rw [hb]
    rcases ht d hd with h' | h'
    · exact h3 d h'
    · exact h1 d h'
  · intro ddl hd
    rw [hs]
    exact h4 ddl (hc ▸ hd)

end owner

namespace owner

theorem ddlBounded_set_caller (f : fineState) (c : callerPc) (h : f.ddlBounded)
    (hold : ∀ d, f.caller ≠ callerPc.sent d) (hnew : ∀ d, c ≠ callerPc.sent d) :
    ({ f with caller := c } : fineState).ddlBounded := by
  obtain ⟨s, caller, taken⟩ := f
  obtain ⟨h1, h2, h3, _⟩ := h
  have hb : ∀ (c' : callerPc), (∀ d, c' ≠ callerPc.sent d) →
      ({ s := s, caller := c', taken := taken } : fineState).sentBound = s.ddlSentTs := by
    intro c' hc'
    unfold fineState.sentBound
    cases c' with
    | idle => rfl
    | loaded d n => rfl
    | sent d => exact absurd rfl (hc' d)
  rw [hb caller hold] at h1 h2 h3
  refine ⟨?_, ?_, ?_, ?_⟩
  · rw [hb c hnew]
    exact h1
  · rw [hb c hnew]
    exact h2
  · rw [hb c hnew]
    exact h3
  · intro d hd
    exact absurd hd (hnew d)

theorem ddlBounded_step (f : fineState) (e : fineEvent) (h : f.ddlBounded) :
    (f.step e).ddlBounded := by
  cases e with
  | load ddl =>
    unfold fineState.step
    simp only
    split
    · rename_i hc
      exact ddlBounded_set_caller f _ h (fun d hd => by rw [hc] at hd; cases hd)
        (fun d hd => by cases hd)
    · exact h
  | select ctxDone pick =>
    unfold fineState.step
    simp only
    split
    · rename_i ddl fin hc
      have hidle := ddlBounded_set_caller f callerPc.idle h
        (fun d hd => by rw [hc] at hd; cases hd) (fun d hd => by cases hd)
      split
      · exact hidle
      · split
        · exact hidle
        · exact ddlBounded_emitSelect f ctxDone pick ddl fin hc (by omega) h
    · exact h
  | store =>
    unfold fineState.step
    simp only
    split
    · rename_i ddl hc
      obtain ⟨h1, h2, h3, _⟩ := h
      simp only [fineState.sentBound, hc] at h1 h2 h3
      exact ⟨h1, h2, h3, fun d hd => by cases hd⟩
    · exact h
  | emitCheckpoint ts =>
    unfold fineState.step
    simp only
    split
    · exact ddlBounded_of_fields f _ h rfl rfl (fun d hd => hd) (Or.inl rfl)
        (fun d hd => Or.inl hd)
    · exact h
  | receive =>
    unfold fineState.step
    simp only
    split
    · exact h
    · split
      · rename_i ddl rest ht hch
        refine ddlBounded_of_fields f _ h rfl rfl ?_ (Or.inl rfl) ?_
        · intro d hd
          rw [hch]
          exact List.mem_cons_of_mem _ hd
        · intro d hd
          simp only [Option.some.injEq] at hd
          rw [hch, ← hd]
          exact Or.inr (List.mem_cons_self _ _)
      · exact h
  | execute res =>
    unfold fineState.step
    simp only
    split
    · rename_i ddl ht
      refine ddlBounded_of_fields f _ h rfl ?_ ?_ ?_ (fun d hd => by cases hd)
      · unfold asyncSinkImpl.executeDDL
        simp only
        split
        · rfl
        · split <;> rfl
      · unfold asyncSinkImpl.executeDDL
        simp only
        intro d hd
        split at hd
        · exact hd
        · split at hd <;> exact hd
      · unfold asyncSinkImpl.executeDDL
        simp only
        split
        · exact Or.inr (Or.inr ⟨ddl, ht, rfl⟩)
        · split
          · exact Or.inr (Or.inr ⟨ddl, ht, rfl⟩)
          · exact Or.inl rfl
    · exact h
  | worker c res =>
    unfold fineState.step
    simp only
    split
    · rename_i ht
      cases hr : f.s.runStep c res with
      | none => exact h
      | some s' =>
        simp only [Option.getD_some]
        rcases runStep_cases f.s c res s' hr with ⟨_, h2, h3, h4⟩ |
          ⟨d, rest, hch, h2, _, h4, h5⟩
        · exact ddlBounded_of_fields f _ h rfl h4 (fun x hx => h2 ▸ hx) (Or.inl h3)
            (fun x hx => Or.inl hx)
        · refine ddlBounded_of_fields f _ h rfl h4 ?_ ?_ (fun x hx => Or.inl hx)
          · intro x hx
            simp only at hx
            rw [h2] at hx
            rw [hch]
            exact List.mem_cons_of_mem _ hx
          · rcases h5 with ⟨_, h5⟩ | ⟨_, h5⟩
            · exact Or.inr (Or.inl ⟨d, by rw [hch]; exact List.mem_cons_self _ _, h5⟩)
            · exact Or.inl h5
    · exact h

theorem ddlBounded_exec (es : List fineEvent) :
    ∀ f : fineState, f.ddlBounded → (f.exec es).ddlBounded := by
  induction es with
  | nil => intro f h; exact h
  | cons e es ih => intro f h; exact ih _ (ddlBounded_step f e h)

theorem ddlBounded_init : fineState.init.ddlBounded := by
  refine ⟨?_, ?_, ?_, ?_⟩
  · intro d hd
    cases hd
  · exact Nat.le_refl _
  · intro d hd
    cases hd
  · intro d hd
    cases hd

end owner

namespace owner

/-- C24, as stated, fails between the channel send and the store of `ddlSentTs`: the caller
sends `ddl5` on the fresh sink, the worker receives and executes it, and `ddlFinishedTs` is
5 while `ddlSentTs` is still 0; the caller's store then makes `ddlSentTs` 5. -/
theorem ddlFinishedTs_overtakes_ddlSentTs :
    (fineState.init.exec overtakeSteps).caller = callerPc.sent ddl5 ∧
    (fineState.init.exec overtakeSteps).s.ddlFinishedTs = 5 ∧
    (fineState.init.exec overtakeSteps).s.ddlSentTs = 0 ∧
    ¬ (fineState.init.exec overtakeSteps).s.ddlSentTs ≥
      (fineState.init.exec overtakeSteps).s.ddlFinishedTs ∧
    ((fineState.init.exec overtakeSteps).step fineEvent.store).s.ddlSentTs = 5 := by
  decide

/-- C24, amended: in every state reached from the state built by `newAsyncSink` by the
steps of `EmitDDLEvent` calls, `EmitCheckpointTs` calls and the worker, interleaved
statement by statement, `ddlSentTs ≥ ddlFinishedTs` holds whenever no `EmitDDLEvent` call
is between its channel send and its store of `ddlSentTs`; while a call is between the two,
`ddlFinishedTs` is at most the commit-ts of the DDL just sent, which is above
`ddlSentTs`. -/
theorem ddlSentTs_ge_ddlFinishedTs_outside_send (es : List fineEvent) :
    ((∀ ddl, (fineState.init.exec es).caller ≠ callerPc.sent ddl) →
      (fineState.init.exec es).s.ddlSentTs ≥ (fineState.init.exec es).s.ddlFinishedTs) ∧
    (∀ ddl, (fineState.init.exec es).caller = callerPc.sent ddl →
      (fineState.init.exec es).s.ddlFinishedTs ≤ ddl.CommitTs ∧
      (fineState.init.exec es).s.ddlSentTs < ddl.CommitTs) := by
  obtain ⟨_, h2, _, h4⟩ := ddlBounded_exec es fineState.init ddlBounded_init
  unfold fineState.sentBound at h2
  constructor
  · intro hns
    cases hc : (fineState.init.exec es).caller with
    | idle => simpa [hc] using h2
    | loaded d n => simpa [hc] using h2
    | sent d => exact absurd hc (hns d)
  · intro ddl hc
    rw [hc] at h2
    exact ⟨h2, h4 ddl hc⟩

/-- Witness of C24: after `overtakeSteps` the call is between send and store and
`ddlFinishedTs` is at most the commit-ts of `ddl5`; after the store, `ddlSentTs ≥
ddlFinishedTs`. -/
theorem ddlSentTs_ge_ddlFinishedTs_outside_send_witness :
    ((fineState.init.exec overtakeSteps).caller = callerPc.sent ddl5 ∧
      (fineState.init.exec overtakeSteps).s.ddlFinishedTs ≤ ddl5.CommitTs ∧
      (fineState.init.exec overtakeSteps).s.ddlSentTs < ddl5.CommitTs) ∧
    ((∀ ddl, (fineState.init.exec (overtakeSteps ++ [fineEvent.store])).caller ≠
        callerPc.sent ddl) ∧
      (fineState.init.exec (overtakeSteps ++ [fineEvent.store])).s.ddlSentTs ≥
        (fineState.init.exec (overtakeSteps ++ [fineEvent.store])).s.ddlFinishedTs) :=
  ⟨⟨by decide, (ddlSentTs_ge_ddlFinishedTs_outside_send overtakeSteps).2 ddl5 (by decide)⟩,
    ⟨fun ddl h => (by cases h),
      (ddlSentTs_ge_ddlFinishedTs_outside_send (overtakeSteps ++ [fineEvent.store])).1
        (fun ddl h => (by cases h))⟩⟩

end owner
